import Mathlib

/-! Shannon-Fano codec, ASCII85 codec and Gaussian solver.

Shallow embedding of `src/assignment3/src/shannon_fano.cpp` and
`src/assignment3/include/shannon_fano.hpp`.

* Byte streams are lists of bytes; an output stream is the list of bytes put so far.
  The in-memory sinks always accept a write, so the `os.good()` failure paths are absent.
* `size_t` and `uint64_t` values are natural numbers reduced modulo `2 ^ 64` after every
  arithmetic step, `unsigned char` values modulo `256`.
* `std::map<unsigned char, V>` is a finite partial function on the 256 byte values, iterated
  in ascending key order.
* The heap of `TrieNode` objects is an arena in which a node is addressed by the edge labels
  on its path from the root.
-/

namespace shannon_fano

/-- An `unsigned char`: one byte value 0..255. -/
abbrev Byte := Fin 256

/-- A `std::string`: the sequence of its `char`s, each held as a byte value. -/
abbrev Str := List Byte

/-- The conversion of an integer value to `unsigned char` (or to `char`, `uint8_t`): the value
modulo 256. -/
def toByte (x : Nat) : Byte := ⟨x % 256, Nat.mod_lt x (by decide)⟩

/-- The character `'0'`. -/
def chr0 : Byte := 48

/-- The character `'1'`. -/
def chr1 : Byte := 49

/-- A `std::map<unsigned char, V>`: `find k` is the value stored under key `k`, if any. -/
structure ByteMap (V : Type) where
  find : Byte → Option V

namespace ByteMap

/-- The map after `clear()`. -/
def empty {V : Type} : ByteMap V := ⟨fun _ => none⟩

/-- The map after `m[k] = v`. -/
def insert {V : Type} (m : ByteMap V) (k : Byte) (v : V) : ByteMap V :=
  ⟨fun x => if x = k then some v else m.find x⟩

/-- The entries met by `for (const auto& pair : m)`: ascending key order. -/
def entries {V : Type} (m : ByteMap V) : List (Byte × V) :=
  (List.finRange 256).filterMap (fun k => (m.find k).map (fun v => (k, v)))

/-- The value of `m.size()`. -/
def size {V : Type} (m : ByteMap V) : Nat := m.entries.length

end ByteMap

/-- The struct `ShannonFano::SymbolInfo`; `frequency` is a `size_t`. -/
structure SymbolInfo where
  symbol : Byte
  frequency : Nat
deriving DecidableEq, Repr

/-- The comparison `SymbolInfo::operator<`: frequency descending, then symbol ascending. -/
def SymbolInfo.lt (a other : SymbolInfo) : Bool :=
  if a.frequency ≠ other.frequency then decide (a.frequency > other.frequency)
  else decide (a.symbol < other.symbol)

/-- The call `std::sort(symbols.begin(), symbols.end())`: the elements rearranged so that no
element compares less than one standing before it (insertion sort is the algorithm here). -/
def std_sort (symbols : List SymbolInfo) : List SymbolInfo :=
  symbols.insertionSort (fun a b => SymbolInfo.lt b a = false)

/-- The conversion `static_cast<long long>(x)` of a `size_t` value `x < 2 ^ 64`. -/
def toLongLong (x : Nat) : Int :=
  if x < 2 ^ 63 then (x : Int) else (x : Int) - 2 ^ 64

/-- The split scan of `shannonFanoRecursive` (the `for` loop over `it_try_split`), run on the
elements from `it_try_split` up to `std::prev(end)`. `i` is `it_try_split - begin` and the
result is `split_iter - begin` when the loop ends. The signed difference is taken in the
integers; it fits `long long` whenever the total is below `2 ^ 63`. -/
def scanSplit (total_freq_in_range : Nat) :
    List SymbolInfo → Nat → Nat → Nat → Nat → Nat
  | [], _, _, _, split_iter => split_iter
  | s :: rest, i, current_sum_freq, min_diff, split_iter =>
    let current_sum_freq := (current_sum_freq + s.frequency) % 2 ^ 64
    let diff := (toLongLong current_sum_freq
      - toLongLong ((total_freq_in_range + 2 ^ 64 - current_sum_freq) % 2 ^ 64)).natAbs % 2 ^ 64
    if diff < min_diff then
      scanSplit total_freq_in_range rest (i + 1) current_sum_freq diff (i + 1)
    else if diff ≥ min_diff ∧ current_sum_freq > total_freq_in_range / 2 then
      split_iter
    else
      scanSplit total_freq_in_range rest (i + 1) current_sum_freq min_diff split_iter

/-- The sum `total_freq_in_range` accumulated over the range in a `size_t`. -/
def totalFreq (syms : List SymbolInfo) : Nat :=
  syms.foldl (fun acc s => (acc + s.frequency) % 2 ^ 64) 0

/-- The value of `split_iter - begin` at the two recursive calls of `shannonFanoRecursive`
on a range of at least two symbols: the scan result, moved to 1 when the scan left it at
`begin`. -/
def splitIndex (syms : List SymbolInfo) : Nat :=
  let total_freq_in_range := totalFreq syms
  let split_iter := scanSplit total_freq_in_range syms.dropLast 0 0 total_freq_in_range 0
  if split_iter = 0 then 1 else split_iter

/-- The method `ShannonFano::shannonFanoRecursive` on the range `syms` with the code table
passed through. The first argument bounds the recursion depth; a range of `n` symbols needs
at most `n`. -/
def shannonFanoRecursive :
    Nat → List SymbolInfo → Str → ByteMap Str → ByteMap Str
  | 0, _, _, codeTable => codeTable
  | fuel + 1, syms, currentCode, codeTable =>
    match syms with
    | [] => codeTable
    | [s] => codeTable.insert s.symbol currentCode
    | _ =>
      let split := splitIndex syms
      let codeTable := shannonFanoRecursive fuel (syms.take split) (currentCode ++ [chr0]) codeTable
      shannonFanoRecursive fuel (syms.drop split) (currentCode ++ [chr1]) codeTable

/-- The method `ShannonFano::buildFrequencyMap`: the frequency map and `originalFileSize`
after the scan of the whole input. -/
def buildFrequencyMap (inputFile : List Byte) : ByteMap Nat × Nat :=
  inputFile.foldl
    (fun st b => (st.1.insert b ((((st.1.find b).getD 0) + 1) % 2 ^ 64), (st.2 + 1) % 2 ^ 64))
    (ByteMap.empty, 0)

/-- The method `ShannonFano::buildCodesInternal`: the code table built from a frequency map. -/
def buildCodesInternal (frequencyMap : ByteMap Nat) : ByteMap Str :=
  let symbols := frequencyMap.entries.map (fun p => SymbolInfo.mk p.1 p.2)
  match std_sort symbols with
  | [] => ByteMap.empty
  | [s] => ByteMap.empty.insert s.symbol [chr0]
  | sorted => shannonFanoRecursive sorted.length sorted [] ByteMap.empty

/-- Why a call ended in an exception: one value for each `throw` the streams of this model
can reach, and one for the `std::out_of_range` of `codeTable.at`. -/
inductive Error where
  | mismatchInFileSize
  | symbolNotInCodeTable
  | failedToReadOriginalFileSize
  | failedToReadNumEntries
  | eofWhileReadingSymbol
  | eofWhileReadingCodeLength
  | invalidZeroCodeLength
  | failedToReadCodeString
  | codeTableEmptyForNonEmptyFile
  | noPathInTrie
  | decodedBytesDoNotMatch
deriving DecidableEq, Repr

/-- The class `ShannonFano::BitWriter`; `os` holds the bytes put to the sink so far. -/
structure BitWriter where
  os : List Byte
  buffer : Nat
  bit_count : Nat

/-- The method `BitWriter::writeBit`. -/
def BitWriter.writeBit (w : BitWriter) (bit : Bool) : BitWriter :=
  let buffer := ((w.buffer <<< 1) ||| (if bit then 1 else 0)) % 256
  let bit_count := w.bit_count + 1
  if bit_count = 8 then ⟨w.os ++ [toByte buffer], 0, 0⟩
  else ⟨w.os, buffer, bit_count⟩

/-- The method `BitWriter::flush`. -/
def BitWriter.flush (w : BitWriter) : BitWriter :=
  if w.bit_count > 0 then
    let buffer := (w.buffer <<< (8 - w.bit_count)) % 256
    ⟨w.os ++ [toByte buffer], 0, 0⟩
  else w

/-- The class `ShannonFano::BitReader`; `is` holds the bytes of the source not yet read. -/
structure BitReader where
  is : List Byte
  buffer : Nat
  bit_count : Nat

/-- The method `BitReader::readBit`: `none` is the return value `false` (end of input),
`some (bit_val, r)` the return value `true` with the bit and the reader afterwards. -/
def BitReader.readBit (r : BitReader) : Option (Bool × BitReader) :=
  let refilled : Option BitReader :=
    if r.bit_count = 0 then
      match r.is with
      | [] => none
      | byte_val :: rest => some ⟨rest, byte_val.val, 8⟩
    else some r
  match refilled with
  | none => none
  | some r => some ((r.buffer &&& 0x80) != 0, ⟨r.is, (r.buffer <<< 1) % 256, r.bit_count - 1⟩)

/-- The object representation of an unsigned integer of `width` bytes as `write` copies it
out of memory on a little-endian host: least significant byte first. -/
def toBytes (width : Nat) (x : Nat) : List Byte :=
  (List.range width).map (fun i => toByte (x / 256 ^ i))

/-- The unsigned integer whose object representation `read` copied into memory. -/
def ofBytes (bs : List Byte) : Nat :=
  bs.foldr (fun b acc => b.val + 256 * acc) 0

/-- The bytes one pass of the loop of `writeDictionary` puts for the entry `pair`. -/
def writeEntry (pair : Byte × Str) : List Byte :=
  let code_length := pair.2.length % 256
  [pair.1, toByte code_length] ++ pair.2.take code_length

/-- The method `ShannonFano::writeDictionary`: the bytes written to an empty `dictFile`. -/
def writeDictionary (codeTable : ByteMap Str) (originalFileSize : Nat) : List Byte :=
  toBytes 8 originalFileSize ++ toBytes 2 (codeTable.size % 2 ^ 16)
    ++ codeTable.entries.flatMap writeEntry

/-- The `while` loop of `writeCompressedData` on the unread input: the count of bytes
processed and the writer when the loop ends or `codeTable.at` throws, and that exception, if
any. The increment of `bytes_processed` cannot wrap, the value being below
`originalFileSize`. -/
def writeCompressedLoop (codeTable : ByteMap Str) (originalFileSize : Nat) :
    List Byte → Nat → BitWriter → Nat × BitWriter × Option Error
  | [], bytes_processed, writer => (bytes_processed, writer, none)
  | byte_char :: rest, bytes_processed, writer =>
    if bytes_processed < originalFileSize then
      match codeTable.find byte_char with
      | none => (bytes_processed, writer, some .symbolNotInCodeTable)
      | some code =>
        writeCompressedLoop codeTable originalFileSize rest (bytes_processed + 1)
          (code.foldl (fun w bit_char => w.writeBit (bit_char == chr1)) writer)
    else (bytes_processed, writer, none)

/-- The method `ShannonFano::writeCompressedData` on an empty `outputFile`: the bytes
written (before the exception, when there is one) and the exception thrown, if any. -/
def writeCompressedData (codeTable : ByteMap Str) (originalFileSize : Nat)
    (inputFile : List Byte) : List Byte × Option Error :=
  let r := writeCompressedLoop codeTable originalFileSize inputFile 0 ⟨[], 0, 0⟩
  match r.2.2 with
  | some e => (r.2.1.os, some e)
  | none =>
    if r.1 ≠ originalFileSize ∧ originalFileSize ≠ 0 then (r.2.1.os, some .mismatchInFileSize)
    else (r.2.1.flush.os, none)

/-- The `for` loop of `readDictionary` with `remaining` passes left, on the unread rest of
`dictFile`: the code table after the last pass, or the exception thrown. -/
def readEntries (num_entries originalFileSize : Nat) :
    Nat → List Byte → ByteMap Str → Except Error (ByteMap Str)
  | 0, _, codeTable => .ok codeTable
  | remaining + 1, dictFile, codeTable =>
    match dictFile with
    | [] => .error .eofWhileReadingSymbol
    | symbol :: dictFile =>
      match dictFile with
      | [] => .error .eofWhileReadingCodeLength
      | code_length :: dictFile =>
        if code_length.val = 0
            ∧ (num_entries > 1 ∨ (num_entries = 1 ∧ originalFileSize > 0)) then
          .error .invalidZeroCodeLength
        else if dictFile.length < code_length.val then .error .failedToReadCodeString
        else
          readEntries num_entries originalFileSize remaining (dictFile.drop code_length.val)
            (codeTable.insert symbol (dictFile.take code_length.val))

/-- The method `ShannonFano::readDictionary`: the code table and `originalFileSize` read
from `dictFile`, or the exception thrown. A `read` of `n` bytes fails when fewer than `n`
bytes are left, a `get` when none is left. The last test of the method, for a stream that is
neither good nor at its end, cannot fire on an in-memory stream. -/
def readDictionary (dictFile : List Byte) : Except Error (ByteMap Str × Nat) :=
  if dictFile.length < 8 then .error .failedToReadOriginalFileSize
  else
    let originalFileSize := ofBytes (dictFile.take 8)
    let dictFile := dictFile.drop 8
    if dictFile.length < 2 then .error .failedToReadNumEntries
    else
      let num_entries := ofBytes (dictFile.take 2)
      match readEntries num_entries originalFileSize num_entries (dictFile.drop 2)
          ByteMap.empty with
      | .error e => .error e
      | .ok codeTable => .ok (codeTable, originalFileSize)

/-- The struct `TrieNode` without its `children`, which the arena holds. -/
structure TrieNode where
  isEndOfCode : Bool
  symbol : Byte
deriving DecidableEq, Repr

/-- The nodes reachable from `decodeTrieRoot`: `node p` is the node at the end of the path
with edge labels `p` from the root, so `node (p ++ [c])` is what
`children.find(c)` finds at the node `p`. -/
structure Trie where
  node : Str → Option TrieNode

/-- The trie after `decodeTrieRoot = new TrieNode()`. -/
def Trie.root : Trie := ⟨fun p => if p = [] then some ⟨false, 0⟩ else none⟩

/-- The arena with the node at path `p` replaced or created. -/
def Trie.set (t : Trie) (p : Str) (n : TrieNode) : Trie :=
  ⟨fun q => if q = p then some n else t.node q⟩

/-- The `for` loop of `insertIntoTrie` from the node `current` over the rest of the code:
the arena and the node reached. -/
def insertWalk (t : Trie) (current : Str) : Str → Trie × Str
  | [] => (t, current)
  | bit_char :: rest =>
    let child := current ++ [bit_char]
    let t := if (t.node child).isNone then t.set child ⟨false, 0⟩ else t
    insertWalk t child rest

/-- The method `ShannonFano::insertIntoTrie`. -/
def insertIntoTrie (t : Trie) (code : Str) (symbol : Byte) : Trie :=
  let walked := insertWalk t [] code
  walked.1.set walked.2 ⟨true, symbol⟩

/-- The method `ShannonFano::buildDecodingTrie`. -/
def buildDecodingTrie (codeTable : ByteMap Str) (originalFileSize : Nat) : Except Error Trie :=
  if codeTable.size = 0 ∧ originalFileSize > 0 then .error .codeTableEmptyForNonEmptyFile
  else .ok (codeTable.entries.foldl (fun t pair => insertIntoTrie t pair.2 pair.1) Trie.root)

/-- The `while` loop of `readCompressedDataAndDecode`: the bytes put to `outputFile`, the
value of `decodedBytesCount`, the exception thrown, if any, and the reader, all as they are
when the loop ends or throws. The first argument bounds the number of passes; each pass
reads one bit. The increment of `decodedBytesCount` cannot wrap, the value being below
`originalFileSize`. -/
def decodeLoop (trie : Trie) (originalFileSize : Nat) :
    Nat → BitReader → Str → Nat → List Byte → List Byte × Nat × Option Error × BitReader
  | 0, reader, _, decodedBytesCount, outputFile => (outputFile, decodedBytesCount, none, reader)
  | fuel + 1, reader, currentNode, decodedBytesCount, outputFile =>
    if decodedBytesCount < originalFileSize then
      match reader.readBit with
      | none => (outputFile, decodedBytesCount, none, reader)
      | some (bit_val, reader) =>
        let bit_char := if bit_val then chr1 else chr0
        match trie.node (currentNode ++ [bit_char]) with
        | none => (outputFile, decodedBytesCount, some .noPathInTrie, reader)
        | some child =>
          if child.isEndOfCode then
            decodeLoop trie originalFileSize fuel reader [] (decodedBytesCount + 1)
              (outputFile ++ [child.symbol])
          else
            decodeLoop trie originalFileSize fuel reader (currentNode ++ [bit_char])
              decodedBytesCount outputFile
    else (outputFile, decodedBytesCount, none, reader)

/-- The method `ShannonFano::readCompressedDataAndDecode` on an empty `outputFile`: the
bytes written, the exception thrown, if any, and the bytes of `inputFile` that the reader
has not fetched. A source of `k` bytes yields `8 * k` bits, so the loop makes at most
`8 * k + 1` passes. -/
def readCompressedDataAndDecode (trie : Trie) (originalFileSize : Nat)
    (inputFile : List Byte) : List Byte × Option Error × List Byte :=
  let r := decodeLoop trie originalFileSize (8 * inputFile.length + 1) ⟨inputFile, 0, 0⟩ [] 0 []
  match r.2.2.1 with
  | some e => (r.1, some e, r.2.2.2.is)
  | none =>
    if r.2.1 ≠ originalFileSize then (r.1, some .decodedBytesDoNotMatch, r.2.2.2.is)
    else (r.1, none, r.2.2.2.is)

/-- The data members of the class `ShannonFano`. -/
structure ShannonFano where
  frequencyMap : ByteMap Nat
  codeTable : ByteMap Str
  decodeTrieRoot : Option Trie
  originalFileSize : Nat

/-- The constructor `ShannonFano::ShannonFano()`: both maps empty, `decodeTrieRoot` null and
`originalFileSize` zero. -/
def ShannonFano.new : ShannonFano := ⟨ByteMap.empty, ByteMap.empty, none, 0⟩

/-- The method `ShannonFano::clearState`. -/
def ShannonFano.clearState (_self : ShannonFano) : ShannonFano :=
  ⟨ByteMap.empty, ByteMap.empty, none, 0⟩

/-- What a call of `encode` leaves behind: the bytes written to the two sinks, and either the
object afterwards or the exception thrown. -/
structure EncodeResult where
  outputFile : List Byte
  dictFile : List Byte
  status : Except Error ShannonFano

/-- The method `ShannonFano::encode` on an input stream holding `inputFile` and two empty
sinks. Whether the stream is seekable or first copied into the buffer `bufferedInput`, both
passes read the same bytes from the first one on. -/
def ShannonFano.encode (self : ShannonFano) (inputFile : List Byte) : EncodeResult :=
  let self := self.clearState
  let counted := buildFrequencyMap inputFile
  let self := { self with frequencyMap := counted.1, originalFileSize := counted.2 }
  if self.frequencyMap.size = 0 then
    ⟨[], writeDictionary self.codeTable self.originalFileSize, .ok self⟩
  else
    let self := { self with codeTable := buildCodesInternal self.frequencyMap }
    let dictFile := writeDictionary self.codeTable self.originalFileSize
    let written := writeCompressedData self.codeTable self.originalFileSize inputFile
    match written.2 with
    | some e => ⟨written.1, dictFile, .error e⟩
    | none => ⟨written.1, dictFile, .ok self⟩

/-- What a call of `decode` leaves behind: the bytes written to the sink, either the object
afterwards or the exception thrown, and the bytes of the compressed stream not read. -/
structure DecodeResult where
  outputFile : List Byte
  status : Except Error ShannonFano
  inputFile : List Byte

/-- The method `ShannonFano::decode` on the compressed stream `inputFile`, the dictionary
stream `dictFile` and an empty sink. `buildDecodingTrie` always leaves a root node, so the
test for a null `decodeTrieRoot` after it cannot fire. -/
def ShannonFano.decode (self : ShannonFano) (inputFile dictFile : List Byte) : DecodeResult :=
  let self := self.clearState
  match readDictionary dictFile with
  | .error e => ⟨[], .error e, inputFile⟩
  | .ok read =>
    let self := { self with codeTable := read.1, originalFileSize := read.2 }
    if self.originalFileSize = 0 then ⟨[], .ok self, inputFile⟩
    else
      match buildDecodingTrie self.codeTable self.originalFileSize with
      | .error e => ⟨[], .error e, inputFile⟩
      | .ok trie =>
        let self := { self with decodeTrieRoot := some trie }
        let r := readCompressedDataAndDecode trie self.originalFileSize inputFile
        match r.2.1 with
        | some e => ⟨r.1, .error e, r.2.2⟩
        | none => ⟨r.1, .ok self, r.2.2⟩

/-! ## Notions used to state and prove the properties

The functions below are not part of the program: they name what the program's loops
compute (the assignments of the code builder, the bits of a stream, the cumulative
frequencies of a split) and the inputs the properties are tried on. -/

/-- The assignments `codeTable[symbol] = code` that `shannonFanoRecursive` makes, in the
order in which it makes them. -/
def assigned : Nat → List SymbolInfo → Str → List (Byte × Str)
  | 0, _, _ => []
  | fuel + 1, syms, currentCode =>
    match syms with
    | [] => []
    | [s] => [(s.symbol, currentCode)]
    | _ =>
      assigned fuel (syms.take (splitIndex syms)) (currentCode ++ [chr0])
        ++ assigned fuel (syms.drop (splitIndex syms)) (currentCode ++ [chr1])

/-- The map after the assignments of `l`, made from left to right. -/
def insertAll (codeTable : ByteMap Str) (l : List (Byte × Str)) : ByteMap Str :=
  l.foldl (fun m p => m.insert p.1 p.2) codeTable

/-- Two strings part ways after a common beginning `p`, the first with `'0'` and the second
with `'1'`. -/
def Diverge (x y : Str) : Prop :=
  ∃ p : Str, (p ++ [chr0]) <+: x ∧ (p ++ [chr1]) <+: y

/-- A string over the two characters `'0'` and `'1'`. -/
def IsBinary (c : Str) : Prop := ∀ x ∈ c, x = chr0 ∨ x = chr1

/-- The vector `symbols` of `buildCodesInternal` before it is sorted. -/
def symbolsOf (frequencyMap : ByteMap Nat) : List SymbolInfo :=
  frequencyMap.entries.map (fun p => SymbolInfo.mk p.1 p.2)

/-- The assignments `buildCodesInternal` makes to the cleared code table once `symbols` is
sorted, in order. -/
def codesOfSorted (sorted : List SymbolInfo) : List (Byte × Str) :=
  match sorted with
  | [] => []
  | [s] => [(s.symbol, [chr0])]
  | sorted => assigned sorted.length sorted []

/-- The assignments `buildCodesInternal` makes to the cleared code table, in order. -/
def builderCodes (frequencyMap : ByteMap Nat) : List (Byte × Str) :=
  codesOfSorted (std_sort (symbolsOf frequencyMap))

/-- The symbol `k` with the frequency the map holds for it. -/
def infoOf (fm : ByteMap Nat) (k : Byte) : SymbolInfo := ⟨k, (fm.find k).getD 0⟩

/-- One pass of the loop of `buildFrequencyMap`. -/
def countByte (st : ByteMap Nat × Nat) (b : Byte) : ByteMap Nat × Nat :=
  (st.1.insert b ((((st.1.find b).getD 0) + 1) % 2 ^ 64), (st.2 + 1) % 2 ^ 64)

/-- The `n` low-order binary digits of `x`, most significant first. -/
def natBits : Nat → Nat → List Bool
  | 0, _ => []
  | n + 1, x => natBits n (x / 2) ++ [decide (x % 2 = 1)]

/-- The bits of a byte stream, each byte most significant bit first. -/
def bytesBits (bs : List Byte) : List Bool := bs.flatMap (fun b => natBits 8 b.val)

/-- All bits handed to a writer so far: those of the bytes put, then those still buffered. -/
def BitWriter.written (w : BitWriter) : List Bool :=
  bytesBits w.os ++ natBits w.bit_count w.buffer

/-- The buffered bits fit the count and the count is below 8. -/
def BitWriter.Inv (w : BitWriter) : Prop := w.bit_count < 8 ∧ w.buffer < 2 ^ w.bit_count

/-- All bits a reader has still to deliver: the rest of its buffer, then the unread bytes. -/
def BitReader.bits (r : BitReader) : List Bool :=
  (natBits 8 r.buffer).take r.bit_count ++ bytesBits r.is

/-- The buffer holds a byte of which at most 8 bits are left. -/
def BitReader.Inv (r : BitReader) : Prop := r.bit_count ≤ 8 ∧ r.buffer < 256

/-- The writer after the bits of the code `code` have been written. -/
def writeCode (w : BitWriter) (code : Str) : BitWriter :=
  code.foldl (fun w bit_char => w.writeBit (bit_char == chr1)) w

/-- The arena after the entries `es` have been inserted into `t`, one after the other. -/
def insertEntries (t : Trie) (es : List (Byte × Str)) : Trie :=
  es.foldl (fun t pair => insertIntoTrie t pair.2 pair.1) t

/-- No code of the list begins another code of the list. -/
def PfxFree (es : List (Byte × Str)) : Prop :=
  es.Pairwise (fun e1 e2 => ¬ e1.2 <+: e2.2 ∧ ¬ e2.2 <+: e1.2)

/-- What the decoding loop leaves behind, the reader apart. -/
def withoutReader (x : List Byte × Nat × Option Error × BitReader) :
    List Byte × Nat × Option Error :=
  (x.1, x.2.1, x.2.2.1)

/-- The decoding loop run on the bits the reader has still to deliver. -/
def decodeBits (trie : Trie) (originalFileSize : Nat) :
    List Bool → Str → Nat → List Byte → List Byte × Nat × Option Error
  | [], _, decodedBytesCount, outputFile => (outputFile, decodedBytesCount, none)
  | bit_val :: bits, currentNode, decodedBytesCount, outputFile =>
    if decodedBytesCount < originalFileSize then
      match trie.node (currentNode ++ [if bit_val then chr1 else chr0]) with
      | none => (outputFile, decodedBytesCount, some .noPathInTrie)
      | some child =>
        if child.isEndOfCode then
          decodeBits trie originalFileSize bits [] (decodedBytesCount + 1)
            (outputFile ++ [child.symbol])
        else
          decodeBits trie originalFileSize bits (currentNode ++ [if bit_val then chr1 else chr0])
            decodedBytesCount outputFile
    else (outputFile, decodedBytesCount, none)

/-- The bits `writeCompressedData` writes for a code: one per character, set for `'1'`. -/
def codeBits (code : Str) : List Bool := code.map (fun c => c == chr1)

/-- The bits of the codes of the bytes of `S`, in order. -/
def streamBits (codeTable : ByteMap Str) (S : List Byte) : List Bool :=
  S.flatMap (fun s => codeBits ((codeTable.find s).getD []))

/-- An input with the byte counts 5, 5, 5, 4, 4, 4 for the byte values 0 to 5. -/
def skewInput : List Byte :=
  List.replicate 5 0 ++ List.replicate 5 1 ++ List.replicate 5 2
    ++ List.replicate 4 3 ++ List.replicate 4 4 ++ List.replicate 4 5

/-- A code table with one entry, whose code is 256 characters '0' long. -/
def longCodeTable : ByteMap Str := ByteMap.empty.insert 0 (List.replicate 256 chr0)

/-- The code table `buildCodesInternal` builds for the input "AAAB". -/
def sampleTable : ByteMap Str := buildCodesInternal (buildFrequencyMap [65, 65, 65, 66]).1

/-- The cumulative frequency of the first `j` symbols of the range. -/
def leftSum (syms : List SymbolInfo) (j : Nat) : Nat :=
  ((syms.take j).map SymbolInfo.frequency).sum

/-- The cumulative frequency of the symbols of the range after the first `j`. -/
def rightSum (syms : List SymbolInfo) (j : Nat) : Nat :=
  ((syms.drop j).map SymbolInfo.frequency).sum

/-- The absolute difference of the two cumulative frequencies when the range is split after
its first `j` symbols. -/
def splitDiff (syms : List SymbolInfo) (j : Nat) : Nat :=
  ((leftSum syms j : Int) - (rightSum syms j : Int)).natAbs

/-- The range of six symbols with the frequencies 5, 5, 5, 4, 4, 4. -/
def skewRange : List SymbolInfo := [⟨0, 5⟩, ⟨1, 5⟩, ⟨2, 5⟩, ⟨3, 4⟩, ⟨4, 4⟩, ⟨5, 4⟩]

/-- The writer after the bits `bits` have been written to a new writer, in order. -/
def writeBits (bits : List Bool) : BitWriter :=
  bits.foldl BitWriter.writeBit ⟨[], 0, 0⟩

/-- The bits that up to `n` calls of `readBit` deliver, stopping at the first call that
reports the end of the input, and the reader afterwards. -/
def readBits : Nat → BitReader → List Bool × BitReader
  | 0, r => ([], r)
  | n + 1, r =>
    match r.readBit with
    | none => ([], r)
    | some (bit_val, r2) => (bit_val :: (readBits n r2).1, (readBits n r2).2)

/-- The sum of the lengths of the codes that `encode` gives the bytes of `S`: the number
of bits of the payload before padding. -/
def totalCodeLength (S : List Byte) : Nat :=
  (S.map (fun s =>
    (((buildCodesInternal (buildFrequencyMap S).1).find s).getD []).length)).sum

/-- A code table with the entries 'A' -> "0" and 'B' -> "1". -/
def pairTable : ByteMap Str := (ByteMap.empty.insert 65 [chr0]).insert 66 [chr1]

/-- The node the decoding loop stands at and the count of the symbols it has emitted after
it has read `bits`, when reading them neither throws nor reaches `originalFileSize`
symbols before the last of them. -/
def decodeState (trie : Trie) (originalFileSize : Nat) :
    List Bool → Str → Nat → Option (Str × Nat)
  | [], currentNode, decodedBytesCount => some (currentNode, decodedBytesCount)
  | bit_val :: bits, currentNode, decodedBytesCount =>
    if decodedBytesCount < originalFileSize then
      match trie.node (currentNode ++ [if bit_val then chr1 else chr0]) with
      | none => none
      | some child =>
        if child.isEndOfCode then decodeState trie originalFileSize bits [] (decodedBytesCount + 1)
        else decodeState trie originalFileSize bits
          (currentNode ++ [if bit_val then chr1 else chr0]) decodedBytesCount
    else none

/-- The ranges of two or more symbols on which `shannonFanoRecursive` is called, the call on
`syms` and the calls it makes in turn: the ranges that are split. -/
def visitedRanges : Nat → List SymbolInfo → List (List SymbolInfo)
  | 0, _ => []
  | fuel + 1, syms =>
    match syms with
    | [] => []
    | [_] => []
    | _ =>
      syms :: (visitedRanges fuel (syms.take (splitIndex syms))
        ++ visitedRanges fuel (syms.drop (splitIndex syms)))

/-- The codes of the symbols in the order in which `buildCodesInternal` has sorted them. -/
def sortedCodes (frequencyMap : ByteMap Nat) : List Str :=
  ((std_sort (symbolsOf frequencyMap)).map SymbolInfo.symbol).map
    (fun k => ((buildCodesInternal frequencyMap).find k).getD [])

end shannon_fano

/-! ## The ASCII85 codec

Shallow embedding of `src/assignment1/src/ascii85.cpp`. A `std::string` is the list of its
characters, each an `unsigned char` value; the string built in the `std::stringstream` is
the list of the characters written so far. `uint32_t` values are natural numbers reduced
modulo `2 ^ 32` after every arithmetic step. An exception is the error of an `Except`. -/

namespace ascii85

/-- A `char` of a `std::string`, by its value as an `unsigned char`. -/
abbrev Char8 := Fin 256

/-- The conversion of a value in `0 .. 255` to a `char`. -/
def toChar8 (x : Nat) : Char8 := ⟨x % 256, Nat.mod_lt _ (by norm_num)⟩

/-- The `std::runtime_error` exceptions `ASCII85::decode` throws, one for each message. -/
inductive DecodeError
  | characterOutOfRange
  | incompleteGroup
  | zInWrongContext
  | valueOverflow
deriving DecidableEq, Repr

/-- The array `ASCII85::powers`. -/
def powers : List Nat := [85 * 85 * 85 * 85, 85 * 85 * 85, 85 * 85, 85, 1]

/-- The inner loop of `encode` that gathers a chunk into `value`, a `uint32_t`, from the
byte with index `j` of the chunk on. -/
def chunkValue : List Char8 → Nat → Nat → Nat
  | [], _, value => value
  | byte :: rest, j, value =>
    chunkValue rest (j + 1) ((value ||| (byte.val <<< (8 * (3 - j)))) % 2 ^ 32)

/-- One pass of the outer loop of `encode`: the characters written for the chunk
`data[i .. i + bytesInChunk)`. -/
def encodeChunk (chunk : List Char8) : List Char8 :=
  let bytesInChunk := chunk.length
  let value := chunkValue chunk 0 0
  if value = 0 ∧ bytesInChunk = 4 then [122]
  else
    let encoded := (List.range 5).map (fun j => toChar8 (33 + value / powers.getD j 1 % 85))
    encoded.take (bytesInChunk + 1)

/-- The outer loop of `encode` on the bytes from index `i` on: a chunk is the next 4 bytes,
or the 1 to 3 bytes that are left. -/
def encodeLoop : List Char8 → List Char8
  | [] => []
  | [a] => encodeChunk [a]
  | [a, b] => encodeChunk [a, b]
  | [a, b, c] => encodeChunk [a, b, c]
  | a :: b :: c :: d :: rest => encodeChunk [a, b, c, d] ++ encodeLoop rest

/-- The function `ASCII85::encode`. -/
def encode (input : List Char8) : List Char8 :=
  if input = [] then [] else encodeLoop input

/-- The `for` loop of `decode` that reads a group, with `fuel` bounding its passes: the
values of `i`, `value` and `charCount` when it ends, or the exception thrown. `value` is a
`uint32_t`. A pass that skips whitespace leaves `j` as it is (`j--` and then `j++`). All
characters are at most 127 when the loop runs, so the comparisons of `char` values are those
of the `unsigned char` values. -/
def readGroup (data : List Char8) :
    Nat → Nat → Nat → Nat → Nat → Except DecodeError (Nat × Nat × Nat)
  | 0, _, i, value, charCount => .ok (i, value, charCount)
  | fuel + 1, j, i, value, charCount =>
    if j < 5 ∧ i < data.length then
      let c := data.getD i 0
      if c.val ≤ 32 then readGroup data fuel j (i + 1) value charCount
      else if c.val < 33 ∨ c.val > 117 then .error .characterOutOfRange
      else
        let value := (value * 85 + (c.val - 33)) % 2 ^ 32
        let charCount := charCount + 1
        if value > 0xFFFFFFFF ∧ j < 4 then .error .valueOverflow
        else readGroup data fuel (j + 1) (i + 1) value charCount
    else .ok (i, value, charCount)

/-- The loop of `decode` that pads an incomplete group with 'u', with `passes` passes left:
the padded `value`, a `uint32_t`, or the exception thrown. -/
def padGroup : Nat → Nat → Except DecodeError Nat
  | 0, value => .ok value
  | passes + 1, value =>
    let value := (value * 85 + 84) % 2 ^ 32
    if value > 0xFFFFFFFF then .error .valueOverflow else padGroup passes value

/-- The `while` loop of `decode`, with `fuel` bounding its passes: the bytes written to
`output` when it ends, or the exception thrown. -/
def decodeWhile (data : List Char8) : Nat → Nat → List Char8 → Except DecodeError (List Char8)
  | 0, _, output => .ok output
  | fuel + 1, i, output =>
    if i < data.length then
      if data.getD i 0 = 122 then
        if i > 0 ∧ i < data.length - 1
            ∧ ((i > 0 ∧ (data.getD (i - 1) 0).val > 32 ∧ data.getD (i - 1) 0 ≠ 122)
              ∨ (i < data.length - 1 ∧ (data.getD (i + 1) 0).val > 32
                ∧ data.getD (i + 1) 0 ≠ 122)) then
          .error .zInWrongContext
        else decodeWhile data fuel (i + 1) (output ++ [0, 0, 0, 0])
      else
        let groupStart := i
        match readGroup data (data.length + 1) 0 i 0 0 with
        | .error e => .error e
        | .ok (i, value, charCount) =>
          if charCount = 0 then decodeWhile data fuel i output
          else
            let padded : Except DecodeError Nat :=
              if charCount < 5 then
                if charCount = 1 then .error .incompleteGroup
                else if groupStart + charCount ≥ data.length then
                  padGroup (5 - charCount) value
                else if (data.drop (groupStart + charCount)).all (fun c => c.val ≤ 32) then
                  padGroup (5 - charCount) value
                else .error .incompleteGroup
              else .ok value
            match padded with
            | .error e => .error e
            | .ok value =>
              if value > 0xFFFFFFFF then .error .valueOverflow
              else
                let bytesToOutput := if charCount = 5 then 4 else charCount - 1
                decodeWhile data fuel i
                  (output ++ (List.range bytesToOutput).map
                    (fun j => toChar8 ((value >>> (8 * (3 - j))) &&& 0xFF)))
    else .ok output

/-- The function `ASCII85::decode`: the string returned, or the exception thrown. The
counts and indices are below the length of the input and do not wrap. -/
def decode (input : List Char8) : Except DecodeError (List Char8) :=
  if input = [] then .ok []
  else if input.any (fun c => c.val > 127) then .error .characterOutOfRange
  else
    let validCharCount := input.countP (fun c => c.val > 32 ∧ c ≠ 122)
    if validCharCount % 5 ≠ 0 ∧ validCharCount % 5 = 1 then .error .incompleteGroup
    else decodeWhile input (input.length + 1) 0 []

/-- The function `ASCII85::processBuffer` on an empty `output`: the bytes written, or the
exception thrown. -/
def processBuffer (data : List Char8) (decodeFlag : Bool) : Except DecodeError (List Char8) :=
  if decodeFlag then decode data else .ok (encode data)

/-! ### Notions used to state and prove the properties -/

/-- The 32-bit big-endian value of the first four bytes of `input`, a byte that is missing
counting as zero. -/
def bigEndian (input : List Char8) : Nat :=
  (input.getD 0 0).val * 2 ^ 24 + (input.getD 1 0).val * 2 ^ 16
    + (input.getD 2 0).val * 2 ^ 8 + (input.getD 3 0).val

/-- The characters that make up groups: neither whitespace nor 'z'. -/
def isGroupChar (c : Char8) : Bool := decide (c.val > 32 ∧ c ≠ 122)

/-- The first `n` characters that `encode` computes for a chunk of value `value`. -/
def digitChars (value n : Nat) : List Char8 :=
  (List.range n).map (fun j => toChar8 (33 + value / 85 ^ (4 - j) % 85))

/-- No chunk of `encode`, the bytes `4 k .. 4 k + 3` for some `k`, is four zero bytes. -/
def NoZeroChunk (input : List Char8) : Prop :=
  ∀ k, 4 * k + 4 ≤ input.length → (input.drop (4 * k)).take 4 ≠ [0, 0, 0, 0]

end ascii85

/-! ## The Gaussian solver

Shallow embedding of `GaussianSolver::solve` of `src/assignment2/src/gaussian_elimination.cpp`.
The arithmetic is modelled exactly: a `double` is a rational number. A matrix is the function
from the indices of a coefficient to its value, a statement that changes a row gives a new
function. A loop over rows is a recursion over the list of the row indices it visits. An
exception is the error of an `Except`. -/

namespace GaussianSolver

/-- The exceptions `solve` throws: `std::invalid_argument` and `SingularMatrixException`. -/
inductive SolveError
  | invalidArgument
  | singularMatrix
deriving DecidableEq, Repr

/-- An `Eigen::MatrixXd`: its numbers of rows and columns and its coefficients, `coeff i j`
being `A(i, j)`. The coefficients are rationals, so that the arithmetic is exact. -/
structure MatrixXd where
  rows : Nat
  cols : Nat
  coeff : Nat → Nat → ℚ

/-- The loop of `solve` that looks for the pivot of column `k` in the rows `is`: the value
of `pivot_row` when it ends. -/
def findPivot (A : Nat → Nat → ℚ) (k : Nat) : List Nat → Nat → ℚ → Nat
  | [], pivot_row, _ => pivot_row
  | i :: rest, pivot_row, max_val =>
    if |A i k| > max_val then findPivot A k rest i |A i k|
    else findPivot A k rest pivot_row max_val

/-- The statement `A.row(k).swap(A.row(pivot_row))`. -/
def swapRows (A : Nat → Nat → ℚ) (k pivot_row : Nat) : Nat → Nat → ℚ :=
  fun i j => if i = k then A pivot_row j else if i = pivot_row then A k j else A i j

/-- The loop of `solve` that eliminates column `k` from the rows `is` below the pivot:
each pass is `factor = A(i, k) / A(k, k); A.row(i) -= factor * A.row(k)`. -/
def eliminateRows (k : Nat) : List Nat → (Nat → Nat → ℚ) → Nat → Nat → ℚ
  | [], A => A
  | i :: rest, A =>
    let factor := A i k / A k k
    eliminateRows k rest (fun r j => if r = i then A i j - factor * A k j else A r j)

/-- The forward elimination of `solve` over the columns `ks`: the matrix `A` when the loop
ends, or the exception thrown. -/
def forwardElimination (n : Nat) (epsilon : ℚ) :
    List Nat → (Nat → Nat → ℚ) → Except SolveError (Nat → Nat → ℚ)
  | [], A => .ok A
  | k :: rest, A =>
    let pivot_row := findPivot A k (List.range' (k + 1) (n - (k + 1))) k |A k k|
    let A := if pivot_row ≠ k then swapRows A k pivot_row else A
    if |A k k| < epsilon then .error .singularMatrix
    else forwardElimination n epsilon rest (eliminateRows k (List.range' (k + 1) (n - (k + 1))) A)

/-- The back substitution of `solve` over the rows `is`, which `solve` passes from `n - 1`
down to 0: the vector `solution` when the loop ends. -/
def backSubstitution (A : Nat → Nat → ℚ) (n : Nat) : List Nat → (Nat → ℚ) → Nat → ℚ
  | [], solution => solution
  | i :: rest, solution =>
    let sum := (List.range' (i + 1) (n - (i + 1))).foldl
      (fun sum j => sum + A i j * solution j) 0
    backSubstitution A n rest (fun r => if r = i then (A i n - sum) / A i i else solution r)

/-- The function `GaussianSolver::solve` in exact arithmetic: the vector returned,
`solution(i)` being its value at `i`, or the exception thrown. The vector `solution(n)` is
not initialized by the source; its coefficients are read only after they are assigned, and
they are 0 here before that. The source reads `A(n-1, n-1)` also when `n` is 0, where the
index is out of range; the properties are stated for `n ≥ 1`. -/
def solve (augmentedMatrix : MatrixXd) (epsilon : ℚ) : Except SolveError (Nat → ℚ) :=
  let n := augmentedMatrix.rows
  if augmentedMatrix.cols ≠ n + 1 then .error .invalidArgument
  else
    match forwardElimination n epsilon (List.range (n - 1)) augmentedMatrix.coeff with
    | .error e => .error e
    | .ok A =>
      if |A (n - 1) (n - 1)| < epsilon then .error .singularMatrix
      else .ok (backSubstitution A n (List.range n).reverse (fun _ => 0))

/-- The matrix with the rows `rows`, a coefficient outside of them being 0. -/
def ofRows (rows : List (List ℚ)) : MatrixXd :=
  ⟨rows.length, (rows.headD []).length, fun i j => (rows.getD i []).getD j 0⟩

/-! ### Notions used to state and prove the properties -/

/-- The value of row `i` of the `n` coefficient columns of `A` at the vector `v`. -/
def rowSum (A : Nat → Nat → ℚ) (n : Nat) (v : Nat → ℚ) (i : Nat) : ℚ :=
  Finset.sum (Finset.range n) (fun j => A i j * v j)

/-- The vector `v` solves every equation of the augmented matrix `A`, the right-hand sides
scaled by `t`. -/
def Satisfies (A : Nat → Nat → ℚ) (n : Nat) (v : Nat → ℚ) (t : ℚ) : Prop :=
  ∀ i, i < n → rowSum A n v i = t * A i n

/-- After `k` columns: zeros below the diagonal in these columns, and the pivots there are
not zero. -/
def Reduced (A : Nat → Nat → ℚ) (n k : Nat) : Prop :=
  (∀ j, j < k → ∀ i, j < i → i < n → A i j = 0) ∧ (∀ j, j < k → A j j ≠ 0)

end GaussianSolver

namespace shannon_fano

/-! ## Lemmas on byte maps -/

namespace ByteMap

theorem mem_entries {V : Type} (m : ByteMap V) (k : Byte) (v : V) :
    (k, v) ∈ m.entries ↔ m.find k = some v := by
  unfold entries
  simp only [List.mem_filterMap, List.mem_finRange, true_and, Option.map_eq_some']
  constructor
  · rintro ⟨a, v1, h, heq⟩
    cases heq
    exact h
  · intro h
    exact ⟨k, v, h, rfl⟩

theorem map_fst_filterMap {V : Type} (m : ByteMap V) (l : List Byte) :
    (l.filterMap (fun k => (m.find k).map (fun v => (k, v)))).map Prod.fst
      = l.filter (fun k => (m.find k).isSome) := by
  induction l with
  | nil => rfl
  | cons a l ih =>
    cases h : m.find a with
    | none => simp [List.filterMap_cons, List.filter_cons, h, ih]
    | some v => simp [List.filterMap_cons, List.filter_cons, h, ih]

theorem entries_keys {V : Type} (m : ByteMap V) :
    m.entries.map Prod.fst = (List.finRange 256).filter (fun k => (m.find k).isSome) :=
  map_fst_filterMap m _

theorem entries_keys_sorted {V : Type} (m : ByteMap V) :
    (m.entries.map Prod.fst).Pairwise (fun a b => a < b) := by
  rw [entries_keys]
  exact List.Pairwise.sublist (List.filter_sublist _) (List.pairwise_lt_finRange 256)

theorem entries_keys_nodup {V : Type} (m : ByteMap V) : (m.entries.map Prod.fst).Nodup := by
  rw [entries_keys]
  exact (List.nodup_finRange 256).filter _

theorem mem_entries_keys {V : Type} (m : ByteMap V) (k : Byte) :
    k ∈ m.entries.map Prod.fst ↔ (m.find k).isSome = true := by
  rw [entries_keys]
  simp [List.mem_filter, List.mem_finRange]

theorem entries_empty {V : Type} : (ByteMap.empty : ByteMap V).entries = [] := by
  unfold entries empty
  simp

theorem find_insert {V : Type} (m : ByteMap V) (k x : Byte) (v : V) :
    (m.insert k v).find x = if x = k then some v else m.find x := rfl

theorem find_empty {V : Type} (x : Byte) : (ByteMap.empty : ByteMap V).find x = none := rfl

theorem ext {V : Type} (m n : ByteMap V) (h : ∀ k, m.find k = n.find k) : m = n := by
  cases m
  cases n
  congr
  funext k
  exact h k

end ByteMap

/-! ## The code builder -/

theorem scanSplit_le (total : Nat) (rest : List SymbolInfo) :
    ∀ (i cur md sp : Nat), sp ≤ i → scanSplit total rest i cur md sp ≤ i + rest.length := by
  induction rest with
  | nil => intro i cur md sp h; simpa [scanSplit] using h
  | cons s rest ih =>
    intro i cur md sp h
    simp only [scanSplit, List.length_cons]
    split
    · have := ih (i + 1) ((cur + s.frequency) % 2 ^ 64)
        ((toLongLong ((cur + s.frequency) % 2 ^ 64)
          - toLongLong ((total + 2 ^ 64 - (cur + s.frequency) % 2 ^ 64) % 2 ^ 64)).natAbs % 2 ^ 64)
        (i + 1) (le_refl _)
      omega
    · split
      · omega
      · have := ih (i + 1) ((cur + s.frequency) % 2 ^ 64) md sp (by omega)
        omega

theorem splitIndex_pos (syms : List SymbolInfo) : 1 ≤ splitIndex syms := by
  unfold splitIndex
  simp only
  split <;> omega

theorem splitIndex_lt (syms : List SymbolInfo) (h : 2 ≤ syms.length) :
    splitIndex syms < syms.length := by
  unfold splitIndex
  simp only
  have := scanSplit_le (totalFreq syms) syms.dropLast 0 0 (totalFreq syms) 0 (le_refl _)
  rw [List.length_dropLast] at this
  split <;> omega

theorem insertAll_append (ct : ByteMap Str) (l1 l2 : List (Byte × Str)) :
    insertAll ct (l1 ++ l2) = insertAll (insertAll ct l1) l2 := by
  simp [insertAll, List.foldl_append]

theorem shannonFanoRecursive_eq (fuel : Nat) :
    ∀ (syms : List SymbolInfo) (cur : Str) (ct : ByteMap Str),
      shannonFanoRecursive fuel syms cur ct = insertAll ct (assigned fuel syms cur) := by
  induction fuel with
  | zero => intro syms cur ct; rfl
  | succ fuel ih =>
    intro syms cur ct
    match syms with
    | [] => rfl
    | [s] => rfl
    | s1 :: s2 :: rest =>
      simp only [shannonFanoRecursive, assigned]
      rw [insertAll_append, ih, ih]

theorem find_insertAll_of_not_mem (l : List (Byte × Str)) :
    ∀ (ct : ByteMap Str) (k : Byte), k ∉ l.map Prod.fst → (insertAll ct l).find k = ct.find k := by
  induction l with
  | nil => intro ct k _; rfl
  | cons p l ih =>
    intro ct k hk
    simp only [List.map_cons, List.mem_cons, not_or] at hk
    show (insertAll (ct.insert p.1 p.2) l).find k = ct.find k
    rw [ih _ _ hk.2, ByteMap.find_insert, if_neg hk.1]

theorem find_insertAll_of_mem (l : List (Byte × Str)) :
    ∀ (ct : ByteMap Str) (k : Byte) (c : Str), (l.map Prod.fst).Nodup → (k, c) ∈ l →
      (insertAll ct l).find k = some c := by
  induction l with
  | nil => intro ct k c _ h; simp at h
  | cons p l ih =>
    intro ct k c hnd hmem
    simp only [List.map_cons, List.nodup_cons] at hnd
    show (insertAll (ct.insert p.1 p.2) l).find k = some c
    rcases List.mem_cons.1 hmem with h | h
    · subst h
      rw [find_insertAll_of_not_mem _ _ _ hnd.1, ByteMap.find_insert, if_pos rfl]
    · exact ih _ _ _ hnd.2 h

theorem find_insertAll_empty (l : List (Byte × Str)) (hnd : (l.map Prod.fst).Nodup)
    (k : Byte) (c : Str) : (insertAll ByteMap.empty l).find k = some c ↔ (k, c) ∈ l := by
  constructor
  · intro h
    by_cases hk : k ∈ l.map Prod.fst
    · obtain ⟨p, hp, hpk⟩ := List.mem_map.1 hk
      have := find_insertAll_of_mem l ByteMap.empty p.1 p.2 hnd hp
      rw [hpk, h] at this
      cases this
      rw [← hpk]
      exact hp
    · rw [find_insertAll_of_not_mem _ _ _ hk] at h
      cases h
  · exact find_insertAll_of_mem l _ k c hnd

theorem chr0_ne_chr1 : chr0 ≠ chr1 := by decide

theorem Diverge.not_left {x y : Str} (h : Diverge x y) : ¬ x <+: y := by
  obtain ⟨p, h0, h1⟩ := h
  intro hxy
  have h0y : (p ++ [chr0]) <+: y := h0.trans hxy
  have hle : (p ++ [chr0]).length ≤ (p ++ [chr1]).length := by simp
  have hp := List.prefix_of_prefix_length_le h0y h1 hle
  have heq := hp.eq_of_length (by simp)
  have := List.append_cancel_left heq
  exact chr0_ne_chr1 (by simpa using this)

theorem Diverge.not_right {x y : Str} (h : Diverge x y) : ¬ y <+: x := by
  obtain ⟨p, h0, h1⟩ := h
  intro hyx
  have h1x : (p ++ [chr1]) <+: x := h1.trans hyx
  have hle : (p ++ [chr0]).length ≤ (p ++ [chr1]).length := by simp
  have hp := List.prefix_of_prefix_length_le h0 h1x hle
  have heq := hp.eq_of_length (by simp)
  have := List.append_cancel_left heq
  exact chr0_ne_chr1 (by simpa using this)

theorem assigned_keys (fuel : Nat) :
    ∀ (syms : List SymbolInfo) (cur : Str), syms.length ≤ fuel →
      (assigned fuel syms cur).map Prod.fst = syms.map SymbolInfo.symbol := by
  induction fuel with
  | zero =>
    intro syms cur h
    have : syms = [] := List.length_eq_zero.1 (by omega)
    subst this
    rfl
  | succ fuel ih =>
    intro syms cur h
    match syms with
    | [] => rfl
    | [s] => rfl
    | s1 :: s2 :: rest =>
      have hlt := splitIndex_lt (s1 :: s2 :: rest) (by simp)
      have hpos := splitIndex_pos (s1 :: s2 :: rest)
      simp only [assigned, List.map_append]
      rw [ih _ _ (by rw [List.length_take]; omega), ih _ _ (by rw [List.length_drop]; omega),
        ← List.map_append, List.take_append_drop]

theorem assigned_ext (fuel : Nat) :
    ∀ (syms : List SymbolInfo) (cur : Str) (p : Byte × Str), p ∈ assigned fuel syms cur →
      ∃ e : Str, p.2 = cur ++ e ∧ IsBinary e ∧ e.length + 1 ≤ syms.length
        ∧ (2 ≤ syms.length → e ≠ []) := by
  induction fuel with
  | zero => intro syms cur p h; simp [assigned] at h
  | succ fuel ih =>
    intro syms cur p h
    match syms with
    | [] => simp [assigned] at h
    | [s] =>
      simp only [assigned, List.mem_singleton] at h
      subst h
      exact ⟨[], by simp, by intro x hx; simp at hx, by simp, by simp⟩
    | s1 :: s2 :: rest =>
      have hlt := splitIndex_lt (s1 :: s2 :: rest) (by simp)
      have hpos := splitIndex_pos (s1 :: s2 :: rest)
      simp only [assigned, List.mem_append] at h
      rcases h with h | h
      · obtain ⟨e, he, hb, hl, _⟩ := ih _ _ _ h
        refine ⟨chr0 :: e, by simp [he], ?_, ?_, by simp⟩
        · intro x hx
          rcases List.mem_cons.1 hx with hx | hx
          · exact Or.inl hx
          · exact hb x hx
        · rw [List.length_take] at hl
          simp only [List.length_cons] at hlt ⊢
          omega
      · obtain ⟨e, he, hb, hl, _⟩ := ih _ _ _ h
        refine ⟨chr1 :: e, by simp [he], ?_, ?_, by simp⟩
        · intro x hx
          rcases List.mem_cons.1 hx with hx | hx
          · exact Or.inr hx
          · exact hb x hx
        · rw [List.length_drop] at hl
          simp only [List.length_cons] at hlt hl ⊢
          omega

theorem assigned_diverge (fuel : Nat) :
    ∀ (syms : List SymbolInfo) (cur : Str),
      ((assigned fuel syms cur).map Prod.snd).Pairwise Diverge := by
  induction fuel with
  | zero => intro syms cur; simp [assigned]
  | succ fuel ih =>
    intro syms cur
    match syms with
    | [] => simp [assigned]
    | [s] => simp [assigned]
    | s1 :: s2 :: rest =>
      simp only [assigned, List.map_append]
      rw [List.pairwise_append]
      refine ⟨ih _ _, ih _ _, ?_⟩
      intro x hx y hy
      obtain ⟨p, hp, rfl⟩ := List.mem_map.1 hx
      obtain ⟨q, hq, rfl⟩ := List.mem_map.1 hy
      obtain ⟨e, he, _⟩ := assigned_ext _ _ _ _ hp
      obtain ⟨f, hf, _⟩ := assigned_ext _ _ _ _ hq
      exact ⟨cur, ⟨e, he.symm⟩, ⟨f, hf.symm⟩⟩

theorem buildCodesInternal_eq (fm : ByteMap Nat) :
    buildCodesInternal fm = insertAll ByteMap.empty (builderCodes fm) := by
  unfold buildCodesInternal builderCodes symbolsOf
  simp only
  generalize std_sort (List.map (fun p => SymbolInfo.mk p.1 p.2) fm.entries) = l
  match l with
  | [] => rfl
  | [s] => rfl
  | s1 :: s2 :: rest => exact shannonFanoRecursive_eq _ _ _ _

theorem codesOfSorted_keys (l : List SymbolInfo) :
    (codesOfSorted l).map Prod.fst = l.map SymbolInfo.symbol := by
  match l with
  | [] => rfl
  | [s] => rfl
  | s1 :: s2 :: rest => exact assigned_keys _ _ _ (le_refl _)

theorem codesOfSorted_diverge (l : List SymbolInfo) :
    ((codesOfSorted l).map Prod.snd).Pairwise Diverge := by
  match l with
  | [] => simp [codesOfSorted]
  | [s] => simp [codesOfSorted]
  | s1 :: s2 :: rest => exact assigned_diverge _ _ _

theorem codesOfSorted_shape (l : List SymbolInfo) (p : Byte × Str) (hp : p ∈ codesOfSorted l) :
    p.2 ≠ [] ∧ IsBinary p.2 ∧ p.2.length < l.length ⊔ 2 := by
  match l with
  | [] => simp [codesOfSorted] at hp
  | [s] =>
    simp only [codesOfSorted, List.mem_singleton] at hp
    subst hp
    refine ⟨by simp, ?_, by simp⟩
    intro x hx
    simp only [List.mem_singleton] at hx
    exact Or.inl hx
  | s1 :: s2 :: rest =>
    obtain ⟨e, he, hb, hl, hne⟩ := assigned_ext _ _ _ _ hp
    simp only [List.nil_append] at he
    rw [he]
    refine ⟨hne (by simp), hb, ?_⟩
    exact lt_of_lt_of_le (by omega) (le_max_left _ _)

theorem std_sort_perm (l : List SymbolInfo) : (std_sort l).Perm l :=
  List.perm_insertionSort _ l

theorem builderCodes_keys (fm : ByteMap Nat) :
    (builderCodes fm).map Prod.fst = (std_sort (symbolsOf fm)).map SymbolInfo.symbol :=
  codesOfSorted_keys _

theorem symbolsOf_keys (fm : ByteMap Nat) :
    (symbolsOf fm).map SymbolInfo.symbol = fm.entries.map Prod.fst := by
  unfold symbolsOf
  rw [List.map_map]
  rfl

theorem builderCodes_keys_perm (fm : ByteMap Nat) :
    ((builderCodes fm).map Prod.fst).Perm (fm.entries.map Prod.fst) := by
  rw [builderCodes_keys, ← symbolsOf_keys]
  exact (std_sort_perm _).map _

theorem builderCodes_keys_nodup (fm : ByteMap Nat) : ((builderCodes fm).map Prod.fst).Nodup :=
  (builderCodes_keys_perm fm).nodup_iff.2 (ByteMap.entries_keys_nodup fm)

theorem find_buildCodesInternal (fm : ByteMap Nat) (k : Byte) (c : Str) :
    (buildCodesInternal fm).find k = some c ↔ (k, c) ∈ builderCodes fm := by
  rw [buildCodesInternal_eq]
  exact find_insertAll_empty _ (builderCodes_keys_nodup fm) k c

theorem isSome_find_buildCodesInternal (fm : ByteMap Nat) (k : Byte) :
    ((buildCodesInternal fm).find k).isSome = true ↔ (fm.find k).isSome = true := by
  rw [← ByteMap.mem_entries_keys fm, ← (builderCodes_keys_perm fm).mem_iff]
  constructor
  · intro h
    obtain ⟨c, hc⟩ := Option.isSome_iff_exists.1 h
    exact List.mem_map.2 ⟨(k, c), (find_buildCodesInternal fm k c).1 hc, rfl⟩
  · intro h
    obtain ⟨p, hp, hpk⟩ := List.mem_map.1 h
    have : (buildCodesInternal fm).find k = some p.2 :=
      (find_buildCodesInternal fm k p.2).2 (by rw [← hpk]; exact hp)
    rw [this]
    rfl

theorem ByteMap.size_le {V : Type} (m : ByteMap V) : m.size ≤ 256 := by
  unfold ByteMap.size
  rw [← List.length_map m.entries Prod.fst, ByteMap.entries_keys]
  calc ((List.finRange 256).filter _).length ≤ (List.finRange 256).length :=
        List.length_filter_le _ _
    _ = 256 := List.length_finRange 256

theorem std_sort_length (l : List SymbolInfo) : (std_sort l).length = l.length :=
  (std_sort_perm l).length_eq

theorem builderCodes_diverge (fm : ByteMap Nat) :
    ((builderCodes fm).map Prod.snd).Pairwise Diverge :=
  codesOfSorted_diverge _

theorem builderCodes_shape (fm : ByteMap Nat) (p : Byte × Str) (hp : p ∈ builderCodes fm) :
    p.2 ≠ [] ∧ IsBinary p.2 ∧ p.2.length < fm.size ⊔ 2 := by
  have h := codesOfSorted_shape _ p hp
  have hlen : (std_sort (symbolsOf fm)).length = fm.size := by
    rw [std_sort_length]
    unfold symbolsOf ByteMap.size
    simp
  rw [hlen] at h
  exact h

theorem SymbolInfo.lt_iff (a o : SymbolInfo) :
    SymbolInfo.lt a o = true ↔
      a.frequency > o.frequency ∨ (a.frequency = o.frequency ∧ a.symbol.val < o.symbol.val) := by
  unfold SymbolInfo.lt
  split
  · next h =>
    rw [decide_eq_true_eq]
    omega
  · next h =>
    rw [decide_eq_true_eq, Fin.lt_def]
    have h2 : a.frequency = o.frequency := not_not.1 h
    omega

theorem SymbolInfo.lt_eq_false_iff (a o : SymbolInfo) :
    SymbolInfo.lt a o = false ↔
      a.frequency < o.frequency ∨ (a.frequency = o.frequency ∧ o.symbol.val ≤ a.symbol.val) := by
  rw [← Bool.not_eq_true, SymbolInfo.lt_iff]
  omega

instance sortRel_total : IsTotal SymbolInfo (fun a b => SymbolInfo.lt b a = false) :=
  ⟨fun a b => by
    simp only [SymbolInfo.lt_eq_false_iff]
    omega⟩

instance sortRel_trans : IsTrans SymbolInfo (fun a b => SymbolInfo.lt b a = false) :=
  ⟨fun a b c => by
    simp only [SymbolInfo.lt_eq_false_iff]
    omega⟩

theorem std_sort_sorted (l : List SymbolInfo) :
    (std_sort l).Pairwise (fun a b => SymbolInfo.lt b a = false) :=
  List.sorted_insertionSort _ l

theorem mem_symbolsOf (fm : ByteMap Nat) (s : SymbolInfo) :
    s ∈ symbolsOf fm ↔ fm.find s.symbol = some s.frequency := by
  unfold symbolsOf
  rw [List.mem_map]
  constructor
  · rintro ⟨p, hp, rfl⟩
    exact (ByteMap.mem_entries fm p.1 p.2).1 hp
  · intro h
    exact ⟨(s.symbol, s.frequency), (ByteMap.mem_entries fm _ _).2 h, rfl⟩

theorem sorted_eq_map_infoOf (fm : ByteMap Nat) :
    std_sort (symbolsOf fm) = ((builderCodes fm).map Prod.fst).map (infoOf fm) := by
  rw [builderCodes_keys, List.map_map]
  symm
  conv_rhs => rw [← List.map_id (std_sort (symbolsOf fm))]
  apply List.map_congr_left
  intro s hs
  have hmem : s ∈ symbolsOf fm := (std_sort_perm _).mem_iff.1 hs
  have := (mem_symbolsOf fm s).1 hmem
  simp [infoOf, this]

theorem builderCodes_ordered (fm : ByteMap Nat) :
    (builderCodes fm).Pairwise (fun p q =>
      SymbolInfo.lt (infoOf fm q.1) (infoOf fm p.1) = false ∧ Diverge p.2 q.2) := by
  apply List.Pairwise.and
  · have h := std_sort_sorted (symbolsOf fm)
    rw [sorted_eq_map_infoOf, List.map_map, List.pairwise_map] at h
    exact h
  · have h := builderCodes_diverge fm
    rw [List.pairwise_map] at h
    exact h

theorem builderCodes_pair (fm : ByteMap Nat) (a b : Byte) (ca cb : Str) (hab : a ≠ b)
    (ha : (a, ca) ∈ builderCodes fm) (hb : (b, cb) ∈ builderCodes fm) :
    (SymbolInfo.lt (infoOf fm b) (infoOf fm a) = false ∧ Diverge ca cb)
      ∨ (SymbolInfo.lt (infoOf fm a) (infoOf fm b) = false ∧ Diverge cb ca) := by
  have h := builderCodes_ordered fm
  have hsym : (builderCodes fm).Pairwise (fun p q =>
      (SymbolInfo.lt (infoOf fm q.1) (infoOf fm p.1) = false ∧ Diverge p.2 q.2)
        ∨ (SymbolInfo.lt (infoOf fm p.1) (infoOf fm q.1) = false ∧ Diverge q.2 p.2)) :=
    h.imp (fun hpq => Or.inl hpq)
  have hS : Symmetric (fun p q : Byte × Str =>
      (SymbolInfo.lt (infoOf fm q.1) (infoOf fm p.1) = false ∧ Diverge p.2 q.2)
        ∨ (SymbolInfo.lt (infoOf fm p.1) (infoOf fm q.1) = false ∧ Diverge q.2 p.2)) := by
    intro p q hpq
    exact hpq.symm
  exact hsym.forall hS ha hb (by intro heq; exact hab (congrArg Prod.fst heq))

/-! ## The frequency analyzer -/

theorem buildFrequencyMap_eq (S : List Byte) :
    buildFrequencyMap S = S.foldl countByte (ByteMap.empty, 0) := rfl

theorem foldl_countByte_snd (S : List Byte) :
    ∀ st : ByteMap Nat × Nat, st.2 < 2 ^ 64 →
      (S.foldl countByte st).2 = (st.2 + S.length) % 2 ^ 64 := by
  induction S with
  | nil =>
    intro st h
    show st.2 = (st.2 + 0) % 2 ^ 64
    rw [Nat.add_zero, Nat.mod_eq_of_lt h]
  | cons b S ih =>
    intro st h
    rw [List.foldl_cons, ih _ (Nat.mod_lt _ (by norm_num))]
    simp only [countByte, List.length_cons]
    omega

theorem foldl_countByte_find (S : List Byte) :
    ∀ (st : ByteMap Nat × Nat) (k : Byte),
      (S.foldl countByte st).1.find k =
        if k ∈ S then some (((st.1.find k).getD 0 + S.count k) % 2 ^ 64) else st.1.find k := by
  induction S with
  | nil => intro st k; simp
  | cons b S ih =>
    intro st k
    rw [List.foldl_cons, ih]
    by_cases hkb : k = b
    · subst hkb
      simp only [countByte, ByteMap.find_insert, if_true, Option.getD_some, List.mem_cons,
        true_or, List.count_cons_self]
      by_cases hk : k ∈ S
      · rw [if_pos hk]
        congr 1
        omega
      · rw [if_neg hk, List.count_eq_zero_of_not_mem hk]
    · have hne : b ≠ k := fun h => hkb h.symm
      have hc : List.count k (b :: S) = List.count k S := by
        rw [List.count_cons]
        simp [hne]
      rw [hc]
      simp only [countByte, ByteMap.find_insert, if_neg hkb, List.mem_cons, hkb, false_or,
        if_false]

theorem buildFrequencyMap_size (S : List Byte) :
    (buildFrequencyMap S).2 = S.length % 2 ^ 64 := by
  rw [buildFrequencyMap_eq, foldl_countByte_snd _ _ (by norm_num)]
  simp

theorem buildFrequencyMap_find (S : List Byte) (k : Byte) :
    (buildFrequencyMap S).1.find k =
      if k ∈ S then some (S.count k % 2 ^ 64) else none := by
  rw [buildFrequencyMap_eq, foldl_countByte_find]
  simp [ByteMap.find_empty]

theorem buildFrequencyMap_isSome (S : List Byte) (k : Byte) :
    ((buildFrequencyMap S).1.find k).isSome = true ↔ k ∈ S := by
  rw [buildFrequencyMap_find]
  by_cases h : k ∈ S <;> simp [h]

theorem ByteMap.size_eq_card {V : Type} (m : ByteMap V) (S : List Byte)
    (h : ∀ k, (m.find k).isSome = true ↔ k ∈ S) : m.size = S.toFinset.card := by
  unfold ByteMap.size
  rw [← List.length_map m.entries Prod.fst,
    ← List.toFinset_card_of_nodup (ByteMap.entries_keys_nodup m)]
  apply congrArg Finset.card
  ext k
  rw [List.mem_toFinset, List.mem_toFinset, ByteMap.mem_entries_keys, h]

theorem ByteMap.size_eq_zero_iff {V : Type} (m : ByteMap V) :
    m.size = 0 ↔ ∀ k, m.find k = none := by
  unfold ByteMap.size
  rw [List.length_eq_zero]
  constructor
  · intro h k
    cases hk : m.find k with
    | none => rfl
    | some v =>
      have := (ByteMap.mem_entries m k v).2 hk
      rw [h] at this
      cases this
  · intro h
    apply List.eq_nil_iff_forall_not_mem.2
    rintro ⟨k, v⟩ hkv
    have := (ByteMap.mem_entries m k v).1 hkv
    rw [h k] at this
    cases this

theorem buildFrequencyMap_size_eq_zero (S : List Byte) :
    (buildFrequencyMap S).1.size = 0 ↔ S = [] := by
  rw [ByteMap.size_eq_zero_iff]
  constructor
  · intro h
    cases S with
    | nil => rfl
    | cons b S =>
      have := (buildFrequencyMap_isSome (b :: S) b).2 (by simp)
      rw [h b] at this
      cases this
  · intro h k
    subst h
    rfl

/-! ## Bit streams -/

theorem natBits_length (n : Nat) : ∀ x, (natBits n x).length = n := by
  induction n with
  | zero => intro x; rfl
  | succ n ih => intro x; simp [natBits, ih]

theorem natBits_double (n x : Nat) (b : Bool) :
    natBits (n + 1) (2 * x + (if b then 1 else 0)) = natBits n x ++ [b] := by
  simp only [natBits]
  congr 1
  · congr 1
    cases b <;> first | (simp; done) | (simp; omega)
  · cases b <;> first | (simp; done) | (simp; omega)

theorem natBits_shift (n x : Nat) :
    ∀ k, natBits (n + k) (x * 2 ^ k) = natBits n x ++ List.replicate k false := by
  intro k
  induction k with
  | zero => simp
  | succ k ih =>
    have h1 : x * 2 ^ (k + 1) / 2 = x * 2 ^ k := by
      rw [pow_succ, ← Nat.mul_assoc, Nat.mul_div_cancel _ (by norm_num)]
    have h2 : x * 2 ^ (k + 1) % 2 = 0 := by
      rw [pow_succ, ← Nat.mul_assoc, Nat.mul_mod_left]
    show natBits (n + k) (x * 2 ^ (k + 1) / 2) ++ [decide (x * 2 ^ (k + 1) % 2 = 1)] = _
    rw [h1, h2, ih, List.replicate_succ', List.append_assoc]
    rfl

theorem shift_or_bit : ∀ (x : Fin 128) (b : Bool),
    ((x.val <<< 1) ||| (if b then 1 else 0)) % 256 = 2 * x.val + (if b then 1 else 0) := by
  decide

set_option maxRecDepth 100000 in
theorem and_msb : ∀ x : Fin 256,
    ((x.val &&& 0x80) != 0) = decide (x.val / 128 % 2 = 1) := by
  decide

theorem bytesBits_append (a b : List Byte) : bytesBits (a ++ b) = bytesBits a ++ bytesBits b := by
  simp [bytesBits, List.flatMap_append]

theorem bytesBits_singleton (b : Byte) : bytesBits [b] = natBits 8 b.val := by
  simp [bytesBits]

theorem bytesBits_cons (b : Byte) (bs : List Byte) :
    bytesBits (b :: bs) = natBits 8 b.val ++ bytesBits bs := by
  simp [bytesBits]

theorem bytesBits_length (bs : List Byte) : (bytesBits bs).length = 8 * bs.length := by
  induction bs with
  | nil => rfl
  | cons b bs ih =>
    rw [bytesBits_cons, List.length_append, natBits_length, ih, List.length_cons]
    omega

theorem val_toByte (x : Nat) (h : x < 256) : (toByte x).val = x :=
  Nat.mod_eq_of_lt h

theorem BitWriter.writeBit_spec (w : BitWriter) (b : Bool) (h : w.Inv) :
    (w.writeBit b).Inv ∧ (w.writeBit b).written = w.written ++ [b] := by
  obtain ⟨hc, hb⟩ := h
  have hpow : 2 ^ w.bit_count ≤ 2 ^ 7 := Nat.pow_le_pow_right (by norm_num) (by omega)
  have hb128 : w.buffer < 128 := by omega
  have hnb := shift_or_bit ⟨w.buffer, hb128⟩ b
  simp only at hnb
  have hbit : (if b then 1 else 0) ≤ 1 := by cases b <;> simp
  unfold BitWriter.writeBit
  simp only [hnb]
  split
  · next h8 =>
    have hc7 : w.bit_count = 7 := by omega
    refine ⟨⟨by norm_num, by norm_num⟩, ?_⟩
    simp only [BitWriter.written, bytesBits_append, bytesBits_singleton, hc7]
    rw [val_toByte _ (by omega), natBits_double 7 w.buffer b, show natBits 0 0 = [] from rfl,
      List.append_nil, List.append_assoc]
  · next h8 =>
    refine ⟨⟨by show w.bit_count + 1 < 8; omega, ?_⟩, ?_⟩
    · show 2 * w.buffer + (if b then 1 else 0) < 2 ^ (w.bit_count + 1)
      rw [pow_succ]
      omega
    · show bytesBits w.os ++ natBits (w.bit_count + 1) (2 * w.buffer + (if b then 1 else 0))
        = bytesBits w.os ++ natBits w.bit_count w.buffer ++ [b]
      rw [natBits_double, List.append_assoc]

theorem writeCode_spec (code : Str) :
    ∀ w : BitWriter, w.Inv →
      (writeCode w code).Inv ∧
        (writeCode w code).written = w.written ++ code.map (fun c => c == chr1) := by
  induction code with
  | nil => intro w h; exact ⟨h, by simp [writeCode]⟩
  | cons c code ih =>
    intro w h
    obtain ⟨h1, h2⟩ := BitWriter.writeBit_spec w (c == chr1) h
    obtain ⟨h3, h4⟩ := ih _ h1
    refine ⟨h3, ?_⟩
    show (writeCode (w.writeBit (c == chr1)) code).written = _
    rw [h4, h2]
    simp

theorem BitWriter.flush_spec (w : BitWriter) (h : w.Inv) :
    bytesBits w.flush.os = w.written ++ List.replicate ((8 - w.bit_count) % 8) false := by
  obtain ⟨hc, hb⟩ := h
  unfold BitWriter.flush
  split
  · next hpos =>
    have hk : (8 - w.bit_count) % 8 = 8 - w.bit_count := Nat.mod_eq_of_lt (by omega)
    have hlt : w.buffer * 2 ^ (8 - w.bit_count) < 256 := by
      have h1 : w.buffer * 2 ^ (8 - w.bit_count) < 2 ^ w.bit_count * 2 ^ (8 - w.bit_count) :=
        Nat.mul_lt_mul_of_pos_right hb (pow_pos (by norm_num) _)
      rw [← pow_add] at h1
      have h2 : w.bit_count + (8 - w.bit_count) = 8 := by omega
      rw [h2] at h1
      exact h1
    simp only [bytesBits_append, bytesBits_singleton, BitWriter.written, hk]
    rw [Nat.shiftLeft_eq, Nat.mod_eq_of_lt hlt, val_toByte _ hlt, List.append_assoc]
    congr 1
    have := natBits_shift w.bit_count w.buffer (8 - w.bit_count)
    have h2 : w.bit_count + (8 - w.bit_count) = 8 := by omega
    rw [h2] at this
    exact this
  · next hpos =>
    have h0 : w.bit_count = 0 := by omega
    simp [BitWriter.written, h0, natBits]

set_option maxRecDepth 100000 in
theorem natBits_msb : ∀ x : Fin 256,
    natBits 8 x.val = ((x.val &&& 0x80) != 0) :: (natBits 8 ((x.val <<< 1) % 256)).take 7 := by
  decide

theorem BitReader.readBit_spec (r : BitReader) (h : r.Inv) :
    match r.readBit with
    | none => r.bits = []
    | some (b, r2) => r.bits = b :: r2.bits ∧ r2.Inv := by
  obtain ⟨hc, hb⟩ := h
  unfold BitReader.readBit
  by_cases h0 : r.bit_count = 0
  · simp only [h0, if_true]
    cases his : r.is with
    | nil => simp [BitReader.bits, h0, his, bytesBits]
    | cons byte rest =>
      simp only
      refine ⟨?_, ⟨by norm_num, Nat.mod_lt _ (by norm_num)⟩⟩
      simp only [BitReader.bits, h0, his, List.take_zero, List.nil_append, bytesBits_cons]
      rw [natBits_msb byte]
      simp
  · simp only [h0, if_false]
    refine ⟨?_, ⟨by show r.bit_count - 1 ≤ 8; omega, Nat.mod_lt _ (by norm_num)⟩⟩
    simp only [BitReader.bits]
    rw [natBits_msb ⟨r.buffer, hb⟩]
    simp only
    obtain ⟨c, hc2⟩ : ∃ c, r.bit_count = c + 1 := ⟨r.bit_count - 1, by omega⟩
    rw [hc2, List.take_succ_cons, List.take_take]
    have : min c 7 = c := by omega
    simp [this]

/-! ## The dictionary codec -/

theorem toBytes_succ (w x : Nat) : toBytes (w + 1) x = toByte x :: toBytes w (x / 256) := by
  unfold toBytes
  rw [List.range_succ_eq_map, List.map_cons, List.map_map]
  congr 1
  · simp
  · apply List.map_congr_left
    intro i _
    simp only [Function.comp, pow_succ, Nat.div_div_eq_div_mul]
    rw [Nat.mul_comm]

theorem toBytes_length (w x : Nat) : (toBytes w x).length = w := by
  simp [toBytes]

theorem ofBytes_toBytes (w : Nat) : ∀ x, ofBytes (toBytes w x) = x % 256 ^ w := by
  induction w with
  | zero => intro x; simp [toBytes, ofBytes, Nat.mod_one]
  | succ w ih =>
    intro x
    rw [toBytes_succ]
    show (toByte x).val + 256 * ofBytes (toBytes w (x / 256)) = _
    rw [ih, pow_succ, Nat.mul_comm (256 ^ w) 256, Nat.mod_mul]
    rfl

theorem writeEntry_eq (e : Byte × Str) (h : e.2.length < 256) :
    writeEntry e = e.1 :: toByte e.2.length :: e.2 := by
  unfold writeEntry
  simp only [Nat.mod_eq_of_lt h, List.take_length, List.cons_append, List.nil_append]

theorem readEntries_written (N L : Nat) (es : List (Byte × Str)) :
    ∀ (ct : ByteMap Str) (rest : List Byte),
      (∀ e ∈ es, 0 < e.2.length ∧ e.2.length < 256) →
      readEntries N L es.length (es.flatMap writeEntry ++ rest) ct = .ok (insertAll ct es) := by
  induction es with
  | nil => intro ct rest _; rfl
  | cons e es ih =>
    intro ct rest h
    obtain ⟨hpos, hlt⟩ := h e (List.mem_cons_self _ _)
    have hval : (toByte e.2.length).val = e.2.length := val_toByte _ hlt
    rw [List.flatMap_cons, writeEntry_eq e hlt]
    simp only [List.length_cons, List.cons_append, readEntries, hval]
    rw [if_neg (by omega), if_neg (by simp)]
    rw [List.append_assoc, List.drop_left, List.take_left]
    exact ih _ _ (fun e2 he2 => h e2 (List.mem_cons_of_mem _ he2))

theorem insertAll_entries (T : ByteMap Str) : insertAll ByteMap.empty T.entries = T := by
  apply ByteMap.ext
  intro k
  cases hk : T.find k with
  | some c =>
    exact (find_insertAll_empty _ (ByteMap.entries_keys_nodup T) k c).2
      ((ByteMap.mem_entries T k c).2 hk)
  | none =>
    cases hk2 : (insertAll ByteMap.empty T.entries).find k with
    | none => rfl
    | some c =>
      have := (find_insertAll_empty _ (ByteMap.entries_keys_nodup T) k c).1 hk2
      rw [ByteMap.mem_entries, hk] at this
      cases this

theorem readDictionary_writeDictionary (T : ByteMap Str) (L : Nat) (hL : L < 2 ^ 64)
    (hT : ∀ k c, T.find k = some c → 0 < c.length ∧ c.length < 256) :
    readDictionary (writeDictionary T L) = .ok (T, L) := by
  have hsize : T.size % 2 ^ 16 = T.size := Nat.mod_eq_of_lt (by have := T.size_le; omega)
  have hes : ∀ e ∈ T.entries, 0 < e.2.length ∧ e.2.length < 256 := by
    intro e he
    exact hT e.1 e.2 ((ByteMap.mem_entries T e.1 e.2).1 he)
  have h8 : (toBytes 8 L).length = 8 := toBytes_length 8 L
  have h2 : (toBytes 2 T.size).length = 2 := toBytes_length 2 _
  unfold readDictionary writeDictionary
  rw [hsize, List.append_assoc]
  rw [if_neg (by rw [List.length_append, h8]; omega)]
  simp only
  rw [List.drop_left' h8, List.take_left' h8]
  rw [if_neg (by rw [List.length_append, h2]; omega)]
  rw [List.drop_left' h2, List.take_left' h2]
  rw [ofBytes_toBytes, ofBytes_toBytes]
  have hL2 : L % 256 ^ 8 = L := Nat.mod_eq_of_lt (by norm_num at hL ⊢; exact hL)
  have hs2 : T.size % 256 ^ 2 = T.size := Nat.mod_eq_of_lt (by have := T.size_le; omega)
  rw [hL2, hs2]
  have key : readEntries T.size L T.size (T.entries.flatMap writeEntry) ByteMap.empty
      = .ok (insertAll ByteMap.empty T.entries) := by
    have := readEntries_written T.size L T.entries ByteMap.empty [] hes
    rw [List.append_nil] at this
    exact this
  rw [key, insertAll_entries]

/-! ## The decoding trie -/

theorem insertWalk_spec (rest : Str) :
    ∀ (t : Trie) (cur : Str),
      (insertWalk t cur rest).2 = cur ++ rest
      ∧ (∀ q, (insertWalk t cur rest).1.node q = t.node q
          ∨ (t.node q = none ∧ (insertWalk t cur rest).1.node q = some ⟨false, 0⟩))
      ∧ (∀ r, r <+: rest → r ≠ [] → ((insertWalk t cur rest).1.node (cur ++ r)).isSome = true) := by
  induction rest with
  | nil =>
    intro t cur
    refine ⟨by simp [insertWalk], fun q => Or.inl rfl, ?_⟩
    intro r hr hne
    exact absurd (List.prefix_nil.1 hr) hne
  | cons c rest ih =>
    intro t cur
    simp only [insertWalk]
    generalize ht2 : (if (t.node (cur ++ [c])).isNone = true then t.set (cur ++ [c]) ⟨false, 0⟩
      else t) = t2
    obtain ⟨h1, h2, h3⟩ := ih t2 (cur ++ [c])
    have hstep : ∀ q, t2.node q = t.node q ∨ (t.node q = none ∧ t2.node q = some ⟨false, 0⟩) := by
      intro q
      rw [← ht2]
      split
      · next hnone =>
        by_cases hq : q = cur ++ [c]
        · right
          subst hq
          exact ⟨Option.isNone_iff_eq_none.1 hnone, by simp [Trie.set]⟩
        · left
          simp [Trie.set, hq]
      · left; rfl
    have hchild : (t2.node (cur ++ [c])).isSome = true := by
      rw [← ht2]
      split
      · simp [Trie.set]
      · next hsome =>
        cases hn : t.node (cur ++ [c]) with
        | none => simp [hn] at hsome
        | some n => rfl
    refine ⟨by rw [h1]; simp, ?_, ?_⟩
    · intro q
      rcases h2 q with h | ⟨h, h'⟩
      · rw [h]; exact hstep q
      · rcases hstep q with hs | ⟨hs, hs'⟩
        · right; exact ⟨by rw [← hs]; exact h, h'⟩
        · rw [hs'] at h; cases h
    · intro r hr hne
      match r, hr, hne with
      | x :: r2, hr, _ =>
        obtain ⟨hx, hr2⟩ := List.cons_prefix_cons.1 hr
        subst hx
        by_cases hr2e : r2 = []
        · subst hr2e
          rcases h2 (cur ++ [x]) with h | ⟨h, _⟩
          · rw [h]; exact hchild
          · rw [h] at hchild; cases hchild
        · have := h3 r2 hr2 hr2e
          simpa using this

theorem insertIntoTrie_spec (t : Trie) (code : Str) (symbol : Byte) :
    (insertIntoTrie t code symbol).node code = some ⟨true, symbol⟩
    ∧ (∀ q, q ≠ code → (insertIntoTrie t code symbol).node q = t.node q
          ∨ (t.node q = none ∧ (insertIntoTrie t code symbol).node q = some ⟨false, 0⟩))
    ∧ (∀ r, r <+: code → r ≠ [] → ((insertIntoTrie t code symbol).node r).isSome = true) := by
  obtain ⟨h1, h2, h3⟩ := insertWalk_spec code t []
  simp only [List.nil_append] at h1 h3
  unfold insertIntoTrie
  simp only [h1]
  refine ⟨by simp [Trie.set], ?_, ?_⟩
  · intro q hq
    simp only [Trie.set, if_neg hq]
    exact h2 q
  · intro r hr hne
    by_cases hrc : r = code
    · simp [Trie.set, hrc]
    · simp only [Trie.set, if_neg hrc]
      exact h3 r hr hne

theorem insertEntries_cons (t : Trie) (e : Byte × Str) (es : List (Byte × Str)) :
    insertEntries t (e :: es) = insertEntries (insertIntoTrie t e.2 e.1) es := rfl

theorem insertEntries_keep (es : List (Byte × Str)) (q : Str) (n : TrieNode) :
    ∀ t : Trie, (∀ e ∈ es, e.2 ≠ q) → t.node q = some n →
      (insertEntries t es).node q = some n := by
  induction es with
  | nil => intro t _ h; exact h
  | cons e es ih =>
    intro t hne h
    rw [insertEntries_cons]
    apply ih _ (fun e2 he2 => hne e2 (List.mem_cons_of_mem _ he2))
    have hq : q ≠ e.2 := fun heq => hne e (List.mem_cons_self _ _) heq.symm
    rcases (insertIntoTrie_spec t e.2 e.1).2.1 q hq with h2 | ⟨h2, _⟩
    · rw [h2]; exact h
    · rw [h] at h2; cases h2

theorem insertIntoTrie_isSome (t : Trie) (code : Str) (symbol : Byte) (q : Str)
    (h : (t.node q).isSome = true) : ((insertIntoTrie t code symbol).node q).isSome = true := by
  by_cases hq : q = code
  · rw [hq, (insertIntoTrie_spec t code symbol).1]; rfl
  · rcases (insertIntoTrie_spec t code symbol).2.1 q hq with h2 | ⟨_, h2⟩
    · rw [h2]; exact h
    · rw [h2]; rfl

theorem insertEntries_isSome (es : List (Byte × Str)) (q : Str) :
    ∀ t : Trie, (t.node q).isSome = true → ((insertEntries t es).node q).isSome = true := by
  induction es with
  | nil => intro t h; exact h
  | cons e es ih =>
    intro t h
    rw [insertEntries_cons]
    exact ih _ (insertIntoTrie_isSome t e.2 e.1 q h)

theorem insertEntries_present (es : List (Byte × Str)) :
    ∀ t : Trie, ∀ e ∈ es, ∀ r, r <+: e.2 → r ≠ [] →
      ((insertEntries t es).node r).isSome = true := by
  induction es with
  | nil => intro t e he; simp at he
  | cons e0 es ih =>
    intro t e he r hr hne
    rw [insertEntries_cons]
    rcases List.mem_cons.1 he with h | h
    · subst h
      exact insertEntries_isSome es r _ ((insertIntoTrie_spec t e.2 e.1).2.2 r hr hne)
    · exact ih _ e h r hr hne

theorem insertEntries_marked (es : List (Byte × Str)) :
    ∀ t : Trie, es.Pairwise (fun e1 e2 => e1.2 ≠ e2.2) →
      ∀ e ∈ es, (insertEntries t es).node e.2 = some ⟨true, e.1⟩ := by
  induction es with
  | nil => intro t _ e he; simp at he
  | cons e0 es ih =>
    intro t hd e he
    obtain ⟨hhead, htail⟩ := List.pairwise_cons.1 hd
    rw [insertEntries_cons]
    rcases List.mem_cons.1 he with h | h
    · subst h
      exact insertEntries_keep es e.2 _ _ (fun e2 he2 => (hhead e2 he2).symm)
        (insertIntoTrie_spec t e.2 e.1).1
    · exact ih _ htail e h

theorem insertEntries_ends (es : List (Byte × Str)) :
    ∀ (t : Trie) (q : Str) (n : TrieNode), (insertEntries t es).node q = some n →
      n.isEndOfCode = true → t.node q = some n ∨ ∃ e ∈ es, e.2 = q := by
  induction es with
  | nil => intro t q n h _; exact Or.inl h
  | cons e0 es ih =>
    intro t q n h hn
    rw [insertEntries_cons] at h
    rcases ih _ q n h hn with h2 | ⟨e, he, heq⟩
    · by_cases hq : q = e0.2
      · exact Or.inr ⟨e0, List.mem_cons_self _ _, hq.symm⟩
      · rcases (insertIntoTrie_spec t e0.2 e0.1).2.1 q hq with h3 | ⟨_, h3⟩
        · left; rw [← h3]; exact h2
        · rw [h3] at h2
          cases h2
          cases hn
    · exact Or.inr ⟨e, List.mem_cons_of_mem _ he, heq⟩

theorem PfxFree.distinct {es : List (Byte × Str)} (h : PfxFree es) :
    es.Pairwise (fun e1 e2 => e1.2 ≠ e2.2) :=
  List.Pairwise.imp (fun hp heq => hp.1 (by rw [heq])) h

theorem PfxFree.not_pfx {es : List (Byte × Str)} (h : PfxFree es) (e1 e2 : Byte × Str)
    (h1 : e1 ∈ es) (h2 : e2 ∈ es) (hp : e1.2 <+: e2.2) : e1 = e2 := by
  by_contra hne
  have hS : Symmetric (fun e1 e2 : Byte × Str => ¬ e1.2 <+: e2.2 ∧ ¬ e2.2 <+: e1.2) :=
    fun _ _ hx => ⟨hx.2, hx.1⟩
  exact (List.Pairwise.forall hS h h1 h2 hne).1 hp

/-- What the decoding loop needs of the trie built from a code table free of prefixes: every
code ends on an end-of-code node with its symbol, and no node strictly inside a code is an
end-of-code node. -/
theorem trie_of_pfxFree (es : List (Byte × Str)) (hpf : PfxFree es) :
    (∀ e ∈ es, (insertEntries Trie.root es).node e.2 = some ⟨true, e.1⟩)
    ∧ (∀ e ∈ es, ∀ r, r <+: e.2 → r ≠ [] → r ≠ e.2 →
        ∃ n, (insertEntries Trie.root es).node r = some n ∧ n.isEndOfCode = false) := by
  refine ⟨insertEntries_marked es _ hpf.distinct, ?_⟩
  intro e he r hr hne hre
  have hs := insertEntries_present es Trie.root e he r hr hne
  obtain ⟨n, hn⟩ := Option.isSome_iff_exists.1 hs
  refine ⟨n, hn, ?_⟩
  cases hend : n.isEndOfCode with
  | false => rfl
  | true =>
    exfalso
    rcases insertEntries_ends es Trie.root r n hn hend with h | ⟨e2, he2, heq⟩
    · simp only [Trie.root, if_neg hne] at h
      cases h
    · have := hpf.not_pfx e2 e he2 he (by rw [heq]; exact hr)
      subst this
      exact hre heq.symm

/-! ## The decoding loop and the compression pass -/

theorem decodeLoop_eq (trie : Trie) (L : Nat) (fuel : Nat) :
    ∀ (r : BitReader) (cur : Str) (count : Nat) (out : List Byte), r.Inv →
      r.bits.length < fuel →
      withoutReader (decodeLoop trie L fuel r cur count out)
        = decodeBits trie L r.bits cur count out := by
  induction fuel with
  | zero => intro r cur count out _ h; omega
  | succ fuel ih =>
    intro r cur count out hinv hlen
    have hspec := BitReader.readBit_spec r hinv
    unfold decodeLoop
    cases hrb : r.readBit with
    | none =>
      rw [hrb] at hspec
      simp only at hspec
      rw [hspec]
      simp [decodeBits, withoutReader]
    | some p =>
      obtain ⟨b, r2⟩ := p
      rw [hrb] at hspec
      simp only at hspec
      obtain ⟨hbits, hinv2⟩ := hspec
      rw [hbits] at hlen ⊢
      simp only [List.length_cons] at hlen
      simp only [decodeBits]
      split
      · cases hnode : trie.node (cur ++ [if b = true then chr1 else chr0]) with
        | none => rfl
        | some child =>
          simp only
          split
          · exact ih _ _ _ _ hinv2 (by omega)
          · exact ih _ _ _ _ hinv2 (by omega)
      · rfl

theorem decodeBits_done (trie : Trie) (L : Nat) (bits : List Bool) (cur : Str) (count : Nat)
    (out : List Byte) (h : L ≤ count) :
    decodeBits trie L bits cur count out = (out, count, none) := by
  cases bits with
  | nil => rfl
  | cons b bits => simp only [decodeBits, if_neg (by omega : ¬ count < L)]

theorem binary_char (x : Byte) (h : x = chr0 ∨ x = chr1) :
    (if (x == chr1) = true then chr1 else chr0) = x := by
  rcases h with h | h <;> subst h <;> decide

theorem decodeBits_code (trie : Trie) (L : Nat) (s : Byte) (code : Str)
    (hcode : trie.node code = some ⟨true, s⟩)
    (hin : ∀ r, r <+: code → r ≠ [] → r ≠ code →
      ∃ n, trie.node r = some n ∧ n.isEndOfCode = false)
    (hbin : IsBinary code) (q : Str) :
    ∀ (p : Str) (more : List Bool) (count : Nat) (out : List Byte),
      code = p ++ q → q ≠ [] → count < L →
      decodeBits trie L (codeBits q ++ more) p count out
        = decodeBits trie L more [] (count + 1) (out ++ [s]) := by
  induction q with
  | nil => intro p more count out _ h; exact absurd rfl h
  | cons x q ih =>
    intro p more count out hpq _ hlt
    have hx : x = chr0 ∨ x = chr1 := hbin x (by rw [hpq]; simp)
    simp only [codeBits, List.map_cons, List.cons_append, decodeBits, if_pos hlt,
      binary_char x hx]
    by_cases hq : q = []
    · subst hq
      rw [← hpq, hcode]
      rfl
    · have hpre : (p ++ [x]) <+: code := ⟨q, by rw [hpq]; simp⟩
      have hne : p ++ [x] ≠ code := by
        intro heq
        rw [hpq] at heq
        have := List.append_cancel_left heq
        simp at this
        exact hq this
      obtain ⟨n, hn, hend⟩ := hin (p ++ [x]) hpre (by simp) hne
      rw [hn]
      simp only [hend]
      exact ih (p ++ [x]) more count out (by rw [hpq]; simp) hq hlt

theorem decodeBits_stream (trie : Trie) (L : Nat) (ct : ByteMap Str)
    (hcode : ∀ s c, ct.find s = some c → trie.node c = some ⟨true, s⟩)
    (hin : ∀ s c, ct.find s = some c → ∀ r, r <+: c → r ≠ [] → r ≠ c →
      ∃ n, trie.node r = some n ∧ n.isEndOfCode = false)
    (hshape : ∀ s c, ct.find s = some c → c ≠ [] ∧ IsBinary c) (S : List Byte) :
    ∀ (more : List Bool) (count : Nat) (out : List Byte),
      (∀ s ∈ S, (ct.find s).isSome = true) → count + S.length ≤ L →
      decodeBits trie L (streamBits ct S ++ more) [] count out
        = decodeBits trie L more [] (count + S.length) (out ++ S) := by
  induction S with
  | nil => intro more count out _ _; simp [streamBits]
  | cons s S ih =>
    intro more count out hS hL
    obtain ⟨c, hc⟩ := Option.isSome_iff_exists.1 (hS s (List.mem_cons_self _ _))
    obtain ⟨hne, hbin⟩ := hshape s c hc
    simp only [List.length_cons] at hL
    have h1 := decodeBits_code trie L s c (hcode s c hc) (hin s c hc) hbin c []
      (streamBits ct S ++ more) count out rfl hne (by omega)
    have hsb : streamBits ct (s :: S) ++ more = codeBits c ++ (streamBits ct S ++ more) := by
      simp [streamBits, hc]
    rw [hsb, h1, ih more (count + 1) (out ++ [s])
      (fun s2 hs2 => hS s2 (List.mem_cons_of_mem _ hs2)) (by omega)]
    simp only [List.length_cons, List.append_assoc, List.singleton_append]
    congr 1
    omega

theorem writeCompressedLoop_spec (ct : ByteMap Str) (L : Nat) (S : List Byte) :
    ∀ (p : Nat) (w : BitWriter), w.Inv → p ≤ L → (∀ s ∈ S, (ct.find s).isSome = true) →
      ∃ w2, writeCompressedLoop ct L S p w = (min L (p + S.length), w2, none) ∧ w2.Inv
        ∧ w2.written = w.written ++ streamBits ct (S.take (L - p)) := by
  induction S with
  | nil =>
    intro p w hw hp _
    exact ⟨w, by simp [writeCompressedLoop, Nat.min_eq_right hp], hw, by simp [streamBits]⟩
  | cons s S ih =>
    intro p w hw hp hS
    obtain ⟨c, hc⟩ := Option.isSome_iff_exists.1 (hS s (List.mem_cons_self _ _))
    simp only [writeCompressedLoop]
    split
    · next hlt =>
      simp only [hc]
      obtain ⟨hw2, hwr⟩ := writeCode_spec c w hw
      obtain ⟨w3, h3, hw3, hwr3⟩ := ih (p + 1) (writeCode w c) hw2 (by omega)
        (fun s2 hs2 => hS s2 (List.mem_cons_of_mem _ hs2))
      refine ⟨w3, ?_, hw3, ?_⟩
      · show writeCompressedLoop ct L S (p + 1) (writeCode w c) = _
        rw [h3, List.length_cons]
        congr 2
        omega
      · rw [hwr3, hwr]
        obtain ⟨k, hk⟩ : ∃ k, L - p = k + 1 := ⟨L - p - 1, by omega⟩
        have hk2 : L - (p + 1) = k := by omega
        rw [hk, hk2, List.take_succ_cons]
        simp [streamBits, hc, codeBits]
    · next hlt =>
      have hpL : p = L := by omega
      refine ⟨w, ?_, hw, ?_⟩
      · rw [hpL]
        simp
      · rw [hpL]
        simp [streamBits]

/-! ## Encoding and decoding -/

theorem buildCodesInternal_shape (fm : ByteMap Nat) (k : Byte) (c : Str)
    (h : (buildCodesInternal fm).find k = some c) :
    c ≠ [] ∧ IsBinary c ∧ c.length < 256 := by
  obtain ⟨h1, h2, h3⟩ := builderCodes_shape fm (k, c) ((find_buildCodesInternal fm k c).1 h)
  refine ⟨h1, h2, ?_⟩
  have := fm.size_le
  simp only at h3
  exact lt_of_lt_of_le h3 (max_le this (by norm_num))

theorem ByteMap.entries_nodup {V : Type} (m : ByteMap V) : m.entries.Nodup :=
  List.Nodup.of_map _ (ByteMap.entries_keys_nodup m)

theorem buildCodesInternal_not_pfx (fm : ByteMap Nat) (a b : Byte) (ca cb : Str) (hab : a ≠ b)
    (ha : (buildCodesInternal fm).find a = some ca)
    (hb : (buildCodesInternal fm).find b = some cb) : ¬ ca <+: cb := by
  rcases builderCodes_pair fm a b ca cb hab ((find_buildCodesInternal fm a ca).1 ha)
      ((find_buildCodesInternal fm b cb).1 hb) with h | h
  · exact h.2.not_left
  · exact h.2.not_right

theorem buildCodesInternal_pfxFree (fm : ByteMap Nat) :
    PfxFree (buildCodesInternal fm).entries := by
  apply List.Nodup.pairwise_of_forall_ne (ByteMap.entries_nodup _)
  intro e1 he1 e2 he2 hne
  have h1 := (ByteMap.mem_entries _ e1.1 e1.2).1 he1
  have h2 := (ByteMap.mem_entries _ e2.1 e2.2).1 he2
  have hk : e1.1 ≠ e2.1 := by
    intro hk
    rw [hk, h2] at h1
    exact hne (Prod.ext hk (Option.some.inj h1).symm)
  exact ⟨buildCodesInternal_not_pfx fm _ _ _ _ hk h1 h2,
    buildCodesInternal_not_pfx fm _ _ _ _ hk.symm h2 h1⟩

theorem writeCompressedData_pad (ct : ByteMap Str) (L : Nat) (S : List Byte)
    (hS : ∀ s ∈ S, (ct.find s).isSome = true) (hL : L ≤ S.length) :
    ∃ out pad, writeCompressedData ct L S = (out, none)
      ∧ bytesBits out = streamBits ct (S.take L) ++ List.replicate pad false ∧ pad < 8 := by
  obtain ⟨w2, h1, h2, h3⟩ := writeCompressedLoop_spec ct L S 0 ⟨[], 0, 0⟩
    ⟨by norm_num, by norm_num⟩ (Nat.zero_le _) hS
  refine ⟨w2.flush.os, (8 - w2.bit_count) % 8, ?_, ?_, Nat.mod_lt _ (by norm_num)⟩
  · unfold writeCompressedData
    rw [h1]
    simp only
    rw [if_neg]
    rw [Nat.zero_add, Nat.min_eq_left hL]
    simp
  · rw [BitWriter.flush_spec w2 h2, h3]
    simp [BitWriter.written, bytesBits, natBits]

theorem writeCompressedData_spec (ct : ByteMap Str) (L : Nat) (S : List Byte)
    (hS : ∀ s ∈ S, (ct.find s).isSome = true) (hL : L ≤ S.length) :
    ∃ out pad, writeCompressedData ct L S = (out, none)
      ∧ bytesBits out = streamBits ct (S.take L) ++ List.replicate pad false := by
  obtain ⟨out, pad, h1, h2, _⟩ := writeCompressedData_pad ct L S hS hL
  exact ⟨out, pad, h1, h2⟩

theorem readCompressedDataAndDecode_spec (ct : ByteMap Str) (S : List Byte) (payload : List Byte)
    (more : List Bool) (hpf : PfxFree ct.entries)
    (hshape : ∀ s c, ct.find s = some c → c ≠ [] ∧ IsBinary c)
    (hS : ∀ s ∈ S, (ct.find s).isSome = true)
    (hbits : bytesBits payload = streamBits ct S ++ more) :
    ∃ rest, readCompressedDataAndDecode (insertEntries Trie.root ct.entries) S.length payload
      = (S, none, rest) := by
  obtain ⟨t1, t2⟩ := trie_of_pfxFree ct.entries hpf
  generalize insertEntries Trie.root ct.entries = trie at t1 t2 ⊢
  have hc1 : ∀ s c, ct.find s = some c → trie.node c = some ⟨true, s⟩ :=
    fun s c hc => t1 (s, c) ((ByteMap.mem_entries ct s c).2 hc)
  have hc2 : ∀ s c, ct.find s = some c → ∀ r, r <+: c → r ≠ [] → r ≠ c →
      ∃ n, trie.node r = some n ∧ n.isEndOfCode = false :=
    fun s c hc => t2 (s, c) ((ByteMap.mem_entries ct s c).2 hc)
  have hloop := decodeLoop_eq trie S.length
    (8 * payload.length + 1) ⟨payload, 0, 0⟩ [] 0 [] ⟨by norm_num, by norm_num⟩
    (by simp [BitReader.bits, bytesBits_length])
  have hb : (⟨payload, 0, 0⟩ : BitReader).bits = streamBits ct S ++ more := by
    simp [BitReader.bits, hbits]
  rw [hb] at hloop
  have hs := decodeBits_stream trie S.length ct hc1 hc2 hshape S more 0 [] hS (by omega)
  rw [hs, decodeBits_done _ _ _ _ _ _ (by omega)] at hloop
  unfold readCompressedDataAndDecode
  generalize decodeLoop trie S.length (8 * payload.length + 1) ⟨payload, 0, 0⟩ [] 0 [] = x
    at hloop ⊢
  obtain ⟨o, c, e, rd⟩ := x
  simp only [withoutReader, Prod.mk.injEq, List.nil_append, Nat.zero_add] at hloop
  obtain ⟨h1, h2, h3⟩ := hloop
  subst h1 h3
  refine ⟨rd.is, ?_⟩
  simp only [h2, ne_eq, not_true_eq_false, if_false]

theorem size_empty {V : Type} : (ByteMap.empty : ByteMap V).size = 0 := by
  unfold ByteMap.size
  rw [ByteMap.entries_empty]
  rfl

theorem encode_eq (self : ShannonFano) (S : List Byte) :
    self.encode S =
      if (buildFrequencyMap S).1.size = 0 then
        ⟨[], writeDictionary ByteMap.empty (buildFrequencyMap S).2,
          .ok ⟨(buildFrequencyMap S).1, ByteMap.empty, none, (buildFrequencyMap S).2⟩⟩
      else
        match (writeCompressedData (buildCodesInternal (buildFrequencyMap S).1)
            (buildFrequencyMap S).2 S).2 with
        | some e =>
          ⟨(writeCompressedData (buildCodesInternal (buildFrequencyMap S).1)
              (buildFrequencyMap S).2 S).1,
            writeDictionary (buildCodesInternal (buildFrequencyMap S).1)
              (buildFrequencyMap S).2, .error e⟩
        | none =>
          ⟨(writeCompressedData (buildCodesInternal (buildFrequencyMap S).1)
              (buildFrequencyMap S).2 S).1,
            writeDictionary (buildCodesInternal (buildFrequencyMap S).1)
              (buildFrequencyMap S).2,
            .ok ⟨(buildFrequencyMap S).1, buildCodesInternal (buildFrequencyMap S).1, none,
              (buildFrequencyMap S).2⟩⟩ := by
  unfold ShannonFano.encode ShannonFano.clearState
  split
  · next h => rw [if_pos h]
  · next h => rw [if_neg h]

theorem writeDictionary_empty : writeDictionary ByteMap.empty 0 = List.replicate 10 0 := by
  unfold writeDictionary
  rw [size_empty, ByteMap.entries_empty]
  decide

theorem encode_nil (self : ShannonFano) :
    self.encode [] = ⟨[], List.replicate 10 0, .ok ⟨ByteMap.empty, ByteMap.empty, none, 0⟩⟩ := by
  have hsz : (buildFrequencyMap []).1.size = 0 := size_empty
  rw [encode_eq, if_pos hsz]
  show (⟨[], writeDictionary ByteMap.empty 0, _⟩ : EncodeResult) = _
  rw [writeDictionary_empty]
  rfl

theorem encode_cons_pad (self : ShannonFano) (S : List Byte) (hS : S ≠ []) :
    ∃ out pad,
      self.encode S = ⟨out,
        writeDictionary (buildCodesInternal (buildFrequencyMap S).1) (S.length % 2 ^ 64),
        .ok ⟨(buildFrequencyMap S).1, buildCodesInternal (buildFrequencyMap S).1, none,
          S.length % 2 ^ 64⟩⟩
      ∧ bytesBits out = streamBits (buildCodesInternal (buildFrequencyMap S).1)
            (S.take (S.length % 2 ^ 64)) ++ List.replicate pad false
      ∧ pad < 8 := by
  have hsz : ¬ (buildFrequencyMap S).1.size = 0 := by
    rw [buildFrequencyMap_size_eq_zero]
    exact hS
  have hkeys : ∀ s ∈ S,
      ((buildCodesInternal (buildFrequencyMap S).1).find s).isSome = true := by
    intro s hs
    rw [isSome_find_buildCodesInternal, buildFrequencyMap_isSome]
    exact hs
  obtain ⟨out, pad, h1, h2, h3⟩ := writeCompressedData_pad
    (buildCodesInternal (buildFrequencyMap S).1) (S.length % 2 ^ 64) S hkeys
    (Nat.mod_le _ _)
  refine ⟨out, pad, ?_, h2, h3⟩
  rw [encode_eq, if_neg hsz, buildFrequencyMap_size, h1]

theorem encode_cons (self : ShannonFano) (S : List Byte) (hS : S ≠ []) :
    ∃ out pad,
      self.encode S = ⟨out,
        writeDictionary (buildCodesInternal (buildFrequencyMap S).1) (S.length % 2 ^ 64),
        .ok ⟨(buildFrequencyMap S).1, buildCodesInternal (buildFrequencyMap S).1, none,
          S.length % 2 ^ 64⟩⟩
      ∧ bytesBits out = streamBits (buildCodesInternal (buildFrequencyMap S).1)
            (S.take (S.length % 2 ^ 64)) ++ List.replicate pad false := by
  obtain ⟨out, pad, h1, h2, _⟩ := encode_cons_pad self S hS
  exact ⟨out, pad, h1, h2⟩

theorem decode_error (self : ShannonFano) (payload dict : List Byte) (e : Error)
    (h1 : readDictionary dict = .error e) :
    self.decode payload dict = ⟨[], .error e, payload⟩ := by
  unfold ShannonFano.decode ShannonFano.clearState
  rw [h1]

theorem decode_zero (self : ShannonFano) (payload dict : List Byte) (ct : ByteMap Str)
    (h1 : readDictionary dict = .ok (ct, 0)) :
    self.decode payload dict = ⟨[], .ok ⟨ByteMap.empty, ct, none, 0⟩, payload⟩ := by
  unfold ShannonFano.decode ShannonFano.clearState
  rw [h1]
  rfl

theorem decode_ok (self : ShannonFano) (payload dict : List Byte) (ct : ByteMap Str) (L : Nat)
    (trie : Trie) (out rest : List Byte) (h1 : readDictionary dict = .ok (ct, L)) (h2 : L ≠ 0)
    (h3 : buildDecodingTrie ct L = .ok trie)
    (h4 : readCompressedDataAndDecode trie L payload = (out, none, rest)) :
    self.decode payload dict = ⟨out, .ok ⟨ByteMap.empty, ct, some trie, L⟩, rest⟩ := by
  unfold ShannonFano.decode ShannonFano.clearState
  rw [h1]
  dsimp only
  rw [if_neg h2, h3]
  dsimp only
  rw [h4]

theorem buildDecodingTrie_eq (ct : ByteMap Str) (L : Nat) (h : ct.size ≠ 0) :
    buildDecodingTrie ct L = .ok (insertEntries Trie.root ct.entries) := by
  unfold buildDecodingTrie
  rw [if_neg (fun hc => h hc.1)]
  rfl

theorem decode_encode (self self2 : ShannonFano) (S : List Byte) (h : S.length < 2 ^ 64) :
    ∃ st st2 rest, (self.encode S).status = .ok st
      ∧ self2.decode (self.encode S).outputFile (self.encode S).dictFile
        = ⟨S, .ok st2, rest⟩ := by
  by_cases hS : S = []
  · subst hS
    rw [encode_nil]
    refine ⟨_, ⟨ByteMap.empty, ByteMap.empty, none, 0⟩, [], rfl, ?_⟩
    exact decode_zero _ _ _ _ rfl
  · obtain ⟨out, pad, he, hbits⟩ := encode_cons self S hS
    rw [he]
    have hL : S.length % 2 ^ 64 = S.length := Nat.mod_eq_of_lt h
    rw [hL] at hbits ⊢
    rw [List.take_length] at hbits
    generalize hct : buildCodesInternal (buildFrequencyMap S).1 = ct at hbits ⊢
    have hshape : ∀ s c, ct.find s = some c → c ≠ [] ∧ IsBinary c ∧ c.length < 256 := by
      intro s c hc
      rw [← hct] at hc
      exact buildCodesInternal_shape _ s c hc
    have hpf : PfxFree ct.entries := by
      rw [← hct]
      exact buildCodesInternal_pfxFree _
    have hkeys : ∀ s ∈ S, (ct.find s).isSome = true := by
      intro s hs
      rw [← hct, isSome_find_buildCodesInternal, buildFrequencyMap_isSome]
      exact hs
    have hsz : ct.size ≠ 0 := by
      rw [Ne, ByteMap.size_eq_zero_iff]
      intro hnone
      obtain ⟨s, hs⟩ := List.exists_mem_of_ne_nil S hS
      have := hkeys s hs
      rw [hnone s] at this
      cases this
    have hlen0 : S.length ≠ 0 := fun h0 => hS (List.length_eq_zero.1 h0)
    have hrd := readDictionary_writeDictionary ct S.length h
      (fun k c hc => ⟨List.length_pos.2 (hshape k c hc).1, (hshape k c hc).2.2⟩)
    obtain ⟨rest, hdec⟩ := readCompressedDataAndDecode_spec ct S out
      (List.replicate pad false) hpf
      (fun s c hc => ⟨(hshape s c hc).1, (hshape s c hc).2.1⟩) hkeys hbits
    refine ⟨_, ⟨ByteMap.empty, ct, some (insertEntries Trie.root ct.entries), S.length⟩,
      rest, rfl, ?_⟩
    exact decode_ok _ _ _ _ _ _ _ _ hrd hlen0 (buildDecodingTrie_eq ct S.length hsz) hdec

theorem list_eq_singleton {α : Type} (l : List α) (x : α) (hnd : l.Nodup)
    (h : ∀ y, y ∈ l ↔ y = x) : l = [x] := by
  match l, hnd, h with
  | [], _, h => exact absurd ((h x).2 rfl) (List.not_mem_nil x)
  | [a], _, h =>
    have := (h a).1 (List.mem_singleton.2 rfl)
    rw [this]
  | a :: b :: l, hnd, h =>
    have ha := (h a).1 (List.mem_cons_self _ _)
    have hb := (h b).1 (List.mem_cons_of_mem _ (List.mem_cons_self _ _))
    have hne : a ≠ b := by
      intro hab
      rw [List.nodup_cons] at hnd
      exact hnd.1 (by rw [hab]; exact List.mem_cons_self _ _)
    exact absurd (ha.trans hb.symm) hne

theorem ByteMap.entries_single {V : Type} (m : ByteMap V) (s : Byte) (v : V)
    (h : ∀ k, m.find k = if k = s then some v else none) : m.entries = [(s, v)] := by
  apply list_eq_singleton _ _ (ByteMap.entries_nodup m)
  rintro ⟨k, v2⟩
  rw [ByteMap.mem_entries, h k]
  by_cases hk : k = s
  · subst hk
    simp [eq_comm]
  · simp [hk]

theorem buildFrequencyMap_replicate (N : Nat) (s : Byte) (hN : 1 ≤ N) (k : Byte) :
    (buildFrequencyMap (List.replicate N s)).1.find k
      = if k = s then some (N % 2 ^ 64) else none := by
  rw [buildFrequencyMap_find]
  by_cases hk : k = s
  · subst hk
    have hmem : k ∈ List.replicate N k := List.mem_replicate.2 ⟨by omega, rfl⟩
    rw [if_pos hmem, if_pos rfl, List.count_replicate_self]
  · have hmem : k ∉ List.replicate N s := fun hm => hk (List.eq_of_mem_replicate hm)
    rw [if_neg hmem, if_neg hk]

theorem buildCodesInternal_single (fm : ByteMap Nat) (s : Byte) (v : Nat)
    (h : fm.entries = [(s, v)]) :
    buildCodesInternal fm = ByteMap.empty.insert s [chr0] := by
  rw [buildCodesInternal_eq]
  unfold builderCodes symbolsOf
  rw [h]
  rfl

theorem encode_replicate (self : ShannonFano) (s : Byte) (N : Nat) (hN : 1 ≤ N) :
    ∃ out, self.encode (List.replicate N s)
      = ⟨out, toBytes 8 (N % 2 ^ 64) ++ [1, 0] ++ [s, 1, chr0],
          .ok ⟨(buildFrequencyMap (List.replicate N s)).1, ByteMap.empty.insert s [chr0], none,
            N % 2 ^ 64⟩⟩ := by
  have hne : List.replicate N s ≠ [] := by
    intro h
    have := congrArg List.length h
    simp at this
    omega
  obtain ⟨out, pad, he, _⟩ := encode_cons self _ hne
  have hfm := ByteMap.entries_single _ s (N % 2 ^ 64) (buildFrequencyMap_replicate N s hN)
  have hct := buildCodesInternal_single _ s _ hfm
  have hentries : (ByteMap.empty.insert s [chr0] : ByteMap Str).entries = [(s, [chr0])] := by
    apply ByteMap.entries_single
    intro k
    rfl
  have hd : writeDictionary (ByteMap.empty.insert s [chr0]) (N % 2 ^ 64)
      = toBytes 8 (N % 2 ^ 64) ++ [1, 0] ++ [s, 1, chr0] := by
    have e1 : toBytes 2 ([(s, [chr0])].length % 2 ^ 16) = [1, 0] :=
      (by decide : toBytes 2 (1 % 2 ^ 16) = [1, 0])
    have e2 : toByte ([chr0].length % 256) = 1 := by decide
    have e3 : [(s, [chr0])].flatMap writeEntry = [s, 1, chr0] := by
      simp only [List.flatMap_cons, List.flatMap_nil, writeEntry, e2]
      rfl
    unfold writeDictionary ByteMap.size
    rw [hentries, e1, e3]
  exact ⟨out, by rw [he, hct, List.length_replicate, hd]⟩

theorem readDictionary_empty :
    readDictionary (List.replicate 10 0) = .ok (ByteMap.empty, 0) := rfl

set_option maxRecDepth 1000000 in
theorem skewInput_counts :
    (buildFrequencyMap skewInput).1.find 2 = some 5
    ∧ (buildFrequencyMap skewInput).1.find 3 = some 4 := by
  decide

set_option maxRecDepth 1000000 in
theorem skewInput_codes :
    (buildCodesInternal (buildFrequencyMap skewInput).1).find 2 = some [chr0, chr1, chr1]
    ∧ (buildCodesInternal (buildFrequencyMap skewInput).1).find 3 = some [chr1, chr0] := by
  decide

theorem longCodeTable_entries : longCodeTable.entries = [(0, List.replicate 256 chr0)] :=
  ByteMap.entries_single _ _ _ (fun _ => rfl)

theorem writeDictionary_longCodeTable :
    writeDictionary longCodeTable 1 = [1, 0, 0, 0, 0, 0, 0, 0, 1, 0, 0, 0] := by
  have e1 : toBytes 8 1 ++ toBytes 2 (1 % 2 ^ 16) = [1, 0, 0, 0, 0, 0, 0, 0, 1, 0] := by decide
  have e2 : writeEntry (0, List.replicate 256 chr0) = [0, 0] := by
    unfold writeEntry
    simp only [List.length_replicate]
    rfl
  unfold writeDictionary ByteMap.size
  rw [longCodeTable_entries]
  show toBytes 8 1 ++ toBytes 2 (1 % 2 ^ 16) ++ [(0, List.replicate 256 chr0)].flatMap writeEntry
    = _
  rw [e1, List.flatMap_cons, List.flatMap_nil, e2]
  rfl

theorem sampleTable_lengths (k : Byte) (c : Str) (h : sampleTable.find k = some c) :
    1 ≤ c.length ∧ c.length ≤ 255 := by
  unfold sampleTable at h
  obtain ⟨h1, _, h3⟩ := buildCodesInternal_shape _ k c h
  exact ⟨List.length_pos.2 h1, by omega⟩

theorem flatMap_writeEntry (es : List (Byte × Str)) (h : ∀ e ∈ es, e.2.length ≤ 255) :
    es.flatMap writeEntry = es.flatMap (fun e => [e.1, toByte e.2.length] ++ e.2)
    ∧ (es.flatMap writeEntry).length = (es.map (fun e => 2 + e.2.length)).sum := by
  induction es with
  | nil => exact ⟨rfl, rfl⟩
  | cons e es ih =>
    obtain ⟨ih1, ih2⟩ := ih (fun e2 he2 => h e2 (List.mem_cons_of_mem _ he2))
    have he := writeEntry_eq e (by have := h e (List.mem_cons_self _ _); omega)
    refine ⟨?_, ?_⟩
    · rw [List.flatMap_cons, List.flatMap_cons, ih1, he]
      rfl
    · rw [List.flatMap_cons, List.length_append, ih2, he, List.map_cons, List.sum_cons]
      simp only [List.length_cons]
      omega

/-! ## The split scan -/

theorem machine_diff (c T : Nat) (hc : c ≤ T) (hT : T < 2 ^ 63) :
    (toLongLong c - toLongLong ((T + 2 ^ 64 - c) % 2 ^ 64)).natAbs % 2 ^ 64
      = ((c : Int) - ((T - c : Nat) : Int)).natAbs := by
  have h1 : (T + 2 ^ 64 - c) % 2 ^ 64 = T - c := by
    norm_num at hT ⊢
    omega
  have h2 : toLongLong c = (c : Int) := by
    unfold toLongLong
    rw [if_pos (by omega)]
  have h3 : toLongLong (T - c) = ((T - c : Nat) : Int) := by
    unfold toLongLong
    rw [if_pos (by omega)]
  rw [h1, h2, h3]
  apply Nat.mod_eq_of_lt
  norm_num at hT ⊢
  omega

theorem leftSum_add_rightSum (syms : List SymbolInfo) (j : Nat) :
    leftSum syms j + rightSum syms j = (syms.map SymbolInfo.frequency).sum := by
  unfold leftSum rightSum
  rw [← List.sum_append, ← List.map_append, List.take_append_drop]

theorem leftSum_succ_of_drop (syms : List SymbolInfo) (j : Nat) (s : SymbolInfo)
    (tl : List SymbolInfo) (h : syms.drop j = s :: tl) :
    leftSum syms (j + 1) = leftSum syms j + s.frequency := by
  have hj : j < syms.length := by
    by_contra hge
    rw [List.drop_eq_nil_of_le (by omega)] at h
    cases h
  have hall : syms = (syms.take j ++ [s]) ++ tl := by
    rw [List.append_assoc, List.singleton_append, ← h, List.take_append_drop]
  have hlen : (syms.take j ++ [s]).length = j + 1 := by
    rw [List.length_append, List.length_take, List.length_singleton]
    omega
  have htake : syms.take (j + 1) = syms.take j ++ [s] := by
    conv_lhs => rw [hall]
    exact List.take_left' hlen
  unfold leftSum
  rw [htake, List.map_append, List.sum_append]
  simp

theorem leftSum_mono (syms : List SymbolInfo) {j k : Nat} (h : j ≤ k) :
    leftSum syms j ≤ leftSum syms k := by
  unfold leftSum
  rw [List.map_take, List.map_take]
  exact List.monotone_sum_take _ h

theorem rightSum_pos (syms : List SymbolInfo) (hpos : ∀ s ∈ syms, 1 ≤ s.frequency) (j : Nat)
    (hj : j < syms.length) : 1 ≤ rightSum syms j := by
  unfold rightSum
  cases hd : syms.drop j with
  | nil =>
    have := List.drop_eq_nil_iff.1 hd
    omega
  | cons s tl =>
    have hs : s ∈ syms := List.mem_of_mem_drop (by rw [hd]; exact List.mem_cons_self _ _)
    have := hpos s hs
    simp only [List.map_cons, List.sum_cons]
    omega

theorem leftSum_pos (syms : List SymbolInfo) (hpos : ∀ s ∈ syms, 1 ≤ s.frequency) (j : Nat)
    (hj : 1 ≤ j) (hne : syms ≠ []) : 1 ≤ leftSum syms j := by
  have h1 : 1 ≤ leftSum syms 1 := by
    match syms, hne, hpos with
    | s :: tl, _, hpos =>
      have := hpos s (List.mem_cons_self _ _)
      simp [leftSum]
      omega
  exact le_trans h1 (leftSum_mono syms hj)

theorem splitDiff_eq (syms : List SymbolInfo) (j : Nat) :
    splitDiff syms j
      = (2 * (leftSum syms j : Int) - ((syms.map SymbolInfo.frequency).sum : Int)).natAbs := by
  have := leftSum_add_rightSum syms j
  unfold splitDiff
  omega

theorem totalFreq_foldl (syms : List SymbolInfo) :
    ∀ acc, acc + (syms.map SymbolInfo.frequency).sum < 2 ^ 64 →
      syms.foldl (fun acc s => (acc + s.frequency) % 2 ^ 64) acc
        = acc + (syms.map SymbolInfo.frequency).sum := by
  induction syms with
  | nil => intro acc _; simp
  | cons s tl ih =>
    intro acc h
    simp only [List.map_cons, List.sum_cons] at h
    rw [List.foldl_cons, Nat.mod_eq_of_lt (by omega), ih _ (by omega)]
    simp only [List.map_cons, List.sum_cons]
    omega

theorem totalFreq_eq (syms : List SymbolInfo)
    (h : (syms.map SymbolInfo.frequency).sum < 2 ^ 64) :
    totalFreq syms = (syms.map SymbolInfo.frequency).sum := by
  unfold totalFreq
  rw [totalFreq_foldl syms 0 (by omega)]
  omega

theorem scanSplit_spec (syms : List SymbolInfo) (hpos : ∀ s ∈ syms, 1 ≤ s.frequency)
    (hT : (syms.map SymbolInfo.frequency).sum < 2 ^ 63) (hn : 2 ≤ syms.length)
    (rest : List SymbolInfo) :
    ∀ (i md sp : Nat), syms.dropLast.drop i = rest → i ≤ syms.length - 1 →
      sp ≤ i → (1 ≤ i → 1 ≤ sp) → (sp = 0 → md = (syms.map SymbolInfo.frequency).sum) →
      (1 ≤ sp → md = splitDiff syms sp
        ∧ (∀ j, 1 ≤ j → j ≤ i → md ≤ splitDiff syms j)
        ∧ (∀ j, 1 ≤ j → j < sp → md < splitDiff syms j)) →
      1 ≤ scanSplit (syms.map SymbolInfo.frequency).sum rest i (leftSum syms i) md sp
      ∧ scanSplit (syms.map SymbolInfo.frequency).sum rest i (leftSum syms i) md sp
          ≤ syms.length - 1
      ∧ (∀ j, 1 ≤ j → j ≤ syms.length - 1 →
          splitDiff syms
            (scanSplit (syms.map SymbolInfo.frequency).sum rest i (leftSum syms i) md sp)
            ≤ splitDiff syms j)
      ∧ (∀ j, 1 ≤ j →
          j < scanSplit (syms.map SymbolInfo.frequency).sum rest i (leftSum syms i) md sp →
          splitDiff syms
            (scanSplit (syms.map SymbolInfo.frequency).sum rest i (leftSum syms i) md sp)
            < splitDiff syms j) := by
  have hne : syms ≠ [] := by
    intro h
    rw [h] at hn
    simp at hn
  have hdl : syms.dropLast.length = syms.length - 1 := List.length_dropLast syms
  induction rest with
  | nil =>
    intro i md sp hrest hi hsp hsp1 _ hinv
    have hi2 : i = syms.length - 1 := by
      have := List.drop_eq_nil_iff.1 hrest
      omega
    have h1 : 1 ≤ sp := hsp1 (by omega)
    obtain ⟨hmd, hmin, hfirst⟩ := hinv h1
    simp only [scanSplit]
    refine ⟨h1, by omega, ?_, ?_⟩
    · intro j hj1 hj2
      rw [← hmd]
      exact hmin j hj1 (by omega)
    · intro j hj1 hj2
      rw [← hmd]
      exact hfirst j hj1 hj2
  | cons s rest ih =>
    intro i md sp hrest hi hsp hsp1 hsp0 hinv
    have hilt : i < syms.dropLast.length := by
      by_contra hge
      rw [List.drop_eq_nil_of_le (by omega)] at hrest
      cases hrest
    have hrest2 : syms.dropLast.drop (i + 1) = rest := by
      rw [← List.tail_drop, hrest]
      rfl
    have hdrop : syms.drop i = s :: (rest ++ [syms.getLast hne]) := by
      conv_lhs => rw [← List.dropLast_append_getLast hne]
      rw [List.drop_append_of_le_length (by omega), hrest]
      rfl
    have hsucc := leftSum_succ_of_drop syms i s _ hdrop
    have hlt : leftSum syms (i + 1) + 1 ≤ (syms.map SymbolInfo.frequency).sum := by
      have h1 := leftSum_add_rightSum syms (i + 1)
      have h2 := rightSum_pos syms hpos (i + 1) (by omega)
      omega
    have hcur : (leftSum syms i + s.frequency) % 2 ^ 64 = leftSum syms (i + 1) := by
      rw [← hsucc]
      apply Nat.mod_eq_of_lt
      norm_num at hT ⊢
      omega
    have hdiff : (toLongLong (leftSum syms (i + 1))
        - toLongLong (((syms.map SymbolInfo.frequency).sum + 2 ^ 64 - leftSum syms (i + 1))
            % 2 ^ 64)).natAbs % 2 ^ 64 = splitDiff syms (i + 1) := by
      rw [machine_diff _ _ (by omega) hT, splitDiff_eq]
      omega
    have hd1 : splitDiff syms (i + 1) < (syms.map SymbolInfo.frequency).sum := by
      have hp := leftSum_pos syms hpos (i + 1) (by omega) hne
      rw [splitDiff_eq]
      omega
    simp only [scanSplit, hcur, hdiff]
    split
    · next himp =>
      apply ih (i + 1) (splitDiff syms (i + 1)) (i + 1) hrest2 (by omega) (le_refl _)
        (fun _ => by omega) (fun h => by omega)
      intro _
      refine ⟨rfl, ?_, ?_⟩
      · intro j hj1 hj2
        by_cases hj : j = i + 1
        · rw [hj]
        · have hsp2 : 1 ≤ sp := hsp1 (by omega)
          have := (hinv hsp2).2.1 j hj1 (by omega)
          omega
      · intro j hj1 hj2
        have hsp2 : 1 ≤ sp := hsp1 (by omega)
        have := (hinv hsp2).2.1 j hj1 (by omega)
        omega
    · next hnimp =>
      have hsp2 : 1 ≤ sp := by
        by_contra h0
        have := hsp0 (by omega)
        omega
      obtain ⟨hmd, hmin, hfirst⟩ := hinv hsp2
      split
      · next hbrk =>
        refine ⟨hsp2, by omega, ?_, ?_⟩
        · intro j hj1 hj2
          rw [← hmd]
          by_cases hj : j ≤ i
          · exact hmin j hj1 hj
          · have hm := leftSum_mono syms (show i + 1 ≤ j by omega)
            have e1 := splitDiff_eq syms j
            have e2 := splitDiff_eq syms (i + 1)
            omega
        · intro j hj1 hj2
          rw [← hmd]
          exact hfirst j hj1 hj2
      · next hnbrk =>
        apply ih (i + 1) md sp hrest2 (by omega) (by omega) (fun _ => hsp2)
          (fun h => by omega)
        intro _
        refine ⟨hmd, ?_, hfirst⟩
        intro j hj1 hj2
        by_cases hj : j = i + 1
        · rw [hj]
          omega
        · exact hmin j hj1 (by omega)

theorem splitIndex_spec (syms : List SymbolInfo) (hpos : ∀ s ∈ syms, 1 ≤ s.frequency)
    (hT : (syms.map SymbolInfo.frequency).sum < 2 ^ 63) (hn : 2 ≤ syms.length) :
    1 ≤ splitIndex syms ∧ splitIndex syms ≤ syms.length - 1
    ∧ (∀ j, 1 ≤ j → j ≤ syms.length - 1 → splitDiff syms (splitIndex syms) ≤ splitDiff syms j)
    ∧ (∀ j, 1 ≤ j → j < splitIndex syms → splitDiff syms (splitIndex syms) < splitDiff syms j)
    ∧ scanSplit (totalFreq syms) syms.dropLast 0 0 (totalFreq syms) 0 ≠ 0 := by
  have htot : totalFreq syms = (syms.map SymbolInfo.frequency).sum :=
    totalFreq_eq syms (by norm_num at hT ⊢; omega)
  have h0 : leftSum syms 0 = 0 := by simp [leftSum]
  have key := scanSplit_spec syms hpos hT hn syms.dropLast 0
    (syms.map SymbolInfo.frequency).sum 0 rfl (by omega) (le_refl _) (fun h => by omega)
    (fun _ => rfl) (fun h => by omega)
  rw [h0] at key
  have hsi : splitIndex syms
      = scanSplit (syms.map SymbolInfo.frequency).sum syms.dropLast 0 0
          (syms.map SymbolInfo.frequency).sum 0 := by
    unfold splitIndex
    simp only [htot]
    rw [if_neg (by omega)]
  rw [hsi, htot]
  exact ⟨key.1, key.2.1, key.2.2.1, key.2.2.2, by omega⟩

/-! ## Dictionaries that are rejected -/

theorem readEntries_zero_length (N L : Nat) (hg : N > 1 ∨ (N = 1 ∧ L > 0))
    (es : List (Byte × Str)) :
    ∀ (ct : ByteMap Str) (m : Nat) (symbol : Byte) (rest : List Byte),
      (∀ e ∈ es, e.2.length < 256) →
      readEntries N L (es.length + 1 + m) (es.flatMap writeEntry ++ [symbol, 0] ++ rest) ct
        = .error .invalidZeroCodeLength := by
  induction es with
  | nil =>
    intro ct m symbol rest _
    have h0 : ((0 : Byte)).val = 0 := rfl
    simp only [List.length_nil, List.flatMap_nil, List.nil_append, Nat.zero_add,
      List.cons_append, Nat.add_comm 1 m, readEntries, h0, true_and]
    rw [if_pos hg]
  | cons e es ih =>
    intro ct m symbol rest h
    have hlt := h e (List.mem_cons_self _ _)
    have hval : (toByte e.2.length).val = e.2.length := val_toByte _ hlt
    have hlen : (e :: es).length + 1 + m = (es.length + 1 + m) + 1 := by
      simp only [List.length_cons]
      omega
    rw [List.flatMap_cons, writeEntry_eq e hlt, hlen]
    simp only [List.cons_append, readEntries, hval]
    split
    · rfl
    · rw [if_neg (by simp)]
      rw [List.append_assoc, List.append_assoc, List.drop_left, List.take_left]
      have := ih (ct.insert e.1 e.2) m symbol rest
        (fun e2 he2 => h e2 (List.mem_cons_of_mem _ he2))
      rw [List.append_assoc] at this
      exact this

theorem readDictionary_header (L N : Nat) (hL : L < 2 ^ 64) (hN : N < 2 ^ 16)
    (body : List Byte) :
    readDictionary (toBytes 8 L ++ toBytes 2 N ++ body)
      = match readEntries N L N body ByteMap.empty with
        | .error e => .error e
        | .ok codeTable => .ok (codeTable, L) := by
  have h8 : (toBytes 8 L).length = 8 := toBytes_length 8 L
  have h2 : (toBytes 2 N).length = 2 := toBytes_length 2 N
  have hL2 : L % 256 ^ 8 = L := Nat.mod_eq_of_lt (by norm_num at hL ⊢; exact hL)
  have hN2 : N % 256 ^ 2 = N := Nat.mod_eq_of_lt (by norm_num at hN ⊢; exact hN)
  unfold readDictionary
  rw [List.append_assoc]
  rw [if_neg (by rw [List.length_append, h8]; omega)]
  simp only
  rw [List.drop_left' h8, List.take_left' h8]
  rw [if_neg (by rw [List.length_append, h2]; omega)]
  rw [List.drop_left' h2, List.take_left' h2]
  rw [ofBytes_toBytes, ofBytes_toBytes, hL2, hN2]

theorem readDictionary_zero_length (L N : Nat) (es : List (Byte × Str)) (symbol : Byte)
    (rest : List Byte) (hL : L < 2 ^ 64) (hN : N < 2 ^ 16) (hes : es.length < N)
    (hlen : ∀ e ∈ es, e.2.length < 256) (hg : N > 1 ∨ L > 0) :
    readDictionary (toBytes 8 L ++ toBytes 2 N ++ (es.flatMap writeEntry ++ [symbol, 0] ++ rest))
      = .error .invalidZeroCodeLength := by
  rw [readDictionary_header L N hL hN]
  obtain ⟨m, hm⟩ : ∃ m, N = es.length + 1 + m := ⟨N - es.length - 1, by omega⟩
  have hg2 : N > 1 ∨ (N = 1 ∧ L > 0) := by omega
  have := readEntries_zero_length N L hg2 es ByteMap.empty m symbol rest hlen
  rw [← hm] at this
  rw [this]

theorem readDictionary_single_zero_length (symbol : Byte) (rest : List Byte) :
    readDictionary (toBytes 8 0 ++ toBytes 2 1 ++ ([symbol, 0] ++ rest))
      = .ok (ByteMap.empty.insert symbol [], 0) := by
  rw [readDictionary_header 0 1 (by norm_num) (by norm_num)]
  rfl

theorem readEntries_truncated (N L : Nat) (es : List (Byte × Str)) :
    ∀ (ct : ByteMap Str) (q : List Byte),
      (∀ e ∈ es, 0 < e.2.length ∧ e.2.length < 256) →
      q <+: es.flatMap writeEntry → q ≠ es.flatMap writeEntry →
      ∃ err, readEntries N L es.length q ct = .error err := by
  induction es with
  | nil =>
    intro ct q _ hq hne
    exact absurd (List.prefix_nil.mp hq) hne
  | cons e es ih =>
    intro ct q h hq hne
    have hlt := h e (List.mem_cons_self _ _)
    have hval : (toByte e.2.length).val = e.2.length := val_toByte _ hlt.2
    rw [List.flatMap_cons, writeEntry_eq e hlt.2] at hq hne
    simp only [List.cons_append, List.nil_append, List.append_assoc] at hq hne
    rw [List.length_cons]
    match q, hq, hne with
    | [], _, _ => exact ⟨_, rfl⟩
    | [a], _, _ => exact ⟨_, rfl⟩
    | a :: b :: q2, hq, hne =>
      rw [List.cons_prefix_cons, List.cons_prefix_cons] at hq
      obtain ⟨ha, hb, hq2⟩ := hq
      subst ha
      subst hb
      simp only [readEntries, hval]
      rw [if_neg (by omega)]
      by_cases hshort : q2.length < e.2.length
      · rw [if_pos hshort]
        exact ⟨_, rfl⟩
      · rw [if_neg hshort]
        have hpre : e.2 <+: q2 :=
          List.prefix_of_prefix_length_le (List.prefix_append _ _) hq2 (by omega)
        obtain ⟨q3, hq3⟩ := hpre
        subst hq3
        rw [List.drop_left, List.take_left]
        rw [List.prefix_append_right_inj] at hq2
        apply ih _ _ (fun e2 he2 => h e2 (List.mem_cons_of_mem _ he2)) hq2
        intro h3
        apply hne
        rw [h3]

theorem readDictionary_truncated (T : ByteMap Str) (L : Nat)
    (hT : ∀ k c, T.find k = some c → 0 < c.length ∧ c.length < 256)
    (p : List Byte) (hp : p <+: writeDictionary T L) (hne : p ≠ writeDictionary T L) :
    ∃ err, readDictionary p = .error err := by
  have h8 : (toBytes 8 L).length = 8 := toBytes_length 8 L
  have h2 : (toBytes 2 T.size).length = 2 := toBytes_length 2 T.size
  have hsz : T.size % 256 ^ 2 = T.size := Nat.mod_eq_of_lt (by have := T.size_le; omega)
  have hsz2 : T.size % 2 ^ 16 = T.size := Nat.mod_eq_of_lt (by have := T.size_le; omega)
  have hes : ∀ e ∈ T.entries, 0 < e.2.length ∧ e.2.length < 256 := fun e he =>
    hT e.1 e.2 ((ByteMap.mem_entries T e.1 e.2).mp he)
  have hwd : writeDictionary T L
      = toBytes 8 L ++ (toBytes 2 T.size ++ T.entries.flatMap writeEntry) := by
    unfold writeDictionary
    rw [List.append_assoc, hsz2]
  rw [hwd] at hp hne
  unfold readDictionary
  by_cases hp8 : p.length < 8
  · rw [if_pos hp8]
    exact ⟨_, rfl⟩
  rw [if_neg hp8]
  obtain ⟨p1, rfl⟩ : toBytes 8 L <+: p :=
    List.prefix_of_prefix_length_le (List.prefix_append _ _) hp (by omega)
  rw [List.prefix_append_right_inj] at hp
  simp only
  rw [List.drop_left' h8, List.take_left' h8]
  by_cases hp2 : p1.length < 2
  · rw [if_pos hp2]
    exact ⟨_, rfl⟩
  rw [if_neg hp2]
  obtain ⟨p2, rfl⟩ : toBytes 2 T.size <+: p1 :=
    List.prefix_of_prefix_length_le (List.prefix_append _ _) hp (by omega)
  rw [List.prefix_append_right_inj] at hp
  rw [List.drop_left' h2, List.take_left' h2, ofBytes_toBytes, hsz]
  have hsize : T.size = T.entries.length := rfl
  have hne2 : p2 ≠ T.entries.flatMap writeEntry := by
    intro h3
    apply hne
    rw [h3]
  obtain ⟨err, herr⟩ := readEntries_truncated T.size (ofBytes (toBytes 8 L)) T.entries
    ByteMap.empty p2 hes hp hne2
  refine ⟨err, ?_⟩
  generalize hx : readEntries T.size (ofBytes (toBytes 8 L)) T.size p2 ByteMap.empty = x
  have hx2 : x = .error err := by
    rw [← hx, ← herr]
    exact id rfl
  rw [hx2]

/-! ## The number of bytes decoded -/

theorem decodeLoop_count (trie : Trie) (L : Nat) (fuel : Nat) :
    ∀ (r : BitReader) (cur : Str) (count : Nat) (out : List Byte), count ≤ L →
      (decodeLoop trie L fuel r cur count out).1.length + count
          = out.length + (decodeLoop trie L fuel r cur count out).2.1
        ∧ (decodeLoop trie L fuel r cur count out).2.1 ≤ L := by
  induction fuel with
  | zero => intro r cur count out h; exact ⟨rfl, h⟩
  | succ fuel ih =>
    intro r cur count out h
    unfold decodeLoop
    split
    · next hlt =>
      split
      · exact ⟨rfl, h⟩
      · next bit_val r2 _ =>
        dsimp only
        split
        · exact ⟨rfl, h⟩
        · next child _ =>
          split
          · obtain ⟨h1, h2⟩ := ih r2 [] (count + 1) (out ++ [child.symbol]) hlt
            rw [List.length_append, List.length_singleton] at h1
            exact ⟨by omega, h2⟩
          · exact ih r2 _ count out h
    · exact ⟨rfl, h⟩

theorem decodeBits_count_le (trie : Trie) (L : Nat) (bits : List Bool) :
    ∀ (cur : Str) (count : Nat) (out : List Byte),
      (decodeBits trie L bits cur count out).2.1 ≤ count + bits.length := by
  induction bits with
  | nil => intro cur count out; exact Nat.le_refl _
  | cons b bits ih =>
    intro cur count out
    unfold decodeBits
    rw [List.length_cons]
    split
    · split
      · exact Nat.le_add_right _ _
      · next child _ =>
        split
        · have := ih [] (count + 1) (out ++ [child.symbol])
          omega
        · have := ih (cur ++ [if b then chr1 else chr0]) count out
          omega
    · exact Nat.le_add_right _ _

theorem readCompressedDataAndDecode_count (trie : Trie) (L : Nat) (payload : List Byte) :
    (readCompressedDataAndDecode trie L payload).1.length ≤ L
      ∧ ((readCompressedDataAndDecode trie L payload).2.1 = none →
          (readCompressedDataAndDecode trie L payload).1.length = L)
      ∧ ((readCompressedDataAndDecode trie L payload).2.1 = none →
          L ≤ 8 * payload.length) := by
  obtain ⟨h1, h2⟩ := decodeLoop_count trie L (8 * payload.length + 1) ⟨payload, 0, 0⟩ [] 0 []
    (Nat.zero_le _)
  have hinv : BitReader.Inv ⟨payload, 0, 0⟩ := ⟨by norm_num, by norm_num⟩
  have hbits : (BitReader.bits ⟨payload, 0, 0⟩).length = 8 * payload.length := by
    simp [BitReader.bits, bytesBits_length]
  have h3 := decodeLoop_eq trie L (8 * payload.length + 1) ⟨payload, 0, 0⟩ [] 0 [] hinv
    (by omega)
  have h4 := decodeBits_count_le trie L (BitReader.bits ⟨payload, 0, 0⟩) [] 0 []
  rw [← h3, hbits] at h4
  simp only [withoutReader] at h4
  unfold readCompressedDataAndDecode
  generalize decodeLoop trie L (8 * payload.length + 1) ⟨payload, 0, 0⟩ [] 0 [] = x at h1 h2 h4 ⊢
  simp only [List.length_nil, Nat.add_zero, Nat.zero_add] at h1 h4
  dsimp only
  split
  · dsimp only
    exact ⟨by omega, fun h => by simp at h, fun h => by simp at h⟩
  · split
    · dsimp only
      exact ⟨by omega, fun h => by simp at h, fun h => by simp at h⟩
    · next hne =>
      have : x.2.1 = L := not_not.mp hne
      dsimp only
      exact ⟨by omega, fun _ => by omega, fun _ => by omega⟩

theorem decode_eq (self : ShannonFano) (payload dict : List Byte) (ct : ByteMap Str) (L : Nat)
    (trie : Trie) (h1 : readDictionary dict = .ok (ct, L)) (h2 : L ≠ 0)
    (h3 : buildDecodingTrie ct L = .ok trie) :
    self.decode payload dict
      = match (readCompressedDataAndDecode trie L payload).2.1 with
        | some e => ⟨(readCompressedDataAndDecode trie L payload).1, .error e,
            (readCompressedDataAndDecode trie L payload).2.2⟩
        | none => ⟨(readCompressedDataAndDecode trie L payload).1,
            .ok ⟨ByteMap.empty, ct, some trie, L⟩,
            (readCompressedDataAndDecode trie L payload).2.2⟩ := by
  unfold ShannonFano.decode ShannonFano.clearState
  rw [h1]
  dsimp only
  rw [if_neg h2, h3]

theorem decode_trie_error (self : ShannonFano) (payload dict : List Byte) (ct : ByteMap Str)
    (L : Nat) (e : Error) (h1 : readDictionary dict = .ok (ct, L)) (h2 : L ≠ 0)
    (h3 : buildDecodingTrie ct L = .error e) :
    self.decode payload dict = ⟨[], .error e, payload⟩ := by
  unfold ShannonFano.decode ShannonFano.clearState
  rw [h1]
  dsimp only
  rw [if_neg h2, h3]

theorem decode_count (self : ShannonFano) (payload dict : List Byte) (ct : ByteMap Str)
    (L : Nat) (hd : readDictionary dict = .ok (ct, L)) (hL : 0 < L) :
    (self.decode payload dict).outputFile.length ≤ L
      ∧ (∀ st, (self.decode payload dict).status = .ok st →
          (self.decode payload dict).outputFile.length = L ∧ L ≤ 8 * payload.length) := by
  cases ht : buildDecodingTrie ct L with
  | error e =>
    rw [decode_trie_error self payload dict ct L e hd (by omega) ht]
    exact ⟨Nat.zero_le _, fun st h => by simp at h⟩
  | ok trie =>
    rw [decode_eq self payload dict ct L trie hd (by omega) ht]
    obtain ⟨h1, h2, h3⟩ := readCompressedDataAndDecode_count trie L payload
    generalize readCompressedDataAndDecode trie L payload = x at h1 h2 h3 ⊢
    cases hx : x.2.1 with
    | some e => exact ⟨h1, fun st h => by simp at h⟩
    | none => exact ⟨h1, fun st _ => ⟨h2 hx, h3 hx⟩⟩

/-! ## Bit positions -/

theorem natBits_getD (n : Nat) :
    ∀ (x j : Nat), j < n → (natBits n x).getD j false = x.testBit (n - 1 - j) := by
  induction n with
  | zero => intro x j h; omega
  | succ n ih =>
    intro x j h
    simp only [natBits]
    by_cases hj : j < n
    · rw [List.getD_append _ _ _ _ (by rw [natBits_length]; exact hj), ih (x / 2) j hj]
      have h1 : n + 1 - 1 - j = (n - 1 - j) + 1 := by omega
      rw [h1, Nat.testBit_succ]
    · have hjn : j = n := by omega
      subst hjn
      rw [List.getD_append_right _ _ _ _ (by rw [natBits_length])]
      simp [natBits_length, Nat.testBit_zero]

theorem bytesBits_getD (bs : List Byte) :
    ∀ i, i < 8 * bs.length →
      (bytesBits bs).getD i false = (bs.getD (i / 8) 0).val.testBit (7 - i % 8) := by
  induction bs with
  | nil => intro i h; simp at h
  | cons b bs ih =>
    intro i h
    rw [bytesBits_cons]
    by_cases hi : i < 8
    · rw [List.getD_append _ _ _ _ (by rw [natBits_length]; exact hi), natBits_getD 8 _ i hi]
      have h1 : i / 8 = 0 := by omega
      have h2 : i % 8 = i := by omega
      rw [h1, h2]
      rfl
    · rw [List.getD_append_right _ _ _ _ (by rw [natBits_length]; omega), natBits_length,
        ih (i - 8) (by rw [List.length_cons] at h; omega)]
      have h1 : i / 8 = (i - 8) / 8 + 1 := by omega
      have h2 : (i - 8) % 8 = i % 8 := by omega
      rw [h1, h2]
      rfl

theorem writeBits_foldl (bits : List Bool) :
    ∀ w : BitWriter, w.Inv →
      (bits.foldl BitWriter.writeBit w).Inv
        ∧ (bits.foldl BitWriter.writeBit w).written = w.written ++ bits := by
  induction bits with
  | nil => intro w h; exact ⟨h, by simp⟩
  | cons b bits ih =>
    intro w h
    obtain ⟨h1, h2⟩ := BitWriter.writeBit_spec w b h
    obtain ⟨h3, h4⟩ := ih (w.writeBit b) h1
    rw [List.foldl_cons]
    exact ⟨h3, by rw [h4, h2, List.append_assoc]; rfl⟩

theorem writeBits_spec (bits : List Bool) :
    (writeBits bits).Inv ∧ (writeBits bits).written = bits
      ∧ 8 * (writeBits bits).os.length + (writeBits bits).bit_count = bits.length := by
  obtain ⟨h1, h2⟩ := writeBits_foldl bits ⟨[], 0, 0⟩ ⟨by norm_num, by norm_num⟩
  have h3 : (writeBits bits).written = bits := by
    unfold writeBits
    rw [h2]
    simp [BitWriter.written, bytesBits, natBits]
  refine ⟨h1, h3, ?_⟩
  have h4 := congrArg List.length h3
  rw [BitWriter.written, List.length_append, bytesBits_length, natBits_length] at h4
  exact h4

theorem writeBits_flush (bits : List Bool) :
    bytesBits (writeBits bits).flush.os
        = bits ++ List.replicate (8 * ((bits.length + 7) / 8) - bits.length) false
      ∧ (writeBits bits).flush.os.length = (bits.length + 7) / 8 := by
  obtain ⟨h1, h2, h3⟩ := writeBits_spec bits
  have h4 := BitWriter.flush_spec _ h1
  rw [h2] at h4
  have h5 := congrArg List.length h4
  rw [bytesBits_length, List.length_append, List.length_replicate] at h5
  have h6 : (8 - (writeBits bits).bit_count) % 8 < 8 := Nat.mod_lt _ (by norm_num)
  have h7 : (writeBits bits).flush.os.length = (bits.length + 7) / 8 := by omega
  refine ⟨?_, h7⟩
  rw [h4]
  congr 2
  omega

theorem readBits_spec (n : Nat) :
    ∀ r : BitReader, r.Inv →
      (readBits n r).1 = r.bits.take n ∧ (readBits n r).2.Inv
        ∧ (readBits n r).2.bits = r.bits.drop n := by
  induction n with
  | zero => intro r h; exact ⟨by simp [readBits], h, by simp [readBits]⟩
  | succ n ih =>
    intro r h
    have hs := BitReader.readBit_spec r h
    unfold readBits
    cases hrb : r.readBit with
    | none =>
      rw [hrb] at hs
      simp only at hs
      simp [hs, h]
    | some x =>
      obtain ⟨b, r2⟩ := x
      rw [hrb] at hs
      simp only at hs
      obtain ⟨h1, h2, h3⟩ := ih r2 hs.2
      simp only [hs.1, List.take_succ_cons, List.drop_succ_cons]
      exact ⟨by rw [h1], h2, h3⟩

theorem readBit_none (r : BitReader) (h : r.Inv) (hb : r.bits = []) : r.readBit = none := by
  have hs := BitReader.readBit_spec r h
  cases hrb : r.readBit with
  | none => rfl
  | some x =>
    rw [hrb] at hs
    simp only at hs
    rw [hb] at hs
    exact absurd hs.1 (by simp)

theorem readBits_all (src : List Byte) (n : Nat) (hn : 8 * src.length ≤ n) :
    (readBits n ⟨src, 0, 0⟩).1 = bytesBits src ∧ (readBits n ⟨src, 0, 0⟩).2.readBit = none := by
  have hinv : BitReader.Inv ⟨src, 0, 0⟩ := ⟨by norm_num, by norm_num⟩
  have hbits : BitReader.bits ⟨src, 0, 0⟩ = bytesBits src := by simp [BitReader.bits]
  obtain ⟨h1, h2, h3⟩ := readBits_spec n ⟨src, 0, 0⟩ hinv
  rw [hbits] at h1 h3
  have hlen := bytesBits_length src
  refine ⟨?_, readBit_none _ h2 ?_⟩
  · rw [h1, List.take_of_length_le (by omega)]
  · rw [h3, List.drop_of_length_le (by omega)]

/-! ## The counts of the frequency analyzer -/

theorem sum_count_finRange (S : List Byte) :
    ((List.finRange 256).map (fun k => S.count k)).sum = S.length := by
  rw [← Fin.sum_univ_def]
  induction S with
  | nil => simp
  | cons a S ih =>
    simp only [List.count_cons, Finset.sum_add_distrib, ih, List.length_cons]
    simp

theorem sum_entries_of_find (m : ByteMap Nat) (S : List Byte)
    (h : ∀ k, m.find k = if k ∈ S then some (S.count k) else none) (l : List Byte) :
    ((l.filterMap (fun k => (m.find k).map (fun v => (k, v)))).map Prod.snd).sum
      = (l.map (fun k => S.count k)).sum := by
  induction l with
  | nil => rfl
  | cons k l ih =>
    rw [List.filterMap_cons, h k]
    by_cases hk : k ∈ S
    · rw [if_pos hk]
      simp only [Option.map_some', List.map_cons, List.sum_cons, ih]
    · rw [if_neg hk]
      simp only [Option.map_none', List.map_cons, List.sum_cons, ih,
        List.count_eq_zero_of_not_mem hk, Nat.zero_add]

theorem buildFrequencyMap_exact (S : List Byte) (h : S.length < 2 ^ 64) (k : Byte) :
    (buildFrequencyMap S).1.find k = if k ∈ S then some (S.count k) else none := by
  rw [buildFrequencyMap_find]
  have h1 : S.count k % 2 ^ 64 = S.count k :=
    Nat.mod_eq_of_lt (Nat.lt_of_le_of_lt (List.count_le_length k S) h)
  rw [h1]

theorem buildFrequencyMap_sum (S : List Byte) (h : S.length < 2 ^ 64) :
    ((buildFrequencyMap S).1.entries.map Prod.snd).sum = S.length := by
  have h1 := sum_entries_of_find (buildFrequencyMap S).1 S (buildFrequencyMap_exact S h)
    (List.finRange 256)
  rw [sum_count_finRange] at h1
  exact h1

/-! ## Payloads that are cut or followed by other bits -/

theorem builder_table (S : List Byte) (hS : S ≠ []) :
    (∀ s c, (buildCodesInternal (buildFrequencyMap S).1).find s = some c →
        c ≠ [] ∧ IsBinary c ∧ c.length < 256)
      ∧ PfxFree (buildCodesInternal (buildFrequencyMap S).1).entries
      ∧ (∀ s ∈ S, ((buildCodesInternal (buildFrequencyMap S).1).find s).isSome = true)
      ∧ (buildCodesInternal (buildFrequencyMap S).1).size ≠ 0 := by
  have hkeys : ∀ s ∈ S,
      ((buildCodesInternal (buildFrequencyMap S).1).find s).isSome = true := by
    intro s hs
    rw [isSome_find_buildCodesInternal, buildFrequencyMap_isSome]
    exact hs
  refine ⟨fun s c hc => buildCodesInternal_shape _ s c hc, buildCodesInternal_pfxFree _,
    hkeys, ?_⟩
  rw [Ne, ByteMap.size_eq_zero_iff]
  intro hnone
  obtain ⟨s, hs⟩ := List.exists_mem_of_ne_nil S hS
  have := hkeys s hs
  rw [hnone s] at this
  cases this

theorem streamBits_length (ct : ByteMap Str) (S : List Byte) :
    (streamBits ct S).length = (S.map (fun s => ((ct.find s).getD []).length)).sum := by
  induction S with
  | nil => rfl
  | cons s S ih =>
    simp only [streamBits, List.flatMap_cons, List.length_append, List.map_cons,
      List.sum_cons, codeBits, List.length_map] at ih ⊢
    rw [ih]

theorem decode_stream (self : ShannonFano) (S payload : List Byte) (more : List Bool)
    (hS : S ≠ []) (h : S.length < 2 ^ 64)
    (hbits : bytesBits payload
      = streamBits (buildCodesInternal (buildFrequencyMap S).1) S ++ more) :
    ∃ st rest, self.decode payload
        (writeDictionary (buildCodesInternal (buildFrequencyMap S).1) S.length)
      = ⟨S, .ok st, rest⟩ := by
  obtain ⟨hshape, hpf, hkeys, hsz⟩ := builder_table S hS
  generalize buildCodesInternal (buildFrequencyMap S).1 = ct at hbits hshape hpf hkeys hsz ⊢
  have hlen0 : S.length ≠ 0 := fun h0 => hS (List.length_eq_zero.1 h0)
  have hrd := readDictionary_writeDictionary ct S.length h
    (fun k c hc => ⟨List.length_pos.2 (hshape k c hc).1, (hshape k c hc).2.2⟩)
  obtain ⟨rest, hdec⟩ := readCompressedDataAndDecode_spec ct S payload more hpf
    (fun s c hc => ⟨(hshape s c hc).1, (hshape s c hc).2.1⟩) hkeys hbits
  exact ⟨⟨ByteMap.empty, ct, some (insertEntries Trie.root ct.entries), S.length⟩, rest,
    decode_ok _ _ _ _ _ _ _ _ hrd hlen0 (buildDecodingTrie_eq ct S.length hsz) hdec⟩

theorem decodeBits_partial (trie : Trie) (L : Nat) (code : Str)
    (hin : ∀ r, r <+: code → r ≠ [] → r ≠ code →
      ∃ n, trie.node r = some n ∧ n.isEndOfCode = false)
    (hbin : IsBinary code) (q : Str) :
    ∀ (p : Str) (part : List Bool) (count : Nat) (out : List Byte),
      code = p ++ q → part <+: codeBits q → part.length < q.length →
      decodeBits trie L part p count out = (out, count, none) := by
  induction q with
  | nil => intro p part count out _ _ h; simp at h
  | cons x q ih =>
    intro p part count out hpq hpre hlen
    cases part with
    | nil => rfl
    | cons b part =>
      have hx : x = chr0 ∨ x = chr1 := hbin x (by rw [hpq]; simp)
      simp only [codeBits, List.map_cons, List.cons_prefix_cons] at hpre
      obtain ⟨hb, hpre⟩ := hpre
      subst hb
      simp only [List.length_cons, Nat.add_lt_add_iff_right] at hlen
      have hq : q ≠ [] := by
        intro h0
        rw [h0] at hlen
        simp at hlen
      unfold decodeBits
      split
      · rw [binary_char x hx]
        obtain ⟨n, hn, hend⟩ := hin (p ++ [x]) (by rw [hpq]; simp) (by simp)
          (by
            rw [hpq]
            intro h2
            have h3 := List.append_cancel_left h2
            simp only [List.cons.injEq, true_and] at h3
            exact hq h3.symm)
        rw [hn]
        simp only [hend, Bool.false_eq_true, if_false]
        exact ih (p ++ [x]) part count out (by rw [hpq]; simp) hpre hlen
      · rfl

theorem decodeBits_truncated (trie : Trie) (L : Nat) (ct : ByteMap Str)
    (hcode : ∀ s c, ct.find s = some c → trie.node c = some ⟨true, s⟩)
    (hin : ∀ s c, ct.find s = some c → ∀ r, r <+: c → r ≠ [] → r ≠ c →
      ∃ n, trie.node r = some n ∧ n.isEndOfCode = false)
    (hshape : ∀ s c, ct.find s = some c → c ≠ [] ∧ IsBinary c) (S : List Byte) :
    ∀ (bits : List Bool) (count : Nat) (out : List Byte),
      (∀ s ∈ S, (ct.find s).isSome = true) → count + S.length ≤ L →
      bits <+: streamBits ct S → bits.length < (streamBits ct S).length →
      ∃ out2 n, decodeBits trie L bits [] count out = (out2, n, none)
        ∧ n < count + S.length := by
  induction S with
  | nil => intro bits count out _ _ _ h; simp [streamBits] at h
  | cons s S ih =>
    intro bits count out hS hL hpre hlen
    obtain ⟨c, hc⟩ := Option.isSome_iff_exists.1 (hS s (List.mem_cons_self _ _))
    obtain ⟨hne, hbin⟩ := hshape s c hc
    have hsb : streamBits ct (s :: S) = codeBits c ++ streamBits ct S := by
      simp [streamBits, hc]
    rw [hsb] at hpre hlen
    rw [List.length_cons] at hL ⊢
    have hcl : (codeBits c).length = c.length := by simp [codeBits]
    by_cases hshort : bits.length < c.length
    · have hp2 : bits <+: codeBits c :=
        List.prefix_of_prefix_length_le hpre (List.prefix_append _ _) (by omega)
      refine ⟨out, count, ?_, by omega⟩
      exact decodeBits_partial trie L c (hin s c hc) hbin c [] bits count out rfl hp2 hshort
    · obtain ⟨bits2, rfl⟩ : codeBits c <+: bits :=
        List.prefix_of_prefix_length_le (List.prefix_append _ _) hpre (by omega)
      rw [List.prefix_append_right_inj] at hpre
      rw [List.length_append, List.length_append, Nat.add_lt_add_iff_left] at hlen
      rw [decodeBits_code trie L s c (hcode s c hc) (hin s c hc) hbin c [] bits2 count out
        rfl hne (by omega)]
      obtain ⟨out2, n, h1, h2⟩ := ih bits2 (count + 1) (out ++ [s])
        (fun s2 hs2 => hS s2 (List.mem_cons_of_mem _ hs2)) (by omega) hpre hlen
      exact ⟨out2, n, h1, by omega⟩

theorem readCompressedDataAndDecode_short (trie : Trie) (L : Nat) (payload out : List Byte)
    (n : Nat) (h : decodeBits trie L (bytesBits payload) [] 0 [] = (out, n, none))
    (hn : n ≠ L) :
    (readCompressedDataAndDecode trie L payload).2.1 = some .decodedBytesDoNotMatch := by
  have hinv : BitReader.Inv ⟨payload, 0, 0⟩ := ⟨by norm_num, by norm_num⟩
  have hbits : BitReader.bits ⟨payload, 0, 0⟩ = bytesBits payload := by simp [BitReader.bits]
  have h3 := decodeLoop_eq trie L (8 * payload.length + 1) ⟨payload, 0, 0⟩ [] 0 [] hinv
    (by rw [hbits, bytesBits_length]; omega)
  rw [hbits, h] at h3
  unfold readCompressedDataAndDecode
  generalize decodeLoop trie L (8 * payload.length + 1) ⟨payload, 0, 0⟩ [] 0 [] = x at h3 ⊢
  simp only [withoutReader, Prod.mk.injEq] at h3
  obtain ⟨_, h4, h5⟩ := h3
  dsimp only
  rw [h5]
  dsimp only
  rw [if_pos (by rw [h4]; exact hn)]

theorem decode_truncated (self self2 : ShannonFano) (S p : List Byte)
    (hp : p <+: (self.encode S).outputFile) (hne : p ≠ (self.encode S).outputFile) :
    (self2.decode p (self.encode S).dictFile).status = .error .decodedBytesDoNotMatch := by
  by_cases hS : S = []
  · subst hS
    rw [encode_nil] at hp hne
    exact absurd (List.prefix_nil.1 hp) hne
  obtain ⟨out, pad, he, hbits, hpad⟩ := encode_cons_pad self S hS
  rw [he] at hp hne ⊢
  dsimp only at hp hne ⊢
  obtain ⟨hshape, hpf, hkeys, hsz⟩ := builder_table S hS
  generalize buildCodesInternal (buildFrequencyMap S).1 = ct at hbits hshape hpf hkeys hsz ⊢
  have hLle : S.length % 2 ^ 64 ≤ S.length := Nat.mod_le _ _
  have hLlt : S.length % 2 ^ 64 < 2 ^ 64 := Nat.mod_lt _ (by norm_num)
  generalize S.length % 2 ^ 64 = L at hbits hLle hLlt ⊢
  have hrd := readDictionary_writeDictionary ct L hLlt
    (fun k c hc => ⟨List.length_pos.2 (hshape k c hc).1, (hshape k c hc).2.2⟩)
  obtain ⟨t, ht⟩ := hp
  have hplen : p.length < out.length := by
    have h1 := congrArg List.length ht
    rw [List.length_append] at h1
    have h2 : t ≠ [] := by
      intro h0
      rw [h0, List.append_nil] at ht
      exact hne ht
    have := List.length_pos.2 h2
    omega
  have hb1 : bytesBits p <+: bytesBits out := ⟨bytesBits t, by rw [← bytesBits_append, ht]⟩
  have hb2 := congrArg List.length hbits
  rw [bytesBits_length, List.length_append, List.length_replicate] at hb2
  have hb3 : (bytesBits p).length < (streamBits ct (S.take L)).length := by
    rw [bytesBits_length]
    omega
  rw [hbits] at hb1
  have hb4 : bytesBits p <+: streamBits ct (S.take L) :=
    List.prefix_of_prefix_length_le hb1 (List.prefix_append _ _) (by omega)
  have hL0 : L ≠ 0 := by
    intro h0
    rw [h0] at hb3
    simp [streamBits] at hb3
  have htl : (S.take L).length = L := by
    rw [List.length_take]
    omega
  obtain ⟨t1, t2⟩ := trie_of_pfxFree ct.entries hpf
  have htrie := buildDecodingTrie_eq ct L hsz
  generalize insertEntries Trie.root ct.entries = trie at t1 t2 htrie
  obtain ⟨out2, n, h1, h2⟩ := decodeBits_truncated trie L ct
    (fun s c hc => t1 (s, c) ((ByteMap.mem_entries ct s c).2 hc))
    (fun s c hc => t2 (s, c) ((ByteMap.mem_entries ct s c).2 hc))
    (fun s c hc => ⟨(hshape s c hc).1, (hshape s c hc).2.1⟩) (S.take L) (bytesBits p) 0 []
    (fun s hs => hkeys s (List.mem_of_mem_take hs)) (by omega) hb4 hb3
  have h3 := readCompressedDataAndDecode_short trie L p out2 n h1 (by omega)
  rw [decode_eq self2 p _ ct L trie hrd hL0 htrie, h3]

/-! ## Sample evaluations -/

theorem pairTable_lengths (k : Byte) (c : Str) (h : pairTable.find k = some c) :
    1 ≤ c.length ∧ c.length ≤ 255 := by
  simp only [pairTable, ByteMap.insert, ByteMap.empty] at h
  split at h
  · cases h
    decide
  · split at h
    · cases h
      decide
    · cases h

set_option maxRecDepth 1000000 in
theorem writeDictionary_pairTable :
    writeDictionary pairTable 4 = [4, 0, 0, 0, 0, 0, 0, 0, 2, 0, 65, 1, 48, 66, 1, 49] := by
  decide

set_option maxRecDepth 1000000 in
theorem encode_sample_payload :
    (ShannonFano.new.encode [65, 65, 65, 66, 65, 65, 65, 66, 65, 66]).outputFile = [17, 64] := by
  decide

set_option maxRecDepth 1000000 in
theorem encode_sample_bits :
    (bytesBits [31, 7]).take (totalCodeLength [65, 65, 65, 66])
      = (bytesBits (ShannonFano.new.encode [65, 65, 65, 66]).outputFile).take
          (totalCodeLength [65, 65, 65, 66]) := by
  decide

/-! ## The compression pass on a stream of another length -/

theorem writeCompressedLoop_take (ct : ByteMap Str) (L : Nat) (S : List Byte) :
    ∀ (p : Nat) (w : BitWriter),
      writeCompressedLoop ct L S p w = writeCompressedLoop ct L (S.take (L - p)) p w := by
  induction S with
  | nil => intro p w; simp
  | cons s S ih =>
    intro p w
    by_cases hlt : p < L
    · obtain ⟨k, hk⟩ : ∃ k, L - p = k + 1 := ⟨L - p - 1, by omega⟩
      rw [hk, List.take_succ_cons]
      simp only [writeCompressedLoop, if_pos hlt]
      cases hc : ct.find s with
      | none => rfl
      | some code =>
        simp only
        rw [ih (p + 1)]
        have : L - (p + 1) = k := by omega
        rw [this]
    · have : L - p = 0 := by omega
      rw [this, List.take_zero]
      simp only [writeCompressedLoop, if_neg hlt]

theorem writeCompressedData_take (ct : ByteMap Str) (L : Nat) (S : List Byte) :
    writeCompressedData ct L S = writeCompressedData ct L (S.take L) := by
  unfold writeCompressedData
  rw [writeCompressedLoop_take ct L S 0, Nat.sub_zero]

theorem writeCompressedLoop_short (ct : ByteMap Str) (L : Nat) (S : List Byte) :
    ∀ (p : Nat) (w : BitWriter), p + S.length < L →
      (∃ e, (writeCompressedLoop ct L S p w).2.2 = some e)
        ∨ (writeCompressedLoop ct L S p w).1 = p + S.length := by
  induction S with
  | nil => intro p w _; exact Or.inr rfl
  | cons s S ih =>
    intro p w h
    rw [List.length_cons] at h
    simp only [writeCompressedLoop, if_pos (by omega : p < L)]
    cases hc : ct.find s with
    | none => exact Or.inl ⟨_, rfl⟩
    | some code =>
      simp only
      rcases ih (p + 1) (code.foldl (fun w bit_char => w.writeBit (bit_char == chr1)) w)
        (by omega) with h1 | h1
      · exact Or.inl h1
      · exact Or.inr (by rw [h1, List.length_cons]; omega)

theorem writeCompressedData_short (ct : ByteMap Str) (L : Nat) (S : List Byte)
    (h : S.length < L) : ∃ e, (writeCompressedData ct L S).2 = some e := by
  have h0 := writeCompressedLoop_short ct L S 0 ⟨[], 0, 0⟩ (by omega)
  unfold writeCompressedData
  generalize writeCompressedLoop ct L S 0 ⟨[], 0, 0⟩ = r at h0 ⊢
  dsimp only
  cases hr : r.2.2 with
  | some e => exact ⟨e, rfl⟩
  | none =>
    rcases h0 with ⟨e, he⟩ | h1
    · rw [hr] at he
      cases he
    · dsimp only
      rw [if_pos ⟨by omega, by omega⟩]
      exact ⟨_, rfl⟩

/-! ## The order of the symbols, and bits without a path -/

instance sortRel_antisymm : IsAntisymm SymbolInfo (fun a b => SymbolInfo.lt b a = false) :=
  ⟨fun a b h1 h2 => by
    rw [SymbolInfo.lt_eq_false_iff] at h1 h2
    obtain ⟨sa, fa⟩ := a
    obtain ⟨sb, fb⟩ := b
    simp only at h1 h2
    have hf : fa = fb := by omega
    have hs : sa = sb := Fin.ext (by omega)
    rw [hf, hs]⟩

theorem std_sort_symbols_nodup (fm : ByteMap Nat) :
    ((std_sort (symbolsOf fm)).map SymbolInfo.symbol).Nodup := by
  have h := ((std_sort_perm (symbolsOf fm)).map SymbolInfo.symbol).nodup_iff
  rw [h, symbolsOf_keys]
  exact ByteMap.entries_keys_nodup fm

theorem std_sort_strict (fm : ByteMap Nat) :
    (std_sort (symbolsOf fm)).Pairwise (fun a b =>
      a.frequency > b.frequency ∨ (a.frequency = b.frequency ∧ a.symbol < b.symbol)) := by
  have h1 := std_sort_sorted (symbolsOf fm)
  have h2 := std_sort_symbols_nodup fm
  rw [List.Nodup, List.pairwise_map] at h2
  refine (h1.and h2).imp ?_
  intro a b h
  obtain ⟨h3, h4⟩ := h
  rw [SymbolInfo.lt_eq_false_iff] at h3
  have h5 : a.symbol.val ≠ b.symbol.val := fun h6 => h4 (Fin.ext h6)
  rw [Fin.lt_def]
  omega

theorem std_sort_unique (l sorted : List SymbolInfo) (hp : sorted.Perm l)
    (hs : sorted.Pairwise (fun a b => SymbolInfo.lt b a = false)) : sorted = std_sort l :=
  List.eq_of_perm_of_sorted (hp.trans (std_sort_perm l).symm) hs (std_sort_sorted l)

theorem SymbolInfo.lt_order (a b c : SymbolInfo) :
    SymbolInfo.lt a a = false
    ∧ (SymbolInfo.lt a b = true → SymbolInfo.lt b c = true → SymbolInfo.lt a c = true)
    ∧ (SymbolInfo.lt a b = true → SymbolInfo.lt b a = false)
    ∧ (a.symbol ≠ b.symbol → SymbolInfo.lt a b = true ∨ SymbolInfo.lt b a = true) := by
  refine ⟨?_, ?_, ?_, ?_⟩
  · rw [SymbolInfo.lt_eq_false_iff]
    omega
  · rw [SymbolInfo.lt_iff, SymbolInfo.lt_iff, SymbolInfo.lt_iff]
    omega
  · rw [SymbolInfo.lt_iff, SymbolInfo.lt_eq_false_iff]
    omega
  · intro h
    have h5 : a.symbol.val ≠ b.symbol.val := fun h6 => h (Fin.ext h6)
    rw [SymbolInfo.lt_iff, SymbolInfo.lt_iff]
    omega

theorem decodeBits_noPath (trie : Trie) (L : Nat) (b : Bool) (post : List Bool) (cur : Str)
    (count : Nat) (hlt : count < L)
    (hnone : trie.node (cur ++ [if b then chr1 else chr0]) = none) (pre : List Bool) :
    ∀ (cur0 : Str) (count0 : Nat) (out0 : List Byte),
      decodeState trie L pre cur0 count0 = some (cur, count) →
      ∃ out n, decodeBits trie L (pre ++ b :: post) cur0 count0 out0
        = (out, n, some .noPathInTrie) := by
  induction pre with
  | nil =>
    intro cur0 count0 out0 h
    simp only [decodeState, Option.some.injEq, Prod.mk.injEq] at h
    obtain ⟨h1, h2⟩ := h
    subst h1
    subst h2
    simp only [List.nil_append, decodeBits, if_pos hlt, hnone]
    exact ⟨_, _, rfl⟩
  | cons x pre ih =>
    intro cur0 count0 out0 h
    rw [List.cons_append]
    unfold decodeBits
    unfold decodeState at h
    by_cases h0 : count0 < L
    · rw [if_pos h0] at h ⊢
      cases hchild : trie.node (cur0 ++ [if x = true then chr1 else chr0]) with
      | none =>
        rw [hchild] at h
        cases h
      | some child =>
        rw [hchild] at h
        dsimp only at h ⊢
        by_cases hend : child.isEndOfCode = true
        · rw [if_pos hend] at h ⊢
          exact ih _ _ _ h
        · rw [if_neg hend] at h ⊢
          exact ih _ _ _ h
    · rw [if_neg h0] at h
      cases h

theorem readCompressedDataAndDecode_error (trie : Trie) (L : Nat) (payload out : List Byte)
    (n : Nat) (e : Error)
    (h : decodeBits trie L (bytesBits payload) [] 0 [] = (out, n, some e)) :
    (readCompressedDataAndDecode trie L payload).2.1 = some e := by
  have hinv : BitReader.Inv ⟨payload, 0, 0⟩ := ⟨by norm_num, by norm_num⟩
  have hbits : BitReader.bits ⟨payload, 0, 0⟩ = bytesBits payload := by simp [BitReader.bits]
  have h3 := decodeLoop_eq trie L (8 * payload.length + 1) ⟨payload, 0, 0⟩ [] 0 [] hinv
    (by rw [hbits, bytesBits_length]; omega)
  rw [hbits, h] at h3
  unfold readCompressedDataAndDecode
  generalize decodeLoop trie L (8 * payload.length + 1) ⟨payload, 0, 0⟩ [] 0 [] = x at h3 ⊢
  simp only [withoutReader, Prod.mk.injEq] at h3
  obtain ⟨_, _, h5⟩ := h3
  dsimp only
  rw [h5]

theorem decode_noPath (self : ShannonFano) (payload dict : List Byte) (ct : ByteMap Str)
    (L : Nat) (trie : Trie) (pre post : List Bool) (b : Bool) (cur : Str) (count : Nat)
    (hd : readDictionary dict = .ok (ct, L)) (ht : buildDecodingTrie ct L = .ok trie)
    (hbits : bytesBits payload = pre ++ b :: post)
    (hst : decodeState trie L pre [] 0 = some (cur, count)) (hlt : count < L)
    (hnone : trie.node (cur ++ [if b then chr1 else chr0]) = none) :
    (self.decode payload dict).status = .error .noPathInTrie := by
  obtain ⟨out, n, h1⟩ := decodeBits_noPath trie L b post cur count hlt hnone pre [] 0 [] hst
  rw [← hbits] at h1
  have h2 := readCompressedDataAndDecode_error trie L payload out n _ h1
  rw [decode_eq self payload dict ct L trie hd (by omega) ht, h2]

theorem first_set_bit (bits : List Bool) :
    ∀ i, bits.getD i false = true →
      ∃ i0 post, i0 ≤ i ∧ bits = List.replicate i0 false ++ true :: post := by
  induction bits with
  | nil => intro i h; simp at h
  | cons x bits ih =>
    intro i h
    cases x with
    | true => exact ⟨0, bits, Nat.zero_le _, rfl⟩
    | false =>
      cases i with
      | zero => simp at h
      | succ i =>
        rw [List.getD_cons_succ] at h
        obtain ⟨i0, post, h1, h2⟩ := ih i h
        exact ⟨i0 + 1, post, by omega, by rw [h2]; rfl⟩

theorem singleTable_trie (s : Byte) :
    (insertEntries Trie.root [(s, [chr0])]).node [chr0] = some ⟨true, s⟩
    ∧ (insertEntries Trie.root [(s, [chr0])]).node [chr1] = none := by
  constructor
  · simp [insertEntries, insertIntoTrie, insertWalk, Trie.set, Trie.root]
  · have : [chr1] ≠ [chr0] := by decide
    simp [insertEntries, insertIntoTrie, insertWalk, Trie.set, Trie.root, this]

theorem decodeState_zeros (trie : Trie) (L : Nat) (s : Byte)
    (h : trie.node [chr0] = some ⟨true, s⟩) (i : Nat) :
    ∀ count, count + i ≤ L →
      decodeState trie L (List.replicate i false) [] count = some ([], count + i) := by
  induction i with
  | zero => intro count _; rfl
  | succ i ih =>
    intro count hc
    simp only [List.replicate_succ, decodeState, if_pos (by omega : count < L),
      Bool.false_eq_true, if_false, List.nil_append, h, if_true]
    rw [ih (count + 1) (by omega)]
    congr 2
    omega

theorem decode_single_rejects (self : ShannonFano) (s : Byte) (L : Nat) (payload : List Byte)
    (i : Nat) (hL : L < 2 ^ 64) (hi : i < L) (hbit : (bytesBits payload).getD i false = true) :
    (self.decode payload (writeDictionary (ByteMap.empty.insert s [chr0]) L)).status
      = .error .noPathInTrie := by
  obtain ⟨i0, post, h1, h2⟩ := first_set_bit _ i hbit
  have hfind : ∀ k, (ByteMap.empty.insert s [chr0]).find k
      = if k = s then some [chr0] else none := fun k => rfl
  have hent := ByteMap.entries_single (ByteMap.empty.insert s [chr0]) s [chr0] hfind
  have hrd := readDictionary_writeDictionary (ByteMap.empty.insert s [chr0]) L hL (by
    intro k c hc
    rw [hfind k] at hc
    split at hc
    · cases hc
      decide
    · cases hc)
  have hsz : (ByteMap.empty.insert s [chr0]).size ≠ 0 := by
    unfold ByteMap.size
    rw [hent]
    exact Nat.succ_ne_zero 0
  have htrie := buildDecodingTrie_eq (ByteMap.empty.insert s [chr0]) L hsz
  rw [hent] at htrie
  obtain ⟨t1, t2⟩ := singleTable_trie s
  generalize insertEntries Trie.root [(s, [chr0])] = trie at htrie t1 t2
  have hst := decodeState_zeros trie L s t1 i0 0 (by omega)
  rw [Nat.zero_add] at hst
  exact decode_noPath self payload _ _ L trie (List.replicate i0 false) post true [] i0
    hrd htrie h2 hst (by omega) t2

/-! ## Evaluations for the input "AAAB" -/

set_option maxRecDepth 1000000 in
theorem sample_frequencies :
    (buildFrequencyMap [65, 65, 65, 66]).1.entries = [(65, 3), (66, 1)] := by
  decide

set_option maxRecDepth 1000000 in
theorem sampleTable_entries : sampleTable.entries = [(65, [chr0]), (66, [chr1])] := by
  decide

set_option maxRecDepth 1000000 in
theorem encode_sample_files :
    (ShannonFano.new.encode [65, 65, 65, 66]).outputFile = [16]
    ∧ (ShannonFano.new.encode [65, 65, 65, 66]).dictFile
      = [4, 0, 0, 0, 0, 0, 0, 0, 2, 0, 65, 1, 48, 66, 1, 49] := by
  decide

theorem writeCompressedData_longer :
    writeCompressedData pairTable 1 [65, 65] = ([0], none)
    ∧ writeCompressedData pairTable 0 [65] = ([], none) :=
  ⟨rfl, rfl⟩

/-! ## The dictionary of permuted inputs, and tables that are free of prefixes -/

theorem buildFrequencyMap_perm (S S2 : List Byte) (h : S.Perm S2) :
    buildFrequencyMap S = buildFrequencyMap S2 := by
  apply Prod.ext
  · apply ByteMap.ext
    intro k
    rw [buildFrequencyMap_find, buildFrequencyMap_find, h.count_eq k]
    by_cases hk : k ∈ S
    · rw [if_pos hk, if_pos (h.mem_iff.1 hk)]
    · rw [if_neg hk, if_neg (fun h2 => hk (h.mem_iff.2 h2))]
  · rw [buildFrequencyMap_size, buildFrequencyMap_size, h.length_eq]

theorem encode_dictFile_perm (self self2 : ShannonFano) (S S2 : List Byte) (h : S.Perm S2) :
    (self.encode S).dictFile = (self2.encode S2).dictFile := by
  by_cases hS : S = []
  · subst hS
    have h2 : S2 = [] := List.Perm.eq_nil h.symm
    subst h2
    rw [encode_nil, encode_nil]
  · have hS2 : S2 ≠ [] := fun h2 => hS (by subst h2; exact List.Perm.eq_nil h)
    obtain ⟨out, pad, he, _⟩ := encode_cons self S hS
    obtain ⟨out2, pad2, he2, _⟩ := encode_cons self2 S2 hS2
    rw [he, he2, buildFrequencyMap_perm S S2 h, h.length_eq]

theorem buildCodesInternal_length (fm : ByteMap Nat) (hn : 2 ≤ fm.size) (k : Byte) (c : Str)
    (h : (buildCodesInternal fm).find k = some c) :
    1 ≤ c.length ∧ c.length ≤ fm.size - 1 := by
  obtain ⟨h1, _, h3⟩ := builderCodes_shape fm (k, c) ((find_buildCodesInternal fm k c).1 h)
  have h4 : fm.size ⊔ 2 = fm.size := max_eq_left hn
  rw [h4] at h3
  simp only at h3
  exact ⟨List.length_pos.2 h1, by omega⟩

theorem pfxFree_of_table (T : ByteMap Str)
    (hpf : ∀ a b ca cb, a ≠ b → T.find a = some ca → T.find b = some cb → ¬ ca <+: cb) :
    PfxFree T.entries := by
  apply List.Nodup.pairwise_of_forall_ne (ByteMap.entries_nodup _)
  intro e1 he1 e2 he2 hne
  have h1 := (ByteMap.mem_entries _ e1.1 e1.2).1 he1
  have h2 := (ByteMap.mem_entries _ e2.1 e2.2).1 he2
  have hk : e1.1 ≠ e2.1 := by
    intro hk
    rw [hk, h2] at h1
    apply hne
    exact Prod.ext hk (Option.some.inj h1).symm
  exact ⟨hpf _ _ _ _ hk h1 h2, hpf _ _ _ _ (Ne.symm hk) h2 h1⟩

theorem root_not_end (es : List (Byte × Str)) (hne : ∀ e ∈ es, e.2 ≠ []) (n : TrieNode)
    (h : (insertEntries Trie.root es).node [] = some n) : n.isEndOfCode = false := by
  cases hend : n.isEndOfCode with
  | false => rfl
  | true =>
    exfalso
    rcases insertEntries_ends es Trie.root [] n h hend with h2 | ⟨e, he, heq⟩
    · simp only [Trie.root, if_true, Option.some.injEq] at h2
      rw [← h2] at hend
      cases hend
    · exact hne e he heq

theorem trie_of_table (T : ByteMap Str)
    (hpf : ∀ a b ca cb, a ≠ b → T.find a = some ca → T.find b = some cb → ¬ ca <+: cb)
    (hshape : ∀ k c, T.find k = some c → c ≠ [] ∧ IsBinary c) :
    ∀ s c, T.find s = some c →
      (insertEntries Trie.root T.entries).node c = some ⟨true, s⟩
      ∧ ∀ r, r <+: c → r ≠ c → ∃ n, (insertEntries Trie.root T.entries).node r = some n
          ∧ n.isEndOfCode = false := by
  obtain ⟨t1, t2⟩ := trie_of_pfxFree T.entries (pfxFree_of_table T hpf)
  have hne : ∀ e ∈ T.entries, e.2 ≠ [] := fun e he =>
    (hshape e.1 e.2 ((ByteMap.mem_entries T e.1 e.2).1 he)).1
  have hroot : ((insertEntries Trie.root T.entries).node []).isSome = true
      ∧ ∀ n, (insertEntries Trie.root T.entries).node [] = some n → n.isEndOfCode = false :=
    ⟨insertEntries_isSome T.entries [] Trie.root rfl, root_not_end T.entries hne⟩
  generalize insertEntries Trie.root T.entries = trie at t1 t2 hroot
  intro s c hc
  have hmem := (ByteMap.mem_entries T s c).2 hc
  refine ⟨t1 (s, c) hmem, ?_⟩
  intro r hr hrc
  by_cases h0 : r = []
  · subst h0
    have hsome : (trie.node []).isSome = true := hroot.1
    obtain ⟨n, hn⟩ := Option.isSome_iff_exists.1 hsome
    exact ⟨n, hn, hroot.2 n hn⟩
  · exact t2 (s, c) hmem r hr h0 hrc

/-! ## The size of the payload, and the first and last code -/

theorem sum_map_eq_count (S : List Byte) (g : Byte → Nat) :
    (S.map g).sum = ((List.finRange 256).map (fun k => S.count k * g k)).sum := by
  rw [← Fin.sum_univ_def]
  induction S with
  | nil => simp
  | cons a S ih =>
    simp only [List.map_cons, List.sum_cons, List.count_cons, add_mul, Finset.sum_add_distrib,
      ← ih]
    simp [Nat.add_comm]

theorem sum_entries_weighted (m : ByteMap Nat) (S : List Byte) (g : Byte → Nat)
    (h : ∀ k, m.find k = if k ∈ S then some (S.count k) else none) (l : List Byte) :
    ((l.filterMap (fun k => (m.find k).map (fun v => (k, v)))).map
        (fun e => e.2 * g e.1)).sum
      = (l.map (fun k => S.count k * g k)).sum := by
  induction l with
  | nil => rfl
  | cons k l ih =>
    rw [List.filterMap_cons, h k]
    by_cases hk : k ∈ S
    · rw [if_pos hk]
      simp only [Option.map_some', List.map_cons, List.sum_cons, ih]
    · rw [if_neg hk]
      simp only [Option.map_none', List.map_cons, List.sum_cons, ih,
        List.count_eq_zero_of_not_mem hk, Nat.zero_mul, Nat.zero_add]

theorem totalCodeLength_eq (S : List Byte) (h : S.length < 2 ^ 64) :
    totalCodeLength S = ((buildFrequencyMap S).1.entries.map (fun e =>
      e.2 * (((buildCodesInternal (buildFrequencyMap S).1).find e.1).getD []).length)).sum := by
  unfold totalCodeLength
  rw [sum_map_eq_count]
  exact (sum_entries_weighted (buildFrequencyMap S).1 S _ (buildFrequencyMap_exact S h)
    (List.finRange 256)).symm

theorem encode_payload_length (self : ShannonFano) (S : List Byte) (hS : S ≠ [])
    (h : S.length < 2 ^ 64) :
    (self.encode S).outputFile.length = (totalCodeLength S + 7) / 8 := by
  obtain ⟨out, pad, he, hbits, hpad⟩ := encode_cons_pad self S hS
  rw [he]
  dsimp only
  rw [Nat.mod_eq_of_lt h, List.take_length] at hbits
  have h1 := congrArg List.length hbits
  rw [bytesBits_length, List.length_append, List.length_replicate, streamBits_length] at h1
  unfold totalCodeLength
  omega

theorem Diverge.lex {x y : Str} (h : Diverge x y) : List.Lex (fun a b : Byte => a < b) x y := by
  obtain ⟨p, ⟨r1, rfl⟩, ⟨r2, rfl⟩⟩ := h
  induction p with
  | nil => exact List.Lex.rel (by decide)
  | cons a p ih => exact List.Lex.cons ih

theorem assigned_ends (fuel : Nat) :
    ∀ (syms : List SymbolInfo) (cur : Str), syms ≠ [] → syms.length ≤ fuel →
      (∃ k, ((assigned fuel syms cur).map Prod.snd).head?
          = some (cur ++ List.replicate k chr0))
      ∧ (∃ k, ((assigned fuel syms cur).map Prod.snd).getLast?
          = some (cur ++ List.replicate k chr1)) := by
  induction fuel with
  | zero =>
    intro syms cur hne h
    exact absurd (List.length_eq_zero.1 (by omega)) hne
  | succ fuel ih =>
    intro syms cur hne h
    match syms, hne with
    | [s], _ => exact ⟨⟨0, by simp [assigned]⟩, ⟨0, by simp [assigned]⟩⟩
    | s1 :: s2 :: rest, _ =>
      have hlt := splitIndex_lt (s1 :: s2 :: rest) (by simp)
      have hpos := splitIndex_pos (s1 :: s2 :: rest)
      have hl1 : ((s1 :: s2 :: rest).take (splitIndex (s1 :: s2 :: rest))).length
          = splitIndex (s1 :: s2 :: rest) := by
        rw [List.length_take]
        omega
      have hl2 : ((s1 :: s2 :: rest).drop (splitIndex (s1 :: s2 :: rest))).length
          = (s1 :: s2 :: rest).length - splitIndex (s1 :: s2 :: rest) := List.length_drop _ _
      have hne1 : (s1 :: s2 :: rest).take (splitIndex (s1 :: s2 :: rest)) ≠ [] := by
        intro h0
        rw [h0, List.length_nil] at hl1
        omega
      have hne2 : (s1 :: s2 :: rest).drop (splitIndex (s1 :: s2 :: rest)) ≠ [] := by
        intro h0
        rw [h0, List.length_nil] at hl2
        omega
      obtain ⟨⟨k1, hk1⟩, _⟩ := ih _ (cur ++ [chr0]) hne1 (by rw [hl1]; omega)
      obtain ⟨_, ⟨k2, hk2⟩⟩ := ih _ (cur ++ [chr1]) hne2 (by rw [hl2]; omega)
      simp only [assigned, List.map_append]
      constructor
      · refine ⟨k1 + 1, ?_⟩
        rw [List.head?_append, hk1]
        simp [List.replicate_succ]
      · refine ⟨k2 + 1, ?_⟩
        rw [List.getLast?_append, hk2]
        simp [List.replicate_succ]

/-! ## The codes in sorted order, and the ranges that are split -/

theorem sortedCodes_eq (fm : ByteMap Nat) :
    sortedCodes fm = (builderCodes fm).map Prod.snd := by
  unfold sortedCodes
  rw [← builderCodes_keys, List.map_map]
  apply List.map_congr_left
  intro p hp
  have h := (find_buildCodesInternal fm p.1 p.2).2 hp
  rw [Function.comp_apply, h]
  rfl

theorem symbolsOf_length (fm : ByteMap Nat) : (symbolsOf fm).length = fm.size := by
  unfold symbolsOf ByteMap.size
  rw [List.length_map]

theorem builderCodes_eq_assigned (fm : ByteMap Nat) (hn : 2 ≤ fm.size) :
    builderCodes fm
      = assigned (std_sort (symbolsOf fm)).length (std_sort (symbolsOf fm)) [] := by
  have hlen : (std_sort (symbolsOf fm)).length = fm.size := by
    rw [std_sort_length, symbolsOf_length]
  unfold builderCodes
  generalize std_sort (symbolsOf fm) = l at hlen ⊢
  match l, hlen with
  | [], h => simp at h; omega
  | [s], h => simp at h; omega
  | s1 :: s2 :: rest, _ => rfl

theorem sortedCodes_spec (fm : ByteMap Nat) (hn : 2 ≤ fm.size) :
    (sortedCodes fm).Pairwise (List.Lex (fun a b : Byte => a < b))
    ∧ (∃ k, (sortedCodes fm).head? = some (List.replicate k chr0))
    ∧ (∃ k, (sortedCodes fm).getLast? = some (List.replicate k chr1)) := by
  have hlen : (std_sort (symbolsOf fm)).length = fm.size := by
    rw [std_sort_length, symbolsOf_length]
  have hne : std_sort (symbolsOf fm) ≠ [] := by
    intro h0
    rw [h0] at hlen
    simp at hlen
    omega
  rw [sortedCodes_eq]
  refine ⟨(builderCodes_diverge fm).imp Diverge.lex, ?_⟩
  rw [builderCodes_eq_assigned fm hn]
  have := assigned_ends _ (std_sort (symbolsOf fm)) [] hne (le_refl _)
  simp only [List.nil_append] at this
  exact this

theorem visitedRanges_sublist (fuel : Nat) :
    ∀ (syms r : List SymbolInfo), r ∈ visitedRanges fuel syms →
      r.Sublist syms ∧ 2 ≤ r.length := by
  induction fuel with
  | zero => intro syms r h; simp [visitedRanges] at h
  | succ fuel ih =>
    intro syms r h
    match syms with
    | [] => simp [visitedRanges] at h
    | [s] => simp [visitedRanges] at h
    | s1 :: s2 :: rest =>
      simp only [visitedRanges, List.mem_cons, List.mem_append] at h
      rcases h with h | h | h
      · rw [h]
        exact ⟨List.Sublist.refl _, by simp⟩
      · obtain ⟨h1, h2⟩ := ih _ r h
        exact ⟨h1.trans (List.take_sublist _ _), h2⟩
      · obtain ⟨h1, h2⟩ := ih _ r h
        exact ⟨h1.trans (List.drop_sublist _ _), h2⟩

theorem sorted_frequencies (S : List Byte) (h : S.length < 2 ^ 64) :
    (∀ s ∈ std_sort (symbolsOf (buildFrequencyMap S).1), 1 ≤ s.frequency)
    ∧ ((std_sort (symbolsOf (buildFrequencyMap S).1)).map SymbolInfo.frequency).sum
        = S.length := by
  constructor
  · intro s hs
    have hmem := (std_sort_perm _).mem_iff.1 hs
    rw [mem_symbolsOf, buildFrequencyMap_exact S h] at hmem
    split at hmem
    · next hk =>
      have := Option.some.inj hmem
      rw [← this]
      exact List.count_pos_iff.2 hk
    · cases hmem
  · rw [((std_sort_perm _).map SymbolInfo.frequency).sum_eq]
    have := buildFrequencyMap_sum S h
    unfold symbolsOf
    rw [List.map_map]
    exact this

theorem range_scan (r : List SymbolInfo) (hpos : ∀ s ∈ r, 1 ≤ s.frequency)
    (hT : (r.map SymbolInfo.frequency).sum < 2 ^ 63) (hn : 2 ≤ r.length) :
    scanSplit (totalFreq r) r.dropLast 0 0 (totalFreq r) 0 ≠ 0
    ∧ ∃ s0 tail, r = s0 :: tail
      ∧ (toLongLong ((0 + s0.frequency) % 2 ^ 64)
          - toLongLong ((totalFreq r + 2 ^ 64 - (0 + s0.frequency) % 2 ^ 64) % 2 ^ 64)).natAbs
            % 2 ^ 64 < totalFreq r := by
  refine ⟨(splitIndex_spec r hpos hT hn).2.2.2.2, ?_⟩
  have htot : totalFreq r = (r.map SymbolInfo.frequency).sum :=
    totalFreq_eq r (by norm_num at hT ⊢; omega)
  match r, hn with
  | s0 :: s1 :: tail, _ =>
    refine ⟨s0, s1 :: tail, rfl, ?_⟩
    have h0 := hpos s0 (by simp)
    have h1 := hpos s1 (by simp)
    rw [htot] at *
    simp only [List.map_cons, List.sum_cons] at hT ⊢
    have hc : (0 + s0.frequency) % 2 ^ 64 = s0.frequency := by
      norm_num at hT ⊢
      omega
    rw [hc, machine_diff s0.frequency _ (by omega) hT]
    omega

/-! ## The Kraft sum -/

theorem assigned_length (fuel : Nat) (syms : List SymbolInfo) (cur : Str)
    (h : syms.length ≤ fuel) : (assigned fuel syms cur).length = syms.length := by
  have := congrArg List.length (assigned_keys fuel syms cur h)
  rw [List.length_map, List.length_map] at this
  exact this

theorem assigned_kraft (fuel : Nat) :
    ∀ (syms : List SymbolInfo) (cur : Str), syms ≠ [] → syms.length ≤ fuel →
      ((assigned fuel syms cur).map (fun p => (1 / 2 : ℚ) ^ p.2.length)).sum
        = (1 / 2 : ℚ) ^ cur.length := by
  induction fuel with
  | zero =>
    intro syms cur hne h
    exact absurd (List.length_eq_zero.1 (by omega)) hne
  | succ fuel ih =>
    intro syms cur hne h
    match syms, hne with
    | [s], _ => simp [assigned]
    | s1 :: s2 :: rest, _ =>
      have hlt := splitIndex_lt (s1 :: s2 :: rest) (by simp)
      have hpos := splitIndex_pos (s1 :: s2 :: rest)
      have hl1 : ((s1 :: s2 :: rest).take (splitIndex (s1 :: s2 :: rest))).length
          = splitIndex (s1 :: s2 :: rest) := by
        rw [List.length_take]
        omega
      have hl2 : ((s1 :: s2 :: rest).drop (splitIndex (s1 :: s2 :: rest))).length
          = (s1 :: s2 :: rest).length - splitIndex (s1 :: s2 :: rest) := List.length_drop _ _
      have hne1 : (s1 :: s2 :: rest).take (splitIndex (s1 :: s2 :: rest)) ≠ [] := by
        intro h0
        rw [h0, List.length_nil] at hl1
        omega
      have hne2 : (s1 :: s2 :: rest).drop (splitIndex (s1 :: s2 :: rest)) ≠ [] := by
        intro h0
        rw [h0, List.length_nil] at hl2
        omega
      simp only [assigned, List.map_append, List.sum_append]
      rw [ih _ (cur ++ [chr0]) hne1 (by rw [hl1]; omega),
        ih _ (cur ++ [chr1]) hne2 (by rw [hl2]; omega)]
      simp only [List.length_append, List.length_singleton, pow_succ]
      ring

theorem assigned_complete (fuel : Nat) :
    ∀ (syms : List SymbolInfo) (cur : Str), 2 ≤ syms.length → syms.length ≤ fuel →
      ∀ (r : Str) (p : Byte × Str), p ∈ assigned fuel syms cur → cur <+: r → r <+: p.2 →
        r ≠ p.2 → ∀ b, (b = chr0 ∨ b = chr1) →
        ∃ q ∈ assigned fuel syms cur, (r ++ [b]) <+: q.2 := by
  induction fuel with
  | zero => intro syms cur h2 h; omega
  | succ fuel ih =>
    intro syms cur h2 h r p hp hcur hr hne b hb
    match syms, h2 with
    | s1 :: s2 :: rest, _ =>
      have hlt := splitIndex_lt (s1 :: s2 :: rest) (by simp)
      have hpos := splitIndex_pos (s1 :: s2 :: rest)
      have hl1 : ((s1 :: s2 :: rest).take (splitIndex (s1 :: s2 :: rest))).length
          = splitIndex (s1 :: s2 :: rest) := by
        rw [List.length_take]
        omega
      have hl2 : ((s1 :: s2 :: rest).drop (splitIndex (s1 :: s2 :: rest))).length
          = (s1 :: s2 :: rest).length - splitIndex (s1 :: s2 :: rest) := List.length_drop _ _
      have hL := assigned_length fuel ((s1 :: s2 :: rest).take (splitIndex (s1 :: s2 :: rest)))
        (cur ++ [chr0]) (by rw [hl1]; omega)
      have hR := assigned_length fuel ((s1 :: s2 :: rest).drop (splitIndex (s1 :: s2 :: rest)))
        (cur ++ [chr1]) (by rw [hl2]; omega)
      simp only [assigned, List.mem_append] at hp ⊢
      generalize hLdef : assigned fuel ((s1 :: s2 :: rest).take (splitIndex (s1 :: s2 :: rest)))
        (cur ++ [chr0]) = Lft at hp hL ⊢
      generalize hRdef : assigned fuel ((s1 :: s2 :: rest).drop (splitIndex (s1 :: s2 :: rest)))
        (cur ++ [chr1]) = Rgt at hp hR ⊢
      by_cases hrc : r = cur
      · subst hrc
        rcases hb with hb | hb
        · obtain ⟨pL, hpL⟩ := List.exists_mem_of_length_pos (by rw [hL, hl1]; omega : 0 < Lft.length)
          have hpL2 := hpL
          rw [← hLdef] at hpL2
          obtain ⟨e, he, _⟩ := assigned_ext _ _ _ _ hpL2
          exact ⟨pL, Or.inl hpL, by rw [hb, he]; exact List.prefix_append _ _⟩
        · obtain ⟨pR, hpR⟩ := List.exists_mem_of_length_pos (by rw [hR, hl2]; omega : 0 < Rgt.length)
          have hpR2 := hpR
          rw [← hRdef] at hpR2
          obtain ⟨e, he, _⟩ := assigned_ext _ _ _ _ hpR2
          exact ⟨pR, Or.inr hpR, by rw [hb, he]; exact List.prefix_append _ _⟩
      · obtain ⟨t, ht⟩ := hcur
        have htne : t ≠ [] := by
          intro h0
          rw [h0, List.append_nil] at ht
          exact hrc ht.symm
        obtain ⟨x, t2, hx⟩ := List.exists_cons_of_ne_nil htne
        subst hx
        subst ht
        rcases hp with hp | hp
        · have hp2 := hp
          rw [← hLdef] at hp2
          obtain ⟨e, he, _, hel, _⟩ := assigned_ext _ _ _ _ hp2
          rw [he, List.append_assoc, List.prefix_append_right_inj, List.singleton_append,
            List.cons_prefix_cons] at hr
          obtain ⟨hx0, ht2⟩ := hr
          subst hx0
          have hcur2 : (cur ++ [chr0]) <+: (cur ++ chr0 :: t2) :=
            ⟨t2, by simp⟩
          have hr2 : (cur ++ chr0 :: t2) <+: p.2 := by
            rw [he, List.append_assoc, List.prefix_append_right_inj, List.singleton_append,
              List.cons_prefix_cons]
            exact ⟨rfl, ht2⟩
          by_cases h2L : 2 ≤ ((s1 :: s2 :: rest).take (splitIndex (s1 :: s2 :: rest))).length
          · obtain ⟨q, hq, hqr⟩ := ih _ (cur ++ [chr0]) h2L (by rw [hl1]; omega) _ p hp2 hcur2
              hr2 hne b hb
            rw [hLdef] at hq
            exact ⟨q, Or.inl hq, hqr⟩
          · exfalso
            have he0 : e = [] := List.length_eq_zero.1 (by omega)
            rw [he0] at ht2 he
            have ht0 : t2 = [] := List.prefix_nil.1 ht2
            apply hne
            rw [he, ht0]
            simp
        · have hp2 := hp
          rw [← hRdef] at hp2
          obtain ⟨e, he, _, hel, _⟩ := assigned_ext _ _ _ _ hp2
          rw [he, List.append_assoc, List.prefix_append_right_inj, List.singleton_append,
            List.cons_prefix_cons] at hr
          obtain ⟨hx0, ht2⟩ := hr
          subst hx0
          have hcur2 : (cur ++ [chr1]) <+: (cur ++ chr1 :: t2) :=
            ⟨t2, by simp⟩
          have hr2 : (cur ++ chr1 :: t2) <+: p.2 := by
            rw [he, List.append_assoc, List.prefix_append_right_inj, List.singleton_append,
              List.cons_prefix_cons]
            exact ⟨rfl, ht2⟩
          by_cases h2R : 2 ≤ ((s1 :: s2 :: rest).drop (splitIndex (s1 :: s2 :: rest))).length
          · obtain ⟨q, hq, hqr⟩ := ih _ (cur ++ [chr1]) h2R (by rw [hl2]; omega) _ p hp2 hcur2
              hr2 hne b hb
            rw [hRdef] at hq
            exact ⟨q, Or.inr hq, hqr⟩
          · exfalso
            have he0 : e = [] := List.length_eq_zero.1 (by omega)
            rw [he0] at ht2 he
            have ht0 : t2 = [] := List.prefix_nil.1 ht2
            apply hne
            rw [he, ht0]
            simp

/-! ## Complete tries -/

theorem insertWalk_support (rest : Str) :
    ∀ (t : Trie) (cur q : Str), ((insertWalk t cur rest).1.node q).isSome = true →
      (t.node q).isSome = true ∨ ∃ r, r <+: rest ∧ r ≠ [] ∧ q = cur ++ r := by
  induction rest with
  | nil => intro t cur q h; exact Or.inl h
  | cons c rest ih =>
    intro t cur q h
    simp only [insertWalk] at h
    rcases ih _ _ q h with h1 | ⟨r, hr, hne, hq⟩
    · by_cases hq : q = cur ++ [c]
      · exact Or.inr ⟨[c], by simp, by simp, hq⟩
      · left
        split at h1
        · simp only [Trie.set, if_neg hq] at h1
          exact h1
        · exact h1
    · exact Or.inr ⟨c :: r, by simp [hr], by simp, by rw [hq]; simp⟩

theorem insertIntoTrie_support (t : Trie) (code : Str) (symbol : Byte) (q : Str)
    (h : ((insertIntoTrie t code symbol).node q).isSome = true) :
    (t.node q).isSome = true ∨ q <+: code := by
  unfold insertIntoTrie at h
  obtain ⟨h1, _, _⟩ := insertWalk_spec code t []
  simp only [List.nil_append] at h1
  simp only [h1] at h
  by_cases hq : q = code
  · exact Or.inr (by rw [hq])
  · simp only [Trie.set, if_neg hq] at h
    rcases insertWalk_support code t [] q h with h2 | ⟨r, hr, _, hqr⟩
    · exact Or.inl h2
    · right
      rw [hqr]
      simpa using hr

theorem insertEntries_support (es : List (Byte × Str)) :
    ∀ (t : Trie) (q : Str), ((insertEntries t es).node q).isSome = true →
      (t.node q).isSome = true ∨ ∃ e ∈ es, q <+: e.2 := by
  induction es with
  | nil => intro t q h; exact Or.inl h
  | cons e es ih =>
    intro t q h
    rw [insertEntries_cons] at h
    rcases ih _ q h with h1 | ⟨e2, he2, hq⟩
    · rcases insertIntoTrie_support t e.2 e.1 q h1 with h2 | h2
      · exact Or.inl h2
      · exact Or.inr ⟨e, List.mem_cons_self _ _, h2⟩
    · exact Or.inr ⟨e2, List.mem_cons_of_mem _ he2, hq⟩

theorem decodeBits_complete (trie : Trie) (L : Nat)
    (hroot : ∃ n, trie.node [] = some n ∧ n.isEndOfCode = false)
    (hfull : ∀ r n, trie.node r = some n → n.isEndOfCode = false →
      ∀ b, (b = chr0 ∨ b = chr1) → (trie.node (r ++ [b])).isSome = true)
    (bits : List Bool) :
    ∀ (cur : Str) (count : Nat) (out : List Byte),
      (∃ n, trie.node cur = some n ∧ n.isEndOfCode = false) →
      (decodeBits trie L bits cur count out).2.2 = none := by
  induction bits with
  | nil => intro cur count out _; rfl
  | cons x bits ih =>
    intro cur count out hcur
    obtain ⟨n, hn, hend⟩ := hcur
    have hb : (if x = true then chr1 else chr0) = chr0
        ∨ (if x = true then chr1 else chr0) = chr1 := by
      cases x
      · exact Or.inl rfl
      · exact Or.inr rfl
    have hchild := hfull cur n hn hend _ hb
    obtain ⟨child, hc⟩ := Option.isSome_iff_exists.1 hchild
    unfold decodeBits
    by_cases hlt : count < L
    · rw [if_pos hlt, hc]
      dsimp only
      by_cases hce : child.isEndOfCode = true
      · rw [if_pos hce]
        exact ih _ _ _ hroot
      · rw [if_neg hce]
        exact ih _ _ _ ⟨child, hc, by simpa using hce⟩
    · rw [if_neg hlt]

theorem readCompressedDataAndDecode_complete (trie : Trie) (L : Nat) (payload : List Byte)
    (h : (decodeBits trie L (bytesBits payload) [] 0 []).2.2 = none) :
    (readCompressedDataAndDecode trie L payload).2.1 ≠ some .noPathInTrie := by
  have hinv : BitReader.Inv ⟨payload, 0, 0⟩ := ⟨by norm_num, by norm_num⟩
  have hbits : BitReader.bits ⟨payload, 0, 0⟩ = bytesBits payload := by simp [BitReader.bits]
  have h3 := decodeLoop_eq trie L (8 * payload.length + 1) ⟨payload, 0, 0⟩ [] 0 [] hinv
    (by rw [hbits, bytesBits_length]; omega)
  rw [hbits] at h3
  rw [← h3] at h
  unfold readCompressedDataAndDecode
  generalize decodeLoop trie L (8 * payload.length + 1) ⟨payload, 0, 0⟩ [] 0 [] = x at h ⊢
  simp only [withoutReader] at h
  dsimp only
  rw [h]
  dsimp only
  by_cases hx : x.2.1 ≠ L
  · rw [if_pos hx]
    simp
  · rw [if_neg hx]
    simp

theorem builderCodes_perm_entries (fm : ByteMap Nat) :
    (buildCodesInternal fm).entries.Perm (builderCodes fm) := by
  rw [List.perm_ext_iff_of_nodup (ByteMap.entries_nodup _)
    (List.Nodup.of_map _ (builderCodes_keys_nodup fm))]
  rintro ⟨k, c⟩
  rw [ByteMap.mem_entries, find_buildCodesInternal]

theorem kraft_table (fm : ByteMap Nat) (hn : 2 ≤ fm.size) :
    ((buildCodesInternal fm).entries.map (fun e => (1 / 2 : ℚ) ^ e.2.length)).sum = 1 := by
  have hlen : (std_sort (symbolsOf fm)).length = fm.size := by
    rw [std_sort_length, symbolsOf_length]
  have hne : std_sort (symbolsOf fm) ≠ [] := by
    intro h0
    rw [h0, List.length_nil] at hlen
    omega
  rw [((builderCodes_perm_entries fm).map _).sum_eq, builderCodes_eq_assigned fm hn,
    assigned_kraft _ _ [] hne (le_refl _)]
  simp

theorem kraft_single (fm : ByteMap Nat) (h1 : fm.size = 1) :
    ((buildCodesInternal fm).entries.map (fun e => (1 / 2 : ℚ) ^ e.2.length)).sum = 1 / 2 := by
  obtain ⟨e, he⟩ := List.length_eq_one.1 h1
  rw [buildCodesInternal_single fm e.1 e.2 he,
    ByteMap.entries_single (ByteMap.empty.insert e.1 [chr0]) e.1 [chr0] (fun k => rfl)]
  simp

theorem trie_complete (fm : ByteMap Nat) (hn : 2 ≤ fm.size) (r : Str) (n : TrieNode)
    (hnode : (insertEntries Trie.root (buildCodesInternal fm).entries).node r = some n)
    (hend : n.isEndOfCode = false) (b : Byte) (hb : b = chr0 ∨ b = chr1) :
    ((insertEntries Trie.root (buildCodesInternal fm).entries).node (r ++ [b])).isSome
      = true := by
  have hperm := builderCodes_perm_entries fm
  have hlen : (std_sort (symbolsOf fm)).length = fm.size := by
    rw [std_sort_length, symbolsOf_length]
  have hbl : (builderCodes fm).length = fm.size := by
    rw [builderCodes_eq_assigned fm hn, assigned_length _ _ _ (le_refl _), hlen]
  obtain ⟨t1, _⟩ := trie_of_pfxFree _ (buildCodesInternal_pfxFree fm)
  have hsup := insertEntries_support (buildCodesInternal fm).entries Trie.root r
    (by rw [hnode]; rfl)
  have hpres := insertEntries_present (buildCodesInternal fm).entries Trie.root
  generalize insertEntries Trie.root (buildCodesInternal fm).entries = trie at *
  have hex : ∃ e ∈ (buildCodesInternal fm).entries, r <+: e.2 := by
    rcases hsup with h | h
    · have hr : r = [] := by
        by_contra hr
        simp [Trie.root, hr] at h
      obtain ⟨e, he⟩ := List.exists_mem_of_length_pos
        (by rw [hperm.length_eq, hbl]; omega : 0 < (buildCodesInternal fm).entries.length)
      exact ⟨e, he, by rw [hr]; exact List.nil_prefix⟩
    · exact h
  obtain ⟨e, he, hre⟩ := hex
  have hne : r ≠ e.2 := by
    intro h0
    have := t1 e he
    rw [← h0, hnode] at this
    rw [Option.some.inj this] at hend
    cases hend
  have he2 : e ∈ assigned (std_sort (symbolsOf fm)).length (std_sort (symbolsOf fm)) [] := by
    rw [← builderCodes_eq_assigned fm hn]
    exact hperm.mem_iff.1 he
  obtain ⟨q, hq, hqr⟩ := assigned_complete _ _ [] (by rw [hlen]; exact hn) (le_refl _) r e he2
    List.nil_prefix hre hne b hb
  rw [← builderCodes_eq_assigned fm hn] at hq
  exact hpres q (hperm.mem_iff.2 hq) (r ++ [b]) hqr (by simp)

theorem decode_never_noPath (self self2 : ShannonFano) (S payload : List Byte)
    (hn : 2 ≤ (buildFrequencyMap S).1.size) :
    (self2.decode payload (self.encode S).dictFile).status ≠ .error .noPathInTrie := by
  have hS : S ≠ [] := by
    intro h0
    rw [h0] at hn
    have : (buildFrequencyMap []).1.size = 0 := size_empty
    omega
  obtain ⟨out, pad, he, _⟩ := encode_cons self S hS
  rw [he]
  dsimp only
  obtain ⟨hshape, hpf, hkeys, hsz⟩ := builder_table S hS
  have hfull := trie_complete (buildFrequencyMap S).1 hn
  have hroot0 := root_not_end (buildCodesInternal (buildFrequencyMap S).1).entries
    (fun e he => (hshape e.1 e.2 ((ByteMap.mem_entries _ e.1 e.2).1 he)).1)
  have hroot1 := insertEntries_isSome (buildCodesInternal (buildFrequencyMap S).1).entries []
    Trie.root rfl
  generalize buildCodesInternal (buildFrequencyMap S).1 = ct at *
  have hLlt : S.length % 2 ^ 64 < 2 ^ 64 := Nat.mod_lt _ (by norm_num)
  generalize S.length % 2 ^ 64 = L at *
  have hrd := readDictionary_writeDictionary ct L hLlt
    (fun k c hc => ⟨List.length_pos.2 (hshape k c hc).1, (hshape k c hc).2.2⟩)
  by_cases hL0 : L = 0
  · subst hL0
    rw [decode_zero self2 payload _ ct hrd]
    intro h
    cases h
  · have htrie := buildDecodingTrie_eq ct L hsz
    generalize insertEntries Trie.root ct.entries = trie at *
    obtain ⟨n0, hn0⟩ := Option.isSome_iff_exists.1 hroot1
    have hroot : ∃ n, trie.node [] = some n ∧ n.isEndOfCode = false :=
      ⟨n0, hn0, hroot0 n0 hn0⟩
    have hnone := decodeBits_complete trie L hroot hfull (bytesBits payload) [] 0 [] hroot
    have hne := readCompressedDataAndDecode_complete trie L payload hnone
    rw [decode_eq self2 payload _ ct L trie hrd hL0 htrie]
    generalize readCompressedDataAndDecode trie L payload = x at hne ⊢
    cases hx : x.2.1 with
    | none =>
      dsimp only
      intro h
      cases h
    | some e =>
      dsimp only
      intro h
      rw [hx] at hne
      injection h with h2
      exact hne (by rw [h2])

/-! ## Evaluations for the table of two symbols -/

theorem pairTable_find (k : Byte) (c : Str) (h : pairTable.find k = some c) :
    (k = 65 ∧ c = [chr0]) ∨ (k = 66 ∧ c = [chr1]) := by
  simp only [pairTable, ByteMap.insert, ByteMap.empty] at h
  split at h
  · next hk => exact Or.inr ⟨hk, (Option.some.inj h).symm⟩
  · split at h
    · next hk => exact Or.inl ⟨hk, (Option.some.inj h).symm⟩
    · cases h

theorem pairTable_pfxFree (a b : Byte) (ca cb : Str) (hab : a ≠ b)
    (ha : pairTable.find a = some ca) (hb : pairTable.find b = some cb) : ¬ ca <+: cb := by
  rcases pairTable_find a ca ha with ⟨h1, h2⟩ | ⟨h1, h2⟩ <;>
    rcases pairTable_find b cb hb with ⟨h3, h4⟩ | ⟨h3, h4⟩
  · exact absurd (h1.trans h3.symm) hab
  · rw [h2, h4]
    decide
  · rw [h2, h4]
    decide
  · exact absurd (h1.trans h3.symm) hab

theorem pairTable_shape (k : Byte) (c : Str) (h : pairTable.find k = some c) :
    c ≠ [] ∧ IsBinary c := by
  rcases pairTable_find k c h with ⟨_, h2⟩ | ⟨_, h2⟩
  · rw [h2]
    exact ⟨by decide, fun x hx => Or.inl (List.mem_singleton.1 hx)⟩
  · rw [h2]
    exact ⟨by decide, fun x hx => Or.inr (List.mem_singleton.1 hx)⟩

theorem pairTable_keys (s : Byte) (hs : s ∈ ([65, 66, 65] : List Byte)) :
    (pairTable.find s).isSome = true := by
  simp only [List.mem_cons, List.mem_singleton, List.not_mem_nil, or_false] at hs
  rcases hs with h | h | h <;> rw [h] <;> rfl

theorem sample_size : (buildFrequencyMap [65, 65, 65, 66]).1.size = 2 := by
  unfold ByteMap.size
  rw [sample_frequencies]
  rfl

theorem sample_code : (buildCodesInternal (buildFrequencyMap [65, 65, 65, 66]).1).find 65
    = some [chr0] := by
  have h := sampleTable_entries
  unfold sampleTable at h
  rw [← ByteMap.mem_entries, h]
  exact List.mem_cons_self _ _

theorem encode_ranges (S : List Byte) (h : S.length < 2 ^ 63) (r : List SymbolInfo)
    (hr : r ∈ visitedRanges (std_sort (symbolsOf (buildFrequencyMap S).1)).length
      (std_sort (symbolsOf (buildFrequencyMap S).1))) :
    (∀ s ∈ r, 1 ≤ s.frequency) ∧ (r.map SymbolInfo.frequency).sum < 2 ^ 63
      ∧ 2 ≤ r.length := by
  obtain ⟨hsub, h2⟩ := visitedRanges_sublist _ _ r hr
  obtain ⟨hpos, hsum⟩ := sorted_frequencies S (by norm_num at h ⊢; omega)
  refine ⟨fun s hs => hpos s (hsub.subset hs), ?_, h2⟩
  have hle : (r.map SymbolInfo.frequency).sum
      ≤ ((std_sort (symbolsOf (buildFrequencyMap S).1)).map SymbolInfo.frequency).sum :=
    (hsub.map SymbolInfo.frequency).sum_le_sum (fun a _ => Nat.zero_le a)
  omega

/-! ## Code lengths in small tables -/

theorem sum_ge_of_forall_ge (l : List SymbolInfo) (f : Nat)
    (h : ∀ s ∈ l, f ≤ s.frequency) : l.length * f ≤ (l.map SymbolInfo.frequency).sum := by
  induction l with
  | nil => simp
  | cons a l ih =>
    have h1 := h a (List.mem_cons_self _ _)
    have h2 := ih (fun s hs => h s (List.mem_cons_of_mem _ hs))
    rw [List.map_cons, List.sum_cons, List.length_cons, Nat.succ_mul]
    omega

theorem sum_le_of_forall_le (l : List SymbolInfo) (f : Nat)
    (h : ∀ s ∈ l, s.frequency ≤ f) : (l.map SymbolInfo.frequency).sum ≤ l.length * f := by
  induction l with
  | nil => simp
  | cons a l ih =>
    have h1 := h a (List.mem_cons_self _ _)
    have h2 := ih (fun s hs => h s (List.mem_cons_of_mem _ hs))
    rw [List.map_cons, List.sum_cons, List.length_cons, Nat.succ_mul]
    omega

theorem splitIndex_le_half (syms : List SymbolInfo)
    (hsorted : syms.Pairwise (fun a b => b.frequency ≤ a.frequency))
    (hpos : ∀ s ∈ syms, 1 ≤ s.frequency)
    (hT : (syms.map SymbolInfo.frequency).sum < 2 ^ 63) (hn : 2 ≤ syms.length) :
    splitIndex syms ≤ syms.length - splitIndex syms := by
  obtain ⟨h1, h2, _, h4, _⟩ := splitIndex_spec syms hpos hT hn
  by_contra hgt
  generalize splitIndex syms = k at h1 h2 h4 hgt
  obtain ⟨j, rfl⟩ : ∃ j, k = j + 1 := ⟨k - 1, by omega⟩
  have hjlt : j < syms.length := by omega
  have hdrop : syms.drop j = syms[j] :: syms.drop (j + 1) := List.drop_eq_getElem_cons hjlt
  have hsplit : syms = syms.take j ++ syms[j] :: syms.drop (j + 1) := by
    rw [← hdrop, List.take_append_drop]
  rw [hsplit] at hsorted
  rw [List.pairwise_append] at hsorted
  obtain ⟨_, hs2, hs3⟩ := hsorted
  rw [List.pairwise_cons] at hs2
  have hleft : (syms.take j).length * syms[j].frequency ≤ leftSum syms j :=
    sum_ge_of_forall_ge _ _ (fun s hs => hs3 s hs _ (List.mem_cons_self _ _))
  have hright : rightSum syms (j + 1) ≤ (syms.drop (j + 1)).length * syms[j].frequency :=
    sum_le_of_forall_le _ _ (fun s hs => hs2.1 s hs)
  rw [List.length_take, Nat.min_eq_left (by omega)] at hleft
  rw [List.length_drop] at hright
  have hmul : (syms.length - (j + 1)) * syms[j].frequency ≤ j * syms[j].frequency :=
    Nat.mul_le_mul_right _ (by omega)
  have hstep := leftSum_succ_of_drop syms j _ _ hdrop
  have htot := leftSum_add_rightSum syms (j + 1)
  have hlt := h4 j (by omega) (by omega)
  rw [splitDiff_eq, splitDiff_eq] at hlt
  generalize (syms.map SymbolInfo.frequency).sum = T at htot hlt
  generalize leftSum syms (j + 1) = L1 at hstep htot hlt
  generalize leftSum syms j = L0 at hleft hstep hlt
  generalize rightSum syms (j + 1) = R1 at hright htot
  generalize syms[j].frequency = f at hleft hright hmul hstep
  generalize (syms.length - (j + 1)) * f = m1 at hright hmul
  generalize j * f = m0 at hleft hmul
  omega

theorem assigned_lengths_small (fuel : Nat) :
    ∀ (syms : List SymbolInfo) (cur : Str), syms.length ≤ fuel → syms.length ≤ 5 →
      syms.Pairwise (fun a b => b.frequency ≤ a.frequency) →
      (∀ s ∈ syms, 1 ≤ s.frequency) → (syms.map SymbolInfo.frequency).sum < 2 ^ 63 →
      ((assigned fuel syms cur).map (fun p => p.2.length)).Pairwise (fun a b => a ≤ b)
      ∧ (∀ l ∈ (assigned fuel syms cur).map (fun p => p.2.length),
          cur.length + (if 2 ≤ syms.length then 1 else 0) ≤ l)
      ∧ (syms.length ≤ 2 → ∀ l ∈ (assigned fuel syms cur).map (fun p => p.2.length),
          l = cur.length + (if 2 ≤ syms.length then 1 else 0)) := by
  induction fuel with
  | zero =>
    intro syms cur h _ _ _ _
    rw [List.length_eq_zero.1 (Nat.le_zero.1 h)]
    exact ⟨List.Pairwise.nil, fun l hl => absurd hl (List.not_mem_nil l),
      fun _ l hl => absurd hl (List.not_mem_nil l)⟩
  | succ fuel ih =>
    intro syms cur h h5 hsorted hpos hT
    match syms, h, h5, hsorted, hpos, hT with
    | [], _, _, _, _, _ =>
      exact ⟨List.Pairwise.nil, fun l hl => absurd hl (List.not_mem_nil l),
        fun _ l hl => absurd hl (List.not_mem_nil l)⟩
    | [s], _, _, _, _, _ =>
      simp [assigned]
    | s1 :: s2 :: rest, h, h5, hsorted, hpos, hT =>
      obtain ⟨k1, k2, _⟩ := splitIndex_spec (s1 :: s2 :: rest) hpos hT (by simp)
      have khalf := splitIndex_le_half (s1 :: s2 :: rest) hsorted hpos hT (by simp)
      have hl1 : ((s1 :: s2 :: rest).take (splitIndex (s1 :: s2 :: rest))).length
          = splitIndex (s1 :: s2 :: rest) := by
        rw [List.length_take]
        omega
      have hl2 : ((s1 :: s2 :: rest).drop (splitIndex (s1 :: s2 :: rest))).length
          = (s1 :: s2 :: rest).length - splitIndex (s1 :: s2 :: rest) := List.length_drop _ _
      have hsum := leftSum_add_rightSum (s1 :: s2 :: rest) (splitIndex (s1 :: s2 :: rest))
      unfold leftSum rightSum at hsum
      have hL := ih ((s1 :: s2 :: rest).take (splitIndex (s1 :: s2 :: rest))) (cur ++ [chr0])
        (by omega) (by omega) (hsorted.sublist (List.take_sublist _ _))
        (fun s hs => hpos s (List.mem_of_mem_take hs)) (by omega)
      have hR := ih ((s1 :: s2 :: rest).drop (splitIndex (s1 :: s2 :: rest))) (cur ++ [chr1])
        (by omega) (by omega) (hsorted.sublist (List.drop_sublist _ _))
        (fun s hs => hpos s (List.mem_of_mem_drop hs)) (by omega)
      rw [hl1] at hL
      rw [hl2] at hR
      have hc0 : (cur ++ [chr0]).length = cur.length + 1 := by simp
      have hc1 : (cur ++ [chr1]).length = cur.length + 1 := by simp
      rw [hc0] at hL
      rw [hc1] at hR
      have hlen : (s1 :: s2 :: rest).length = rest.length + 2 := rfl
      rw [hlen] at k2 khalf hR h5
      simp only [assigned, List.map_append]
      generalize splitIndex (s1 :: s2 :: rest) = k at k1 k2 khalf hL hR
      generalize (assigned fuel ((s1 :: s2 :: rest).take k) (cur ++ [chr0])).map
        (fun p => p.2.length) = lensL at hL
      generalize (assigned fuel ((s1 :: s2 :: rest).drop k) (cur ++ [chr1])).map
        (fun p => p.2.length) = lensR at hR
      obtain ⟨hL1, hL2, hL3⟩ := hL
      obtain ⟨hR1, hR2, hR3⟩ := hR
      have h2 : (2 : Nat) ≤ rest.length + 2 := by omega
      rw [hlen, if_pos h2]
      refine ⟨?_, ?_, ?_⟩
      · rw [List.pairwise_append]
        refine ⟨hL1, hR1, ?_⟩
        intro a ha b hb
        have ea := hL3 (by omega) a ha
        have eb := hR2 b hb
        split at ea <;> split at eb <;> omega
      · intro l hl
        rcases List.mem_append.1 hl with hm | hm
        · have := hL2 l hm
          omega
        · have := hR2 l hm
          omega
      · intro hsmall l hl
        rcases List.mem_append.1 hl with hm | hm
        · have := hL3 (by omega) l hm
          rw [if_neg (by omega)] at this
          omega
        · have := hR3 (by omega) l hm
          rw [if_neg (by omega)] at this
          omega

theorem builderCodes_lengths_small (fm : ByteMap Nat) (hn : fm.size ≤ 5)
    (hpos : ∀ k f, fm.find k = some f → 1 ≤ f)
    (hT : (fm.entries.map Prod.snd).sum < 2 ^ 63) :
    (builderCodes fm).Pairwise (fun p q => p.2.length ≤ q.2.length) := by
  have hlen : (std_sort (symbolsOf fm)).length = fm.size := by
    rw [std_sort_length, symbolsOf_length]
  by_cases h2 : 2 ≤ fm.size
  · rw [builderCodes_eq_assigned fm h2]
    have hsum : ((std_sort (symbolsOf fm)).map SymbolInfo.frequency).sum
        = (fm.entries.map Prod.snd).sum := by
      rw [((std_sort_perm _).map SymbolInfo.frequency).sum_eq]
      unfold symbolsOf
      rw [List.map_map]
      rfl
    have h := (assigned_lengths_small (std_sort (symbolsOf fm)).length (std_sort (symbolsOf fm))
      [] (le_refl _) (by omega)
      ((std_sort_strict fm).imp (fun hab => by
        rcases hab with h | h
        · exact le_of_lt h
        · exact le_of_eq h.1.symm))
      (fun s hs => hpos s.symbol s.frequency
        ((mem_symbolsOf fm s).1 ((std_sort_perm _).mem_iff.1 hs)))
      (by rw [hsum]; exact hT)).1
    rw [List.pairwise_map] at h
    exact h
  · have hl : (builderCodes fm).length ≤ 1 := by
      have := congrArg List.length (builderCodes_keys fm)
      rw [List.length_map, List.length_map, hlen] at this
      omega
    match builderCodes fm, hl with
    | [], _ => exact List.Pairwise.nil
    | [p], _ => exact List.pairwise_singleton _ p
    | _ :: _ :: _, h => simp at h

theorem frequencyMap_domain (S : List Byte) (h : S.length < 2 ^ 63) :
    (∀ k f, (buildFrequencyMap S).1.find k = some f → 1 ≤ f)
    ∧ ((buildFrequencyMap S).1.entries.map Prod.snd).sum < 2 ^ 63 := by
  have h64 : S.length < 2 ^ 64 := by norm_num at h ⊢; omega
  constructor
  · intro k f hk
    rw [buildFrequencyMap_exact S h64] at hk
    split at hk
    · next hmem =>
      rw [← Option.some.inj hk]
      exact List.count_pos_iff.2 hmem
    · cases hk
  · rw [buildFrequencyMap_sum S h64]
    exact h

set_option maxRecDepth 1000000 in
theorem threeInput_frequencies :
    (buildFrequencyMap [65, 65, 65, 66, 66, 67]).1.entries = [(65, 3), (66, 2), (67, 1)] := by
  decide

set_option maxRecDepth 1000000 in
theorem threeInput_codes :
    (buildCodesInternal (buildFrequencyMap [65, 65, 65, 66, 66, 67]).1).entries
      = [(65, [chr0]), (66, [chr1, chr0]), (67, [chr1, chr1])] := by
  decide

theorem threeInput_facts :
    (buildFrequencyMap [65, 65, 65, 66, 66, 67]).1.size ≤ 5
    ∧ (buildFrequencyMap [65, 65, 65, 66, 66, 67]).1.find 65 = some 3
    ∧ (buildFrequencyMap [65, 65, 65, 66, 66, 67]).1.find 67 = some 1
    ∧ (buildCodesInternal (buildFrequencyMap [65, 65, 65, 66, 66, 67]).1).find 65
        = some [chr0]
    ∧ (buildCodesInternal (buildFrequencyMap [65, 65, 65, 66, 66, 67]).1).find 67
        = some [chr1, chr1] := by
  refine ⟨?_, ?_, ?_, ?_, ?_⟩
  · unfold ByteMap.size
    rw [threeInput_frequencies]
    decide
  · rw [← ByteMap.mem_entries, threeInput_frequencies]
    decide
  · rw [← ByteMap.mem_entries, threeInput_frequencies]
    decide
  · rw [← ByteMap.mem_entries, threeInput_codes]
    decide
  · rw [← ByteMap.mem_entries, threeInput_codes]
    decide

end shannon_fano

namespace ascii85

/-! ## ASCII85: the value and the characters of a chunk -/

theorem or_low (i a b : Nat) (h : b < 2 ^ i) : 2 ^ i * a ||| b = 2 ^ i * a + b :=
  (Nat.mul_add_lt_is_or h a).symm

theorem or_step (v q b s : Nat) (hv : v = 2 ^ (s + 8) * q) (hb : b < 256)
    (hlt : v + b * 2 ^ s < 2 ^ 32) : (v ||| (b <<< s)) % 2 ^ 32 = v + b * 2 ^ s := by
  subst hv
  have h1 : b * 2 ^ s < 2 ^ (s + 8) := by
    rw [pow_add, Nat.mul_comm]
    exact Nat.mul_lt_mul_of_pos_left hb (pow_pos (by norm_num) s)
  rw [Nat.shiftLeft_eq, or_low (s + 8) q _ h1, Nat.mod_eq_of_lt hlt]

theorem chunkValue_one (a : Char8) : chunkValue [a] 0 0 = a.val * 2 ^ 24 := by
  have ha := a.isLt
  show (0 ||| a.val <<< 24) % 2 ^ 32 = _
  rw [or_step 0 0 a.val 24 (by norm_num) ha (by omega)]
  omega

theorem chunkValue_two (a b : Char8) :
    chunkValue [a, b] 0 0 = a.val * 2 ^ 24 + b.val * 2 ^ 16 := by
  have ha := a.isLt
  have hb := b.isLt
  show ((0 ||| a.val <<< 24) % 2 ^ 32 ||| b.val <<< 16) % 2 ^ 32 = _
  rw [or_step 0 0 a.val 24 (by norm_num) ha (by omega),
    or_step _ a.val b.val 16 (by omega) hb (by omega)]
  omega

theorem chunkValue_three (a b c : Char8) :
    chunkValue [a, b, c] 0 0 = a.val * 2 ^ 24 + b.val * 2 ^ 16 + c.val * 2 ^ 8 := by
  have ha := a.isLt
  have hb := b.isLt
  have hc := c.isLt
  show (((0 ||| a.val <<< 24) % 2 ^ 32 ||| b.val <<< 16) % 2 ^ 32 ||| c.val <<< 8) % 2 ^ 32
    = _
  rw [or_step 0 0 a.val 24 (by norm_num) ha (by omega),
    or_step _ a.val b.val 16 (by omega) hb (by omega),
    or_step _ (a.val * 2 ^ 8 + b.val) c.val 8 (by omega) hc (by omega)]
  omega

theorem chunkValue_four (a b c d : Char8) :
    chunkValue [a, b, c, d] 0 0
      = a.val * 2 ^ 24 + b.val * 2 ^ 16 + c.val * 2 ^ 8 + d.val := by
  have ha := a.isLt
  have hb := b.isLt
  have hc := c.isLt
  have hd := d.isLt
  show ((((0 ||| a.val <<< 24) % 2 ^ 32 ||| b.val <<< 16) % 2 ^ 32 ||| c.val <<< 8) % 2 ^ 32
    ||| d.val <<< 0) % 2 ^ 32 = _
  rw [or_step 0 0 a.val 24 (by norm_num) ha (by omega),
    or_step _ a.val b.val 16 (by omega) hb (by omega),
    or_step _ (a.val * 2 ^ 8 + b.val) c.val 8 (by omega) hc (by omega),
    or_step _ (a.val * 2 ^ 16 + b.val * 2 ^ 8 + c.val) d.val 0 (by omega) hd (by omega)]
  omega

theorem powers_getD (j : Nat) (hj : j < 5) : powers.getD j 1 = 85 ^ (4 - j) := by
  interval_cases j <;> rfl

theorem encodeChunk_eq (chunk : List Char8) (hl : chunk.length ≤ 4)
    (h : ¬ (chunkValue chunk 0 0 = 0 ∧ chunk.length = 4)) :
    encodeChunk chunk = (List.range (chunk.length + 1)).map
      (fun j => toChar8 (33 + chunkValue chunk 0 0 / 85 ^ (4 - j) % 85)) := by
  unfold encodeChunk
  simp only
  rw [if_neg h]
  have hmap : (List.range 5).map
        (fun j => toChar8 (33 + chunkValue chunk 0 0 / powers.getD j 1 % 85))
      = (List.range 5).map (fun j => toChar8 (33 + chunkValue chunk 0 0 / 85 ^ (4 - j) % 85)) := by
    apply List.map_congr_left
    intro j hj
    rw [powers_getD j (List.mem_range.1 hj)]
  rw [hmap, ← List.map_take, List.take_range, Nat.min_eq_left (by omega)]

theorem chunkValue_eq (input : List Char8) (h1 : 1 ≤ input.length) (h4 : input.length ≤ 4) :
    chunkValue input 0 0 = bigEndian input := by
  match input, h1, h4 with
  | [a], _, _ => rw [chunkValue_one]; simp [bigEndian]
  | [a, b], _, _ => rw [chunkValue_two]; simp [bigEndian]
  | [a, b, c], _, _ => rw [chunkValue_three]; simp [bigEndian]
  | [a, b, c, d], _, _ => rw [chunkValue_four]; simp [bigEndian]
  | _ :: _ :: _ :: _ :: _ :: _, _, h => simp at h

theorem encode_of_short (input : List Char8) (h1 : 1 ≤ input.length) (h4 : input.length ≤ 4) :
    encode input = encodeChunk input := by
  match input, h1, h4 with
  | [a], _, _ => rfl
  | [a, b], _, _ => rfl
  | [a, b, c], _, _ => rfl
  | [a, b, c, d], _, _ => simp [encode, encodeLoop]
  | _ :: _ :: _ :: _ :: _ :: _, _, h => simp at h

theorem bigEndian_eq_zero (a b c d : Char8) (h : bigEndian [a, b, c, d] = 0) :
    [a, b, c, d] = ([0, 0, 0, 0] : List Char8) := by
  simp only [bigEndian, List.getD_cons_zero, List.getD_cons_succ] at h
  have ha : a = 0 := Fin.ext (by show a.val = 0; omega)
  have hb : b = 0 := Fin.ext (by show b.val = 0; omega)
  have hc : c = 0 := Fin.ext (by show c.val = 0; omega)
  have hd : d = 0 := Fin.ext (by show d.val = 0; omega)
  rw [ha, hb, hc, hd]

theorem encode_short (input : List Char8) (h1 : 1 ≤ input.length) (h4 : input.length ≤ 4)
    (hz : input ≠ [0, 0, 0, 0]) :
    encode input = (List.range (input.length + 1)).map
      (fun j => toChar8 (33 + bigEndian input / 85 ^ (4 - j) % 85)) := by
  have hv := chunkValue_eq input h1 h4
  rw [encode_of_short input h1 h4, encodeChunk_eq input h4, hv]
  rw [hv]
  rintro ⟨h0, hlen⟩
  apply hz
  match input, hlen, h0 with
  | [a, b, c, d], _, h0 => exact bigEndian_eq_zero a b c d h0

theorem encodeLoop_zeros (k : Nat) :
    encodeLoop (List.replicate (4 * k) 0) = List.replicate k 122 := by
  induction k with
  | zero => rfl
  | succ k ih =>
    have h : List.replicate (4 * (k + 1)) (0 : Char8)
        = 0 :: 0 :: 0 :: 0 :: List.replicate (4 * k) 0 := by
      rw [Nat.mul_succ]
      rfl
    rw [h, encodeLoop, ih]
    rfl

theorem encode_zeros (k : Nat) : encode (List.replicate (4 * k) 0) = List.replicate k 122 := by
  unfold encode
  split
  · next h =>
    have := congrArg List.length h
    simp only [List.length_replicate, List.length_nil] at this
    have hk : k = 0 := by omega
    rw [hk]
    rfl
  · exact encodeLoop_zeros k

/-! ## ASCII85: decoding -/

theorem getD_replicate_z (k i : Nat) (h : i < k) :
    (List.replicate k (122 : Char8)).getD i 0 = 122 := by
  rw [List.getD_eq_getElem _ _ (by rw [List.length_replicate]; exact h)]
  exact List.getElem_replicate _ _

theorem decodeWhile_zs (k : Nat) (fuel : Nat) :
    ∀ (i : Nat) (output : List Char8), i ≤ k → k - i < fuel →
      decodeWhile (List.replicate k 122) fuel i output
        = .ok (output ++ List.replicate (4 * (k - i)) 0) := by
  induction fuel with
  | zero => intro i output _ h; omega
  | succ fuel ih =>
    intro i output hi hf
    unfold decodeWhile
    rw [List.length_replicate]
    by_cases hlt : i < k
    · rw [if_pos hlt, if_pos (getD_replicate_z k i hlt)]
      rw [if_neg]
      · rw [ih (i + 1) _ (by omega) (by omega), List.append_assoc]
        congr 2
        have h4 : 4 * (k - i) = 4 + 4 * (k - (i + 1)) := by omega
        rw [h4, List.replicate_add]
        rfl
      · rintro ⟨h0, h1, h2 | h2⟩
        · rw [getD_replicate_z k (i - 1) (by omega)] at h2
          exact h2.2.2 rfl
        · rw [getD_replicate_z k (i + 1) (by omega)] at h2
          exact h2.2.2 rfl
    · rw [if_neg hlt]
      have : k - i = 0 := by omega
      rw [this]
      simp

theorem decode_zs (k : Nat) :
    decode (List.replicate k 122) = .ok (List.replicate (4 * k) 0) := by
  unfold decode
  split
  · next h =>
    have := congrArg List.length h
    simp only [List.length_replicate, List.length_nil] at this
    rw [this]
    rfl
  · have hany : (List.replicate k (122 : Char8)).any (fun c => decide (c.val > 127)) = false := by
      rw [List.any_eq_false]
      intro c hc
      rw [List.eq_of_mem_replicate hc]
      decide
    have hcount : (List.replicate k (122 : Char8)).countP
        (fun c => decide (c.val > 32 ∧ c ≠ 122)) = 0 := by
      rw [List.countP_eq_zero]
      intro c hc
      rw [List.eq_of_mem_replicate hc]
      decide
    rw [hany]
    simp only [Bool.false_eq_true, if_false, hcount]
    rw [if_neg (by decide), decodeWhile_zs k _ 0 [] (Nat.zero_le _)
      (by rw [List.length_replicate]; omega)]
    rfl

theorem getD_at (pre0 rest : List Char8) (c : Char8) :
    (pre0 ++ c :: rest).getD pre0.length 0 = c := by
  rw [List.getD_append_right _ _ _ _ (Nat.le_refl _), Nat.sub_self]
  rfl

theorem readGroup_stop (data : List Char8) (x : Char8) (post : List Char8) (hx : x.val > 117)
    (mid : List Char8) :
    ∀ (pre0 : List Char8) (fuel j value cc : Nat), data = pre0 ++ mid ++ x :: post →
      mid.length < fuel → j ≤ 5 →
      (∃ e, readGroup data fuel j pre0.length value cc = .error e)
      ∨ ∃ mid1 mid2 v, mid = mid1 ++ mid2
          ∧ readGroup data fuel j pre0.length value cc
            = .ok (pre0.length + mid1.length, v, cc + mid1.countP isGroupChar)
          ∧ j + mid1.countP isGroupChar = 5 := by
  induction mid with
  | nil =>
    intro pre0 fuel j value cc hdata hfuel hj
    obtain ⟨fuel, rfl⟩ : ∃ f, fuel = f + 1 := ⟨fuel - 1, by omega⟩
    have hlen : pre0.length < data.length := by
      rw [hdata]
      simp
    have hget : data.getD pre0.length 0 = x := by
      rw [hdata, List.append_nil]
      exact getD_at pre0 post x
    unfold readGroup
    by_cases hj5 : j < 5
    · rw [if_pos ⟨hj5, hlen⟩]
      simp only [hget]
      rw [if_neg (by omega), if_pos (Or.inr hx)]
      exact Or.inl ⟨_, rfl⟩
    · rw [if_neg (fun h => hj5 h.1)]
      exact Or.inr ⟨[], [], value, rfl, rfl, by simp; omega⟩
  | cons c mid ih =>
    intro pre0 fuel j value cc hdata hfuel hj
    obtain ⟨fuel, rfl⟩ : ∃ f, fuel = f + 1 := ⟨fuel - 1, by omega⟩
    rw [List.length_cons] at hfuel
    have hlen : pre0.length < data.length := by
      rw [hdata]
      simp
    have hget : data.getD pre0.length 0 = c := by
      rw [hdata, List.append_assoc]
      exact getD_at pre0 _ c
    have hdata2 : data = (pre0 ++ [c]) ++ mid ++ x :: post := by
      rw [hdata]
      simp
    have hlen2 : (pre0 ++ [c]).length = pre0.length + 1 := by simp
    unfold readGroup
    by_cases hj5 : j < 5
    · rw [if_pos ⟨hj5, hlen⟩]
      simp only [hget]
      by_cases hws : c.val ≤ 32
      · rw [if_pos hws]
        have hng : isGroupChar c = false := by
          unfold isGroupChar
          rw [decide_eq_false_iff_not]
          omega
        rcases ih (pre0 ++ [c]) fuel j value cc hdata2 (by omega) hj with ⟨e, he⟩ | h
        · rw [hlen2] at he
          exact Or.inl ⟨e, he⟩
        · obtain ⟨mid1, mid2, v, h1, h2, h3⟩ := h
          rw [hlen2] at h2
          refine Or.inr ⟨c :: mid1, mid2, v, by rw [h1]; rfl, ?_, ?_⟩
          · rw [h2, List.countP_cons_of_neg _ _ (by rw [hng]; exact Bool.false_ne_true),
              List.length_cons]
            congr 2
            omega
          · rw [List.countP_cons_of_neg _ _ (by rw [hng]; exact Bool.false_ne_true)]
            exact h3
      · rw [if_neg hws]
        by_cases hbad : c.val < 33 ∨ c.val > 117
        · rw [if_pos hbad]
          exact Or.inl ⟨_, rfl⟩
        · rw [if_neg hbad]
          have hg : isGroupChar c = true := by
            unfold isGroupChar
            rw [decide_eq_true_iff]
            refine ⟨by omega, ?_⟩
            intro h122
            rw [h122] at hbad
            exact hbad (Or.inr (by decide))
          have hdead : ¬ ((value * 85 + (c.val - 33)) % 2 ^ 32 > 0xFFFFFFFF ∧ j < 4) := by
            have := Nat.mod_lt (value * 85 + (c.val - 33)) (by norm_num : 0 < 2 ^ 32)
            omega
          rw [if_neg hdead]
          rcases ih (pre0 ++ [c]) fuel (j + 1) ((value * 85 + (c.val - 33)) % 2 ^ 32)
            (cc + 1) hdata2 (by omega) (by omega) with ⟨e, he⟩ | h
          · rw [hlen2] at he
            exact Or.inl ⟨e, he⟩
          · obtain ⟨mid1, mid2, v, h1, h2, h3⟩ := h
            rw [hlen2] at h2
            refine Or.inr ⟨c :: mid1, mid2, v, by rw [h1]; rfl, ?_, ?_⟩
            · rw [h2, List.countP_cons_of_pos _ _ hg, List.length_cons]
              congr 2
              · omega
              · congr 1
                omega
            · rw [List.countP_cons_of_pos _ _ hg]
              omega
    · rw [if_neg (fun h => hj5 h.1)]
      exact Or.inr ⟨[], c :: mid, value, rfl, rfl, by simp; omega⟩

theorem decodeWhile_stop (data : List Char8) (x : Char8) (post : List Char8) (hx : x.val > 117)
    (fuel : Nat) :
    ∀ (mid pre0 output : List Char8), data = pre0 ++ mid ++ x :: post → mid.length < fuel →
      (x ≠ 122 ∨ mid.countP isGroupChar % 5 ≠ 0) →
      ∃ e, decodeWhile data fuel pre0.length output = .error e := by
  induction fuel with
  | zero => intro mid pre0 output _ h; omega
  | succ fuel ih =>
    intro mid pre0 output hdata hfuel hP
    have hlen : pre0.length < data.length := by
      rw [hdata]
      simp
    unfold decodeWhile
    rw [if_pos hlen]
    by_cases hz : data.getD pre0.length 0 = 122
    · rw [if_pos hz]
      split
      · exact ⟨_, rfl⟩
      · cases mid with
        | nil =>
          exfalso
          rw [hdata, List.append_nil, getD_at] at hz
          rcases hP with h | h
          · exact h hz
          · simp at h
        | cons c mid =>
          have hc : c = 122 := by
            rw [hdata, List.append_assoc, List.cons_append, getD_at] at hz
            exact hz
          have hdata2 : data = (pre0 ++ [c]) ++ mid ++ x :: post := by
            rw [hdata]
            simp
          have hng : ¬ isGroupChar c = true := by
            rw [hc]
            decide
          rw [List.countP_cons_of_neg _ _ hng] at hP
          rw [List.length_cons] at hfuel
          have := ih mid (pre0 ++ [c]) (output ++ [0, 0, 0, 0]) hdata2 (by omega) hP
          rw [List.length_append, List.length_singleton] at this
          exact this
    · rw [if_neg hz]
      dsimp only
      rcases readGroup_stop data x post hx mid pre0 (data.length + 1) 0 0 0 hdata
        (by rw [hdata]; simp; omega) (by omega) with ⟨e, he⟩ | h
      · rw [he]
        exact ⟨e, rfl⟩
      · obtain ⟨mid1, mid2, v, h1, h2, h3⟩ := h
        rw [Nat.zero_add] at h3
        rw [h2, h3]
        dsimp only
        rw [if_neg (by omega), if_neg (by omega)]
        dsimp only
        split
        · exact ⟨_, rfl⟩
        · have hdata2 : data = (pre0 ++ mid1) ++ mid2 ++ x :: post := by
            rw [hdata, h1]
            simp
          have hl1 : mid1.countP isGroupChar ≤ mid1.length := List.countP_le_length _
          have hl : mid.length = mid1.length + mid2.length := by
            rw [h1, List.length_append]
          have hP2 : x ≠ 122 ∨ mid2.countP isGroupChar % 5 ≠ 0 := by
            rcases hP with h | h
            · exact Or.inl h
            · right
              rw [h1, List.countP_append, h3] at h
              omega
          have := ih mid2 (pre0 ++ mid1)
            (output ++ (List.range (if 5 = 5 then 4 else 5 - 1)).map
              (fun j => toChar8 ((v >>> (8 * (3 - j))) &&& 0xFF)))
            hdata2 (by omega) hP2
          rw [List.length_append] at this
          exact this

theorem decode_stop (pre post : List Char8) (x : Char8) (hx : x.val > 117)
    (hP : x ≠ 122 ∨ pre.countP isGroupChar % 5 ≠ 0) :
    ∃ e, decode (pre ++ x :: post) = .error e := by
  unfold decode
  split
  · next h => simp at h
  · split
    · exact ⟨_, rfl⟩
    · dsimp only
      split
      · exact ⟨_, rfl⟩
      · exact decodeWhile_stop (pre ++ x :: post) x post hx _ pre [] [] rfl (by simp; omega) hP

theorem decode_nonascii (input : List Char8) (c : Char8) (hc : c ∈ input) (h : c.val > 127) :
    decode input = .error .characterOutOfRange := by
  unfold decode
  rw [if_neg (List.ne_nil_of_mem hc)]
  have hany : input.any (fun c => decide (c.val > 127)) = true := by
    rw [List.any_eq_true]
    exact ⟨c, hc, by rw [decide_eq_true_iff]; exact h⟩
  rw [if_pos hany]

/-! ## ASCII85: decoding what `encode` wrote -/

theorem digitChars_length (value n : Nat) : (digitChars value n).length = n := by
  unfold digitChars
  rw [List.length_map, List.length_range]

theorem digitChars_getD (value n j : Nat) (hj : j < n) :
    (digitChars value n).getD j 0 = toChar8 (33 + value / 85 ^ (4 - j) % 85) := by
  unfold digitChars
  rw [List.getD_eq_getElem _ _ (by rw [List.length_map, List.length_range]; exact hj),
    List.getElem_map, List.getElem_range]

theorem digit_val (d : Nat) : (toChar8 (33 + d % 85)).val = 33 + d % 85 := by
  show (33 + d % 85) % 256 = 33 + d % 85
  omega

theorem digitChars_mem (value n : Nat) (c : Char8) (hc : c ∈ digitChars value n) :
    33 ≤ c.val ∧ c.val ≤ 117 := by
  unfold digitChars at hc
  rw [List.mem_map] at hc
  obtain ⟨j, _, rfl⟩ := hc
  rw [digit_val]
  omega

theorem getD_mid (pre0 g rest : List Char8) (j : Nat) (hj : j < g.length) :
    (pre0 ++ g ++ rest).getD (pre0.length + j) 0 = g.getD j 0 := by
  rw [List.append_assoc, List.getD_append_right _ _ _ _ (Nat.le_add_right _ _),
    Nat.add_sub_cancel_left, List.getD_append _ _ _ _ hj]

theorem readGroup_digits (data pre0 rest : List Char8) (value n : Nat) (hv : value < 2 ^ 32)
    (hn : n ≤ 5) (hdata : data = pre0 ++ digitChars value n ++ rest)
    (hend : n = 5 ∨ rest = []) :
    ∀ (k j fuel : Nat), j + k = n → k ≤ fuel →
      readGroup data fuel j (pre0.length + j) (value / 85 ^ (5 - j)) j
        = .ok (pre0.length + n, value / 85 ^ (5 - n), n) := by
  have hlen : data.length = pre0.length + n + rest.length := by
    rw [hdata, List.length_append, List.length_append, digitChars_length]
  intro k
  induction k with
  | zero =>
    intro j fuel hj _
    rw [Nat.add_zero] at hj
    subst hj
    cases fuel with
    | zero => rfl
    | succ fuel =>
      unfold readGroup
      rw [if_neg]
      rintro ⟨h1, h2⟩
      rcases hend with h | h
      · omega
      · rw [h, List.length_nil] at hlen
        omega
  | succ k ih =>
    intro j fuel hj hf
    obtain ⟨fuel, rfl⟩ : ∃ f, fuel = f + 1 := ⟨fuel - 1, by omega⟩
    have hget : data.getD (pre0.length + j) 0 = toChar8 (33 + value / 85 ^ (4 - j) % 85) := by
      rw [hdata, getD_mid _ _ _ _ (by rw [digitChars_length]; omega),
        digitChars_getD _ _ _ (by omega)]
    unfold readGroup
    rw [if_pos ⟨by omega, by omega⟩]
    simp only [hget, digit_val]
    rw [if_neg (by omega), if_neg (by omega)]
    have hq : value / 85 ^ (5 - j) = value / 85 ^ (4 - j) / 85 := by
      rw [Nat.div_div_eq_div_mul, ← pow_succ]
      congr 2
      omega
    have hle : value / 85 ^ (4 - j) ≤ value := Nat.div_le_self _ _
    have hval : (value / 85 ^ (5 - j) * 85 + (33 + value / 85 ^ (4 - j) % 85 - 33)) % 2 ^ 32
        = value / 85 ^ (5 - (j + 1)) := by
      rw [hq]
      have h5 : 5 - (j + 1) = 4 - j := by omega
      rw [h5]
      generalize value / 85 ^ (4 - j) = q at hle
      omega
    rw [hval]
    rw [if_neg (by
      have := Nat.div_le_self value (85 ^ (5 - (j + 1)))
      omega)]
    have := ih (j + 1) fuel (by omega) (by omega)
    rw [← Nat.add_assoc] at this
    exact this

theorem byte_at (p j : Nat) : (p >>> (8 * (3 - j))) &&& 0xFF = p / 2 ^ (8 * (3 - j)) % 256 := by
  rw [Nat.shiftRight_eq_div_pow]
  exact Nat.and_pow_two_sub_one_eq_mod _ 8

theorem bytes_of_value (c : List Char8) (p : Nat) (h4 : c.length ≤ 4)
    (hlo : bigEndian c ≤ p) (hhi : p < bigEndian c + 256 ^ (4 - c.length)) :
    (List.range c.length).map (fun j => toChar8 ((p >>> (8 * (3 - j))) &&& 0xFF)) = c := by
  have hmap : (List.range c.length).map (fun j => toChar8 ((p >>> (8 * (3 - j))) &&& 0xFF))
      = (List.range c.length).map (fun j => toChar8 (p / 2 ^ (8 * (3 - j)) % 256)) := by
    apply List.map_congr_left
    intro j _
    rw [byte_at]
  rw [hmap]
  match c, h4 with
  | [], _ => rfl
  | [a], _ =>
    have ha := a.isLt
    simp only [bigEndian, List.getD_cons_zero, List.getD_cons_succ, List.getD_nil,
      List.length_singleton] at hlo hhi
    norm_num at hlo hhi
    simp only [List.length_singleton, List.range_succ, List.range_zero, List.nil_append,
      List.map_cons, List.map_nil]
    norm_num
    apply Fin.ext
    show p / 16777216 % 256 % 256 = a.val
    omega
  | [a, b], _ =>
    have ha := a.isLt
    have hb := b.isLt
    simp only [bigEndian, List.getD_cons_zero, List.getD_cons_succ, List.getD_nil,
      List.length_cons, List.length_nil] at hlo hhi
    norm_num at hlo hhi
    simp only [List.length_cons, List.length_nil, List.range_succ, List.range_zero,
      List.nil_append, List.map_cons, List.map_nil, List.cons_append]
    norm_num
    constructor
    · apply Fin.ext
      show p / 16777216 % 256 % 256 = a.val
      omega
    · apply Fin.ext
      show p / 65536 % 256 % 256 = b.val
      omega
  | [a, b, c], _ =>
    have ha := a.isLt
    have hb := b.isLt
    have hc := c.isLt
    simp only [bigEndian, List.getD_cons_zero, List.getD_cons_succ, List.getD_nil,
      List.length_cons, List.length_nil] at hlo hhi
    norm_num at hlo hhi
    simp only [List.length_cons, List.length_nil, List.range_succ, List.range_zero,
      List.nil_append, List.map_cons, List.map_nil, List.cons_append]
    norm_num
    refine ⟨?_, ?_, ?_⟩
    · apply Fin.ext
      show p / 16777216 % 256 % 256 = a.val
      omega
    · apply Fin.ext
      show p / 65536 % 256 % 256 = b.val
      omega
    · apply Fin.ext
      show p / 256 % 256 % 256 = c.val
      omega
  | [a, b, c, d], _ =>
    have ha := a.isLt
    have hb := b.isLt
    have hc := c.isLt
    have hd := d.isLt
    simp only [bigEndian, List.getD_cons_zero, List.getD_cons_succ, List.getD_nil,
      List.length_cons, List.length_nil] at hlo hhi
    norm_num at hlo hhi
    simp only [List.length_cons, List.length_nil, List.range_succ, List.range_zero,
      List.nil_append, List.map_cons, List.map_nil, List.cons_append]
    norm_num
    refine ⟨?_, ?_, ?_, ?_⟩
    · apply Fin.ext
      show p / 16777216 % 256 % 256 = a.val
      omega
    · apply Fin.ext
      show p / 65536 % 256 % 256 = b.val
      omega
    · apply Fin.ext
      show p / 256 % 256 % 256 = c.val
      omega
    · apply Fin.ext
      show p % 256 % 256 = d.val
      omega
  | _ :: _ :: _ :: _ :: _ :: _, h => simp at h

theorem padGroup_spec (passes : Nat) :
    ∀ value : Nat, value * 85 ^ passes + (85 ^ passes - 1) < 2 ^ 32 →
      padGroup passes value = .ok (value * 85 ^ passes + (85 ^ passes - 1)) := by
  induction passes with
  | zero => intro value _; simp [padGroup]
  | succ passes ih =>
    intro value h
    have hpos : 0 < 85 ^ passes := Nat.pow_pos (by norm_num)
    have hstep : (value * 85 + 84) * 85 ^ passes + (85 ^ passes - 1)
        = value * 85 ^ (passes + 1) + (85 ^ (passes + 1) - 1) := by
      rw [pow_succ]
      have : (value * 85 + 84) * 85 ^ passes = value * (85 ^ passes * 85) + 84 * 85 ^ passes := by
        ring
      rw [this]
      omega
    have hle : value * 85 + 84 ≤ (value * 85 + 84) * 85 ^ passes :=
      Nat.le_mul_of_pos_right _ hpos
    unfold padGroup
    dsimp only
    rw [Nat.mod_eq_of_lt (by omega), if_neg (by omega), ih _ (by omega), hstep]

theorem bigEndian_top (c : List Char8) (h4 : c.length ≤ 4) :
    bigEndian c + 256 ^ (4 - c.length) ≤ 2 ^ 32 := by
  match c, h4 with
  | [], _ => simp [bigEndian]
  | [a], _ =>
    have ha := a.isLt
    simp only [bigEndian, List.getD_cons_zero, List.getD_cons_succ, List.getD_nil,
      List.length_singleton]
    norm_num
    omega
  | [a, b], _ =>
    have ha := a.isLt
    have hb := b.isLt
    simp only [bigEndian, List.getD_cons_zero, List.getD_cons_succ, List.getD_nil,
      List.length_cons, List.length_nil]
    norm_num
    omega
  | [a, b, c], _ =>
    have ha := a.isLt
    have hb := b.isLt
    have hc := c.isLt
    simp only [bigEndian, List.getD_cons_zero, List.getD_cons_succ, List.getD_nil,
      List.length_cons, List.length_nil]
    norm_num
    omega
  | [a, b, c, d], _ =>
    have ha := a.isLt
    have hb := b.isLt
    have hc := c.isLt
    have hd := d.isLt
    simp only [bigEndian, List.getD_cons_zero, List.getD_cons_succ, List.getD_nil,
      List.length_cons, List.length_nil]
    norm_num
    omega
  | _ :: _ :: _ :: _ :: _ :: _, h => simp at h

theorem pad_bounds (value k : Nat) (hk : k ≤ 3) :
    value ≤ value / 85 ^ k * 85 ^ k + (85 ^ k - 1)
    ∧ value / 85 ^ k * 85 ^ k + (85 ^ k - 1) < value + 256 ^ k := by
  have h0 : 85 ^ 0 = 1 ∧ 256 ^ 0 = 1 := ⟨rfl, rfl⟩
  have h1 : 85 ^ 1 = 85 ∧ 256 ^ 1 = 256 := ⟨rfl, rfl⟩
  have h2 : 85 ^ 2 = 7225 ∧ 256 ^ 2 = 65536 := ⟨by norm_num, by norm_num⟩
  have h3 : 85 ^ 3 = 614125 ∧ 256 ^ 3 = 16777216 := ⟨by norm_num, by norm_num⟩
  rcases (by omega : k = 0 ∨ k = 1 ∨ k = 2 ∨ k = 3) with h | h | h | h
  · rw [h, h0.1, h0.2]
    omega
  · rw [h, h1.1, h1.2]
    omega
  · rw [h, h2.1, h2.2]
    omega
  · rw [h, h3.1, h3.2]
    omega

theorem decodeWhile_group (data pre0 rest c : List Char8) (fuel : Nat) (output : List Char8)
    (h1 : 1 ≤ c.length) (h4 : c.length ≤ 4)
    (hdata : data = pre0 ++ digitChars (bigEndian c) (c.length + 1) ++ rest)
    (hend : c.length = 4 ∨ rest = []) :
    decodeWhile data (fuel + 1) pre0.length output
      = decodeWhile data fuel (pre0.length + (c.length + 1)) (output ++ c) := by
  have htop := bigEndian_top c h4
  have hpos : 0 < 256 ^ (4 - c.length) := Nat.pow_pos (by norm_num)
  have hv : bigEndian c < 2 ^ 32 := by omega
  have hlen : data.length = pre0.length + (c.length + 1) + rest.length := by
    rw [hdata, List.length_append, List.length_append, digitChars_length]
  have hget : data.getD pre0.length 0 = toChar8 (33 + bigEndian c / 85 ^ (4 - 0) % 85) := by
    have := getD_mid pre0 (digitChars (bigEndian c) (c.length + 1)) rest 0
      (by rw [digitChars_length]; omega)
    rw [Nat.add_zero pre0.length] at this
    rw [hdata, this, digitChars_getD _ _ _ (by omega)]
  have hz : data.getD pre0.length 0 ≠ 122 := by
    intro h
    have hval := congrArg Fin.val h
    rw [hget, digit_val] at hval
    have : (122 : Char8).val = 122 := rfl
    omega
  have hr := readGroup_digits data pre0 rest (bigEndian c) (c.length + 1) hv (by omega) hdata
    (hend.imp (fun h => by omega) id) (c.length + 1) 0 (data.length + 1) (by omega) (by omega)
  have h85 : bigEndian c / 85 ^ (5 - 0) = 0 :=
    Nat.div_eq_of_lt (by norm_num at hv ⊢; omega)
  rw [Nat.add_zero pre0.length, h85] at hr
  rw [decodeWhile]
  rw [if_pos (by omega), if_neg hz]
  dsimp only
  rw [hr]
  dsimp only
  rw [if_neg (by omega)]
  by_cases hfull : c.length = 4
  · rw [if_neg (by omega)]
    dsimp only
    have h0 : 5 - (c.length + 1) = 0 := by omega
    rw [h0, pow_zero, Nat.div_one, if_neg (by omega), if_pos (by omega)]
    have hb := bytes_of_value c (bigEndian c) h4 (le_refl _) (by omega)
    rw [hfull] at hb
    rw [hb]
  · have hk : 5 - (c.length + 1) = 4 - c.length := by omega
    obtain ⟨hp1, hp2⟩ := pad_bounds (bigEndian c) (4 - c.length) (by omega)
    have hrest : rest = [] := by
      rcases hend with h | h
      · exact absurd h hfull
      · exact h
    rw [hrest, List.length_nil] at hlen
    rw [if_pos (by omega), if_neg (by omega), if_pos (by omega), hk,
      padGroup_spec _ _ (by omega)]
    dsimp only
    rw [if_neg (by omega), if_neg (by omega), Nat.add_sub_cancel,
      bytes_of_value c _ h4 hp1 hp2]

theorem encodeLoop_split (x : List Char8) (hx : x ≠ []) :
    encodeLoop x = encodeChunk (x.take 4) ++ encodeLoop (x.drop 4) := by
  match x, hx with
  | [a], _ => simp [encodeLoop]
  | [a, b], _ => simp [encodeLoop]
  | [a, b, c], _ => simp [encodeLoop]
  | a :: b :: c :: d :: rest, _ => simp [encodeLoop]

theorem encodeChunk_digits (c : List Char8) (h1 : 1 ≤ c.length) (h4 : c.length ≤ 4)
    (hz : c ≠ [0, 0, 0, 0]) :
    encodeChunk c = digitChars (bigEndian c) (c.length + 1) := by
  rw [← encode_of_short c h1 h4, encode_short c h1 h4 hz]
  rfl

theorem noZeroChunk_head (x : List Char8) (h : NoZeroChunk x) : x.take 4 ≠ [0, 0, 0, 0] := by
  intro h0
  have hl := congrArg List.length h0
  rw [List.length_take] at hl
  have := h 0 (by simp at hl; omega)
  rw [Nat.mul_zero, List.drop_zero] at this
  exact this h0

theorem noZeroChunk_drop (x : List Char8) (h : NoZeroChunk x) : NoZeroChunk (x.drop 4) := by
  intro k hk
  rw [List.length_drop] at hk
  have := h (k + 1) (by omega)
  rw [List.drop_drop]
  have h4 : 4 + 4 * k = 4 * (k + 1) := by omega
  rw [h4]
  exact this

theorem encodeLoop_shape :
    ∀ (m : Nat) (x : List Char8), x.length ≤ m → NoZeroChunk x →
      (∀ c ∈ encodeLoop x, 33 ≤ c.val ∧ c.val ≤ 117)
      ∧ (encodeLoop x).length % 5 ≠ 1 ∧ x.length ≤ (encodeLoop x).length := by
  intro m
  induction m with
  | zero =>
    intro x hx _
    rw [List.length_eq_zero.mp (Nat.le_zero.mp hx)]
    exact ⟨fun c hc => absurd hc (List.not_mem_nil c), by decide, le_refl _⟩
  | succ m ih =>
    intro x hx hnz
    by_cases hnil : x = []
    · rw [hnil]
      exact ⟨fun c hc => absurd hc (List.not_mem_nil c), by decide, le_refl _⟩
    · have hpos : 0 < x.length := List.length_pos.mpr hnil
      have hlt : (x.take 4).length = min 4 x.length := List.length_take _ _
      have hld : (x.drop 4).length = x.length - 4 := List.length_drop _ _
      obtain ⟨i1, i2, i3⟩ := ih (x.drop 4) (by omega) (noZeroChunk_drop x hnz)
      rw [encodeLoop_split x hnil,
        encodeChunk_digits (x.take 4) (by omega) (by omega) (noZeroChunk_head x hnz)]
      refine ⟨?_, ?_, ?_⟩
      · intro c hc
        rcases List.mem_append.mp hc with h | h
        · exact digitChars_mem _ _ c h
        · exact i1 c h
      · rw [List.length_append, digitChars_length]
        by_cases h4 : 4 ≤ x.length
        · omega
        · have h0 : x.drop 4 = [] := List.drop_eq_nil_of_le (by omega)
          rw [h0]
          show (_ + (encodeLoop []).length) % 5 ≠ 1
          rw [show encodeLoop [] = [] from rfl, List.length_nil]
          omega
      · rw [List.length_append, digitChars_length]
        omega

theorem decodeWhile_encodeLoop :
    ∀ (m : Nat) (x : List Char8), x.length ≤ m → NoZeroChunk x →
      ∀ (pre0 output : List Char8) (fuel : Nat), x.length ≤ fuel →
        decodeWhile (pre0 ++ encodeLoop x) fuel pre0.length output = .ok (output ++ x) := by
  intro m
  induction m with
  | zero =>
    intro x hx _ pre0 output fuel _
    rw [List.length_eq_zero.mp (Nat.le_zero.mp hx), List.append_nil]
    cases fuel with
    | zero => rfl
    | succ fuel =>
      rw [decodeWhile, if_neg]
      rw [show encodeLoop [] = [] from rfl, List.append_nil]
      exact Nat.lt_irrefl _
  | succ m ih =>
    intro x hx hnz pre0 output fuel hfuel
    by_cases hnil : x = []
    · rw [hnil, List.append_nil]
      cases fuel with
      | zero => rfl
      | succ fuel =>
        rw [decodeWhile, if_neg]
        rw [show encodeLoop [] = [] from rfl, List.append_nil]
        exact Nat.lt_irrefl _
    · have hpos : 0 < x.length := List.length_pos.mpr hnil
      have hlt : (x.take 4).length = min 4 x.length := List.length_take _ _
      have hld : (x.drop 4).length = x.length - 4 := List.length_drop _ _
      obtain ⟨fuel, rfl⟩ : ∃ f, fuel = f + 1 := ⟨fuel - 1, by omega⟩
      have hsplit : pre0 ++ encodeLoop x
          = pre0 ++ digitChars (bigEndian (x.take 4)) ((x.take 4).length + 1)
            ++ encodeLoop (x.drop 4) := by
        rw [encodeLoop_split x hnil,
          encodeChunk_digits (x.take 4) (by omega) (by omega) (noZeroChunk_head x hnz),
          List.append_assoc]
      have hend : (x.take 4).length = 4 ∨ encodeLoop (x.drop 4) = [] := by
        by_cases h4 : 4 ≤ x.length
        · exact Or.inl (by omega)
        · right
          rw [List.drop_eq_nil_of_le (by omega)]
          rfl
      rw [decodeWhile_group _ pre0 _ (x.take 4) fuel output (by omega) (by omega) hsplit hend]
      have := ih (x.drop 4) (by omega) (noZeroChunk_drop x hnz)
        (pre0 ++ digitChars (bigEndian (x.take 4)) ((x.take 4).length + 1)) (output ++ x.take 4)
        fuel (by omega)
      rw [List.length_append, digitChars_length, ← hsplit] at this
      rw [this, List.append_assoc, List.take_append_drop]

theorem decode_encode_of_noZeroChunk (x : List Char8) (h : NoZeroChunk x) :
    decode (encode x) = .ok x := by
  by_cases hnil : x = []
  · rw [hnil]
    rfl
  · obtain ⟨h1, h2, h3⟩ := encodeLoop_shape x.length x (le_refl _) h
    have hpos : 0 < x.length := List.length_pos.mpr hnil
    have henc : encode x = encodeLoop x := by
      unfold encode
      rw [if_neg hnil]
    rw [henc]
    unfold decode
    rw [if_neg (by
      intro h0
      rw [h0, List.length_nil] at h3
      omega)]
    have hany : (encodeLoop x).any (fun c => decide (c.val > 127)) = false := by
      rw [List.any_eq_false]
      intro c hc
      have := h1 c hc
      rw [decide_eq_true_iff]
      omega
    have hcount : (encodeLoop x).countP (fun c => decide (c.val > 32 ∧ c ≠ 122))
        = (encodeLoop x).length := by
      rw [List.countP_eq_length]
      intro c hc
      have := h1 c hc
      rw [decide_eq_true_iff]
      refine ⟨by omega, ?_⟩
      intro h122
      rw [h122] at this
      have h122v : (122 : Char8).val = 122 := rfl
      omega
    rw [hany]
    simp only [Bool.false_eq_true, if_false, hcount]
    rw [if_neg (by omega)]
    have := decodeWhile_encodeLoop x.length x (le_refl _) h [] [] ((encodeLoop x).length + 1)
      (by omega)
    rw [List.nil_append, List.length_nil, List.nil_append] at this
    exact this

theorem final_group_padding (c : List Char8) (h1 : 1 ≤ c.length) (h3 : c.length ≤ 3) :
    encode c = digitChars (bigEndian c) (c.length + 1)
    ∧ readGroup (encode c) ((encode c).length + 1) 0 0 0 0
        = .ok (c.length + 1, bigEndian c / 85 ^ (4 - c.length), c.length + 1)
    ∧ padGroup (4 - c.length) (bigEndian c / 85 ^ (4 - c.length))
        = .ok (bigEndian c / 85 ^ (4 - c.length) * 85 ^ (4 - c.length)
            + (85 ^ (4 - c.length) - 1))
    ∧ bigEndian c / 85 ^ (4 - c.length) * 85 ^ (4 - c.length) + (85 ^ (4 - c.length) - 1)
        < 2 ^ 32
    ∧ (List.range c.length).map (fun j => toChar8
        (((bigEndian c / 85 ^ (4 - c.length) * 85 ^ (4 - c.length) + (85 ^ (4 - c.length) - 1))
          >>> (8 * (3 - j))) &&& 0xFF)) = c := by
  have henc : encode c = digitChars (bigEndian c) (c.length + 1) := by
    rw [encode_of_short c h1 (by omega)]
    exact encodeChunk_digits c h1 (by omega) (by
      intro h0
      rw [h0] at h3
      simp at h3)
  have htop := bigEndian_top c (by omega)
  have hpos : 0 < 256 ^ (4 - c.length) := Nat.pow_pos (by norm_num)
  obtain ⟨hp1, hp2⟩ := pad_bounds (bigEndian c) (4 - c.length) (by omega)
  have hr := readGroup_digits (encode c) [] [] (bigEndian c) (c.length + 1) (by omega)
    (by omega) (by rw [henc]; simp) (Or.inr rfl) (c.length + 1) 0 ((encode c).length + 1)
    (by omega) (by rw [henc, digitChars_length]; omega)
  have h85 : bigEndian c / 85 ^ (5 - 0) = 0 :=
    Nat.div_eq_of_lt (by norm_num at htop ⊢; omega)
  have hk : 5 - (c.length + 1) = 4 - c.length := by omega
  rw [List.length_nil, Nat.add_zero, Nat.zero_add (c.length + 1), h85, hk] at hr
  exact ⟨henc, hr, padGroup_spec _ _ (by omega), by omega,
    bytes_of_value c _ (by omega) hp1 hp2⟩

theorem noZeroChunk_hello :
    NoZeroChunk ([72, 101, 108, 108, 111, 44, 32, 87, 111, 114, 108, 100, 33] : List Char8) := by
  intro k hk
  have hk2 : k ≤ 2 := by
    simp only [List.length_cons, List.length_nil] at hk
    omega
  interval_cases k <;> decide

end ascii85

namespace GaussianSolver

/-! ## The Gaussian solver: row operations -/

theorem rowSum_update (A : Nat → Nat → ℚ) (n : Nat) (v : Nat → ℚ) (i k : Nat) (f : ℚ)
    (r : Nat) :
    rowSum (fun r j => if r = i then A i j - f * A k j else A r j) n v r
      = if r = i then rowSum A n v i - f * rowSum A n v k else rowSum A n v r := by
  unfold rowSum
  by_cases h : r = i
  · simp only [if_pos h]
    rw [Finset.mul_sum, ← Finset.sum_sub_distrib]
    apply Finset.sum_congr rfl
    intro j _
    ring
  · simp only [if_neg h]

theorem satisfies_update (A : Nat → Nat → ℚ) (n : Nat) (v : Nat → ℚ) (t : ℚ) (i k : Nat)
    (f : ℚ) (hik : i ≠ k) (hk : k < n) :
    Satisfies (fun r j => if r = i then A i j - f * A k j else A r j) n v t
      ↔ Satisfies A n v t := by
  unfold Satisfies
  constructor
  · intro h r hr
    have hk2 := h k hk
    rw [rowSum_update, if_neg (Ne.symm hik)] at hk2
    simp only [if_neg (Ne.symm hik)] at hk2
    have hr2 := h r hr
    rw [rowSum_update] at hr2
    by_cases hri : r = i
    · subst hri
      simp only [if_true] at hr2
      rw [hk2] at hr2
      linarith
    · simp only [if_neg hri] at hr2
      exact hr2
  · intro h r hr
    rw [rowSum_update]
    by_cases hri : r = i
    · subst hri
      simp only [if_true]
      rw [h r hr, h k hk]
      ring
    · simp only [if_neg hri]
      exact h r hr

theorem satisfies_eliminateRows (n : Nat) (v : Nat → ℚ) (t : ℚ) (k : Nat) (hk : k < n)
    (is : List Nat) :
    ∀ A : Nat → Nat → ℚ, (∀ i ∈ is, i ≠ k) →
      (Satisfies (eliminateRows k is A) n v t ↔ Satisfies A n v t) := by
  induction is with
  | nil => intro A _; rfl
  | cons i rest ih =>
    intro A h
    simp only [eliminateRows]
    rw [ih _ (fun i2 hi2 => h i2 (List.mem_cons_of_mem _ hi2))]
    exact satisfies_update A n v t i k _ (h i (List.mem_cons_self _ _)) hk

theorem satisfies_swapRows (A : Nat → Nat → ℚ) (n : Nat) (v : Nat → ℚ) (t : ℚ) (k p : Nat)
    (hk : k < n) (hp : p < n) :
    Satisfies (swapRows A k p) n v t ↔ Satisfies A n v t := by
  have hrow : ∀ r, rowSum (swapRows A k p) n v r
      = rowSum A n v (if r = k then p else if r = p then k else r) := by
    intro r
    unfold rowSum swapRows
    apply Finset.sum_congr rfl
    intro j _
    by_cases h1 : r = k
    · simp only [if_pos h1]
    · by_cases h2 : r = p
      · simp only [if_neg h1, if_pos h2]
      · simp only [if_neg h1, if_neg h2]
  have hrhs : ∀ r, swapRows A k p r n = A (if r = k then p else if r = p then k else r) n := by
    intro r
    unfold swapRows
    by_cases h1 : r = k
    · simp only [if_pos h1]
    · by_cases h2 : r = p
      · simp only [if_neg h1, if_pos h2]
      · simp only [if_neg h1, if_neg h2]
  unfold Satisfies
  constructor
  · intro h r hr
    have := h (if r = k then p else if r = p then k else r) (by split_ifs <;> assumption)
    rw [hrow, hrhs] at this
    by_cases h1 : r = k
    · subst h1
      by_cases h2 : p = r
      · subst h2
        simpa using this
      · simpa [h2] using this
    · by_cases h2 : r = p
      · subst h2
        simpa [h1] using this
      · simpa [h1, h2] using this
  · intro h r hr
    rw [hrow, hrhs]
    exact h _ (by split_ifs <;> assumption)

theorem eliminateRows_apply (k : Nat) (is : List Nat) :
    ∀ A : Nat → Nat → ℚ, is.Nodup → k ∉ is → ∀ r j,
      eliminateRows k is A r j
        = if r ∈ is then A r j - A r k / A k k * A k j else A r j := by
  induction is with
  | nil => intro A _ _ r j; simp [eliminateRows]
  | cons i rest ih =>
    intro A hnd hk r j
    rw [List.nodup_cons] at hnd
    have hki : k ≠ i := fun h => hk (by rw [h]; exact List.mem_cons_self _ _)
    have hkr : k ∉ rest := fun h => hk (List.mem_cons_of_mem _ h)
    simp only [eliminateRows]
    rw [ih _ hnd.2 hkr]
    by_cases hr : r ∈ rest
    · have hri : r ≠ i := fun h => hnd.1 (by rw [← h]; exact hr)
      simp only [if_pos hr, if_neg hri, if_neg hki, List.mem_cons, hr, or_true, if_true]
    · by_cases hri : r = i
      · subst hri
        simp only [if_neg hr, List.mem_cons, true_or, if_true]
      · simp only [if_neg hr, if_neg hri, List.mem_cons, hri, hr, or_self, if_false]

theorem findPivot_mem (A : Nat → Nat → ℚ) (k : Nat) (is : List Nat) :
    ∀ (p : Nat) (m : ℚ), findPivot A k is p m = p ∨ findPivot A k is p m ∈ is := by
  induction is with
  | nil => intro p m; exact Or.inl rfl
  | cons i rest ih =>
    intro p m
    simp only [findPivot]
    split
    · rcases ih i |A i k| with h | h
      · exact Or.inr (by rw [h]; exact List.mem_cons_self _ _)
      · exact Or.inr (List.mem_cons_of_mem _ h)
    · rcases ih p m with h | h
      · exact Or.inl h
      · exact Or.inr (List.mem_cons_of_mem _ h)

theorem findPivot_range (A : Nat → Nat → ℚ) (n k : Nat) (hk : k < n) (m : ℚ) :
    k ≤ findPivot A k (List.range' (k + 1) (n - (k + 1))) k m
    ∧ findPivot A k (List.range' (k + 1) (n - (k + 1))) k m < n := by
  rcases findPivot_mem A k (List.range' (k + 1) (n - (k + 1))) k m with h | h
  · rw [h]
    exact ⟨le_refl _, hk⟩
  · rw [List.mem_range'_1] at h
    omega

/-! ## The Gaussian solver: back substitution -/

theorem rowSum_split (A : Nat → Nat → ℚ) (n : Nat) (v : Nat → ℚ) (i : Nat) (hi : i < n) :
    rowSum A n v i
      = Finset.sum (Finset.Ico 0 i) (fun j => A i j * v j) + (A i i * v i
        + Finset.sum (Finset.Ico (i + 1) n) (fun j => A i j * v j)) := by
  unfold rowSum
  rw [Finset.range_eq_Ico, ← Finset.sum_Ico_consecutive _ (Nat.zero_le i) (le_of_lt hi),
    Finset.sum_eq_sum_Ico_succ_bot hi]

theorem rowSum_reduced (A : Nat → Nat → ℚ) (n : Nat) (v : Nat → ℚ) (i : Nat) (hi : i < n)
    (hA : Reduced A n n) :
    rowSum A n v i
      = A i i * v i + Finset.sum (Finset.Ico (i + 1) n) (fun j => A i j * v j) := by
  rw [rowSum_split A n v i hi]
  have h0 : Finset.sum (Finset.Ico 0 i) (fun j => A i j * v j) = 0 := by
    apply Finset.sum_eq_zero
    intro j hj
    rw [Finset.mem_Ico] at hj
    rw [hA.1 j (by omega) i hj.2 hi, zero_mul]
  rw [h0, zero_add]

theorem foldl_range'_sum (f : Nat → ℚ) (a : Nat) :
    ∀ len : Nat, (List.range' a len).foldl (fun sum j => sum + f j) 0
      = Finset.sum (Finset.Ico a (a + len)) f := by
  intro len
  induction len with
  | zero => simp
  | succ len ih =>
    rw [List.range'_1_concat, List.foldl_append, ih]
    simp only [List.foldl_cons, List.foldl_nil]
    rw [← Nat.add_assoc, Finset.sum_Ico_succ_top (Nat.le_add_right a len)]

theorem backSubstitution_spec (A : Nat → Nat → ℚ) (n : Nat) :
    ∀ (m : Nat), m ≤ n → ∀ solution : Nat → ℚ,
      (∀ i, m ≤ i → backSubstitution A n (List.range m).reverse solution i = solution i)
      ∧ (∀ i, i < m → backSubstitution A n (List.range m).reverse solution i
          = (A i n - Finset.sum (Finset.Ico (i + 1) n)
              (fun j => A i j * backSubstitution A n (List.range m).reverse solution j))
            / A i i) := by
  intro m
  induction m with
  | zero =>
    intro _ solution
    exact ⟨fun i _ => rfl, fun i hi => absurd hi (Nat.not_lt_zero i)⟩
  | succ m ih =>
    intro hm solution
    rw [List.range_succ, List.reverse_append, List.reverse_singleton, List.singleton_append]
    simp only [backSubstitution]
    generalize hs : (fun r => if r = m then
      (A m n - (List.range' (m + 1) (n - (m + 1))).foldl
        (fun sum j => sum + A m j * solution j) 0) / A m m else solution r) = s2
    have hs2 : ∀ r, s2 r = if r = m then
        (A m n - Finset.sum (Finset.Ico (m + 1) n) (fun j => A m j * solution j)) / A m m
        else solution r := by
      intro r
      rw [← hs, foldl_range'_sum (fun j => A m j * solution j)]
      have : m + 1 + (n - (m + 1)) = n := by omega
      rw [this]
    obtain ⟨h1, h2⟩ := ih (by omega) s2
    have hkeep : ∀ i, m + 1 ≤ i → backSubstitution A n (List.range m).reverse s2 i
        = solution i := by
      intro i hi
      rw [h1 i (by omega), hs2, if_neg (by omega)]
    refine ⟨hkeep, ?_⟩
    intro i hi
    by_cases him : i = m
    · subst him
      rw [h1 i (le_refl _), hs2, if_pos rfl]
      congr 2
      apply Finset.sum_congr rfl
      intro j hj
      rw [Finset.mem_Ico] at hj
      rw [hkeep j hj.1]
    · exact h2 i (by omega)

theorem backSubstitution_satisfies (A : Nat → Nat → ℚ) (n : Nat) (hA : Reduced A n n) :
    Satisfies A n (backSubstitution A n (List.range n).reverse (fun _ => 0)) 1 := by
  intro i hi
  rw [rowSum_reduced A n _ i hi hA, one_mul]
  have h := (backSubstitution_spec A n n (le_refl _) (fun _ => 0)).2 i hi
  generalize backSubstitution A n (List.range n).reverse (fun _ => 0) = x at h ⊢
  rw [h]
  have hd := hA.2 i hi
  field_simp

theorem reduced_kernel (A : Nat → Nat → ℚ) (n : Nat) (v : Nat → ℚ) (hA : Reduced A n n)
    (hv : Satisfies A n v 0) : ∀ i, i < n → v i = 0 := by
  have key : ∀ d i, i < n → n - i ≤ d → v i = 0 := by
    intro d
    induction d with
    | zero => intro i hi h; omega
    | succ d ih =>
      intro i hi h
      have hrow := hv i hi
      rw [rowSum_reduced A n v i hi hA, zero_mul] at hrow
      have h0 : Finset.sum (Finset.Ico (i + 1) n) (fun j => A i j * v j) = 0 := by
        apply Finset.sum_eq_zero
        intro j hj
        rw [Finset.mem_Ico] at hj
        rw [ih j hj.2 (by omega), mul_zero]
      rw [h0, add_zero] at hrow
      rcases mul_eq_zero.mp hrow with h1 | h1
      · exact absurd h1 (hA.2 i hi)
      · exact h1
  intro i hi
  exact key (n - i) i hi (le_refl _)

/-! ## The Gaussian solver: forward elimination -/

theorem reduced_swapRows (A : Nat → Nat → ℚ) (n k p : Nat) (hkp : k ≤ p) (hp : p < n)
    (hA : Reduced A n k) : Reduced (swapRows A k p) n k := by
  constructor
  · intro j hj i hji hi
    unfold swapRows
    by_cases h1 : i = k
    · rw [if_pos h1]
      exact hA.1 j hj p (by omega) hp
    · rw [if_neg h1]
      by_cases h2 : i = p
      · rw [if_pos h2]
        exact hA.1 j hj k hj (by omega)
      · rw [if_neg h2]
        exact hA.1 j hj i hji hi
  · intro j hj
    unfold swapRows
    rw [if_neg (by omega), if_neg (by omega)]
    exact hA.2 j hj

theorem reduced_eliminateRows (A : Nat → Nat → ℚ) (n k : Nat) (hA : Reduced A n k)
    (hp : A k k ≠ 0) :
    Reduced (eliminateRows k (List.range' (k + 1) (n - (k + 1))) A) n (k + 1) := by
  have happ := eliminateRows_apply k (List.range' (k + 1) (n - (k + 1))) A
    (List.nodup_range' _ _) (by rw [List.mem_range'_1]; omega)
  constructor
  · intro j hj i hji hi
    rw [happ]
    by_cases hik : k < i
    · rw [if_pos (by rw [List.mem_range'_1]; omega)]
      by_cases hjk : j = k
      · subst hjk
        field_simp
      · rw [hA.1 j (by omega) i hji hi, hA.1 j (by omega) k (by omega) (by omega)]
        ring
    · rw [if_neg (by rw [List.mem_range'_1]; omega)]
      exact hA.1 j (by omega) i hji hi
  · intro j hj
    rw [happ, if_neg (by rw [List.mem_range'_1]; omega)]
    by_cases hjk : j = k
    · rw [hjk]
      exact hp
    · exact hA.2 j (by omega)

theorem forwardElimination_error (n : Nat) (epsilon : ℚ) (ks : List Nat) :
    ∀ (A : Nat → Nat → ℚ) (e : SolveError),
      forwardElimination n epsilon ks A = .error e → e = .singularMatrix := by
  induction ks with
  | nil => intro A e h; simp [forwardElimination] at h
  | cons k rest ih =>
    intro A e h
    simp only [forwardElimination] at h
    generalize (if findPivot A k (List.range' (k + 1) (n - (k + 1))) k |A k k| ≠ k
      then swapRows A k (findPivot A k (List.range' (k + 1) (n - (k + 1))) k |A k k|)
      else A) = A1 at h
    split at h
    · injection h with h
      exact h.symm
    · exact ih _ e h

theorem forwardElimination_spec (n : Nat) (epsilon : ℚ) (heps : 0 < epsilon) :
    ∀ (m k : Nat) (A B : Nat → Nat → ℚ), k + m < n → Reduced A n k →
      forwardElimination n epsilon (List.range' k m) A = .ok B →
      Reduced B n (k + m) ∧ ∀ v t, Satisfies B n v t ↔ Satisfies A n v t := by
  intro m
  induction m with
  | zero =>
    intro k A B _ hA h
    simp only [List.range'_zero, forwardElimination] at h
    injection h with h
    subst h
    exact ⟨hA, fun _ _ => Iff.rfl⟩
  | succ m ih =>
    intro k A B hk hA h
    rw [List.range'_succ] at h
    simp only [forwardElimination] at h
    obtain ⟨hp1, hp2⟩ := findPivot_range A n k (by omega) |A k k|
    generalize findPivot A k (List.range' (k + 1) (n - (k + 1))) k |A k k| = p at h hp1 hp2
    have hA1 : Reduced (if p ≠ k then swapRows A k p else A) n k := by
      split
      · exact reduced_swapRows A n k p hp1 hp2 hA
      · exact hA
    have hS1 : ∀ v t, Satisfies (if p ≠ k then swapRows A k p else A) n v t
        ↔ Satisfies A n v t := by
      intro v t
      split
      · exact satisfies_swapRows A n v t k p (by omega) hp2
      · exact Iff.rfl
    generalize (if p ≠ k then swapRows A k p else A) = A1 at h hA1 hS1
    split at h
    · exact absurd h (by simp)
    · rename_i hpiv
      have hne : A1 k k ≠ 0 := by
        intro h0
        rw [h0, abs_zero] at hpiv
        exact hpiv heps
      obtain ⟨hB, hS⟩ := ih (k + 1) _ B (by omega) (reduced_eliminateRows A1 n k hA1 hne) h
      have hkm : k + 1 + m = k + (m + 1) := by omega
      rw [hkm] at hB
      refine ⟨hB, ?_⟩
      intro v t
      rw [hS v t, satisfies_eliminateRows n v t k (by omega) _ A1
        (by intro i hi; rw [List.mem_range'_1] at hi; omega)]
      exact hS1 v t

theorem solve_ok (M : MatrixXd) (epsilon : ℚ) (heps : 0 < epsilon) (hn : 1 ≤ M.rows)
    (x : Nat → ℚ) (h : solve M epsilon = .ok x) :
    ∃ B, Reduced B M.rows M.rows ∧ (∀ v t, Satisfies B M.rows v t ↔ Satisfies M.coeff M.rows v t)
      ∧ x = backSubstitution B M.rows (List.range M.rows).reverse (fun _ => 0) := by
  unfold solve at h
  dsimp only at h
  split at h
  · exact absurd h (by simp)
  · cases hf : forwardElimination M.rows epsilon (List.range (M.rows - 1)) M.coeff with
    | error e => rw [hf] at h; exact absurd h (by simp)
    | ok B =>
      rw [hf] at h
      dsimp only at h
      split at h
      · exact absurd h (by simp)
      · rename_i hlast
        injection h with h
        rw [List.range_eq_range'] at hf
        obtain ⟨hB, hS⟩ := forwardElimination_spec M.rows epsilon heps (M.rows - 1) 0 M.coeff B
          (by omega) ⟨fun j hj => absurd hj (Nat.not_lt_zero j),
            fun j hj => absurd hj (Nat.not_lt_zero j)⟩ hf
        rw [Nat.zero_add] at hB
        have hne : B (M.rows - 1) (M.rows - 1) ≠ 0 := by
          intro h0
          rw [h0, abs_zero] at hlast
          exact hlast heps
        refine ⟨B, ⟨fun j hj i hji hi => hB.1 j (by omega) i hji hi, ?_⟩, hS, h.symm⟩
        intro j hj
        by_cases hj2 : j < M.rows - 1
        · exact hB.2 j hj2
        · have : j = M.rows - 1 := by omega
          rw [this]
          exact hne

theorem solve_error (M : MatrixXd) (epsilon : ℚ) (hc : M.cols = M.rows + 1) (e : SolveError)
    (h : solve M epsilon = .error e) : e = .singularMatrix := by
  unfold solve at h
  dsimp only at h
  rw [if_neg (by rw [hc]; simp)] at h
  cases hf : forwardElimination M.rows epsilon (List.range (M.rows - 1)) M.coeff with
  | error e2 =>
    rw [hf] at h
    dsimp only at h
    injection h with h
    rw [← h]
    exact forwardElimination_error _ _ _ _ _ hf
  | ok B =>
    rw [hf] at h
    dsimp only at h
    split at h
    · injection h with h
      exact h.symm
    · exact absurd h (by simp)

/-! ## The Gaussian solver: singular systems and sample evaluations -/

theorem kernel_vector (M : MatrixXd)
    (hsing : Matrix.det (Matrix.of (fun (i j : Fin M.rows) => M.coeff i j)) = 0) :
    ∃ v : Nat → ℚ, Satisfies M.coeff M.rows v 0 ∧ ∃ i, i < M.rows ∧ v i ≠ 0 := by
  obtain ⟨w, hw0, hw⟩ := Matrix.exists_mulVec_eq_zero_iff.mpr hsing
  refine ⟨fun j => if h : j < M.rows then w ⟨j, h⟩ else 0, ?_, ?_⟩
  · intro i hi
    rw [zero_mul]
    have hrow := congrFun hw ⟨i, hi⟩
    simp only [Matrix.mulVec, Matrix.dotProduct, Matrix.of_apply, Pi.zero_apply] at hrow
    unfold rowSum
    rw [← Fin.sum_univ_eq_sum_range (fun j => M.coeff i j * (if h : j < M.rows then w ⟨j, h⟩ else 0))
      M.rows]
    rw [← hrow]
    apply Finset.sum_congr rfl
    intro j _
    dsimp only
    rw [dif_pos j.isLt]
  · by_contra hall
    apply hw0
    funext i
    by_contra hi
    apply hall
    refine ⟨i.val, i.isLt, ?_⟩
    dsimp only
    rw [dif_pos i.isLt]
    exact hi

theorem solve_simple_eval :
    solve (ofRows [[2, 1, 5], [1, 3, 10]]) (1 / 10 ^ 10)
      = .ok (backSubstitution (eliminateRows 0 [1] (ofRows [[2, 1, 5], [1, 3, 10]]).coeff) 2
          [1, 0] (fun _ => 0)) := by
  have h00 : (ofRows [[2, 1, 5], [1, 3, 10]]).coeff 0 0 = 2 := rfl
  have h10 : (ofRows [[2, 1, 5], [1, 3, 10]]).coeff 1 0 = 1 := rfl
  have h01 : (ofRows [[2, 1, 5], [1, 3, 10]]).coeff 0 1 = 1 := rfl
  have h11 : (ofRows [[2, 1, 5], [1, 3, 10]]).coeff 1 1 = 3 := rfl
  have hr : (ofRows [[2, 1, 5], [1, 3, 10]]).rows = 2 := rfl
  have hc : (ofRows [[2, 1, 5], [1, 3, 10]]).cols = 3 := rfl
  generalize ofRows [[2, 1, 5], [1, 3, 10]] = M at *
  unfold solve
  simp only [hr, hc]
  norm_num [forwardElimination, findPivot, List.range, List.range.loop, List.range', h00, h10,
    h01, h11, eliminateRows]
  intro h
  rw [abs_of_pos (by norm_num)] at h
  norm_num at h

theorem solve_simple_values :
    backSubstitution (eliminateRows 0 [1] (ofRows [[2, 1, 5], [1, 3, 10]]).coeff) 2
        [1, 0] (fun _ => 0) 0 = 1
    ∧ backSubstitution (eliminateRows 0 [1] (ofRows [[2, 1, 5], [1, 3, 10]]).coeff) 2
        [1, 0] (fun _ => 0) 1 = 3 := by
  have h00 : (ofRows [[2, 1, 5], [1, 3, 10]]).coeff 0 0 = 2 := rfl
  have h10 : (ofRows [[2, 1, 5], [1, 3, 10]]).coeff 1 0 = 1 := rfl
  have h01 : (ofRows [[2, 1, 5], [1, 3, 10]]).coeff 0 1 = 1 := rfl
  have h11 : (ofRows [[2, 1, 5], [1, 3, 10]]).coeff 1 1 = 3 := rfl
  have h02 : (ofRows [[2, 1, 5], [1, 3, 10]]).coeff 0 2 = 5 := rfl
  have h12 : (ofRows [[2, 1, 5], [1, 3, 10]]).coeff 1 2 = 10 := rfl
  generalize (ofRows [[2, 1, 5], [1, 3, 10]]).coeff = A at *
  constructor <;>
    norm_num [backSubstitution, eliminateRows, List.range', h00, h10, h01, h11, h02, h12]

theorem singular_sample_det :
    Matrix.det (Matrix.of (fun (i j : Fin (ofRows [[1, 1, 2], [1, 1, 3]]).rows) =>
      (ofRows [[1, 1, 2], [1, 1, 3]]).coeff i j)) = 0 := by
  show Matrix.det (Matrix.of (fun (i j : Fin 2) =>
      (ofRows [[1, 1, 2], [1, 1, 3]]).coeff i j)) = 0
  have h00 : (ofRows [[1, 1, 2], [1, 1, 3]]).coeff 0 0 = 1 := rfl
  have h10 : (ofRows [[1, 1, 2], [1, 1, 3]]).coeff 1 0 = 1 := rfl
  have h01 : (ofRows [[1, 1, 2], [1, 1, 3]]).coeff 0 1 = 1 := rfl
  have h11 : (ofRows [[1, 1, 2], [1, 1, 3]]).coeff 1 1 = 1 := rfl
  rw [Matrix.det_fin_two]
  simp only [Matrix.of_apply, Fin.val_zero, Fin.val_one, h00, h10, h01, h11]
  norm_num

end GaussianSolver

/-! ## The claims -/

namespace shannon_fano

/-- C1 (round trip): for every byte sequence `S` whose length fits the 64-bit Original Length,
`encode` succeeds on `S`, and `decode` run (on any codec object) on the payload and the
dictionary that `encode` wrote succeeds and writes exactly `S`. The empty sequence and
sequences of one repeated byte value are among them. -/
theorem encode_decode_roundtrip (self self2 : ShannonFano) (S : List Byte)
    (h : S.length < 2 ^ 64) :
    (∃ st, (self.encode S).status = .ok st)
    ∧ (self2.decode (self.encode S).outputFile (self.encode S).dictFile).outputFile = S
    ∧ (∃ st2, (self2.decode (self.encode S).outputFile (self.encode S).dictFile).status
        = .ok st2) := by
  obtain ⟨st, st2, rest, h1, h2⟩ := decode_encode self self2 S h
  exact ⟨⟨st, h1⟩, by rw [h2], ⟨st2, by rw [h2]⟩⟩

/-- Witness of C1 at the inputs "AAAB", the empty input and "CCC". -/
theorem encode_decode_roundtrip_witness :
    ([65, 65, 65, 66] : List Byte).length < 2 ^ 64
    ∧ (ShannonFano.new.decode (ShannonFano.new.encode [65, 65, 65, 66]).outputFile
        (ShannonFano.new.encode [65, 65, 65, 66]).dictFile).outputFile = [65, 65, 65, 66]
    ∧ (ShannonFano.new.decode (ShannonFano.new.encode []).outputFile
        (ShannonFano.new.encode []).dictFile).outputFile = []
    ∧ (ShannonFano.new.decode (ShannonFano.new.encode [67, 67, 67]).outputFile
        (ShannonFano.new.encode [67, 67, 67]).dictFile).outputFile = [67, 67, 67] :=
  ⟨by decide,
    (encode_decode_roundtrip ShannonFano.new ShannonFano.new [65, 65, 65, 66] (by decide)).2.1,
    (encode_decode_roundtrip ShannonFano.new ShannonFano.new [] (by decide)).2.1,
    (encode_decode_roundtrip ShannonFano.new ShannonFano.new [67, 67, 67] (by decide)).2.1⟩

/-- C2 (prefix-freedom): in the code table `buildCodesInternal` builds from any frequency
table, the codes of two distinct symbols are distinct and neither is a prefix of the
other. -/
theorem code_table_free_of_prefixes (frequencyMap : ByteMap Nat) (a b : Byte) (ca cb : Str)
    (hab : a ≠ b) (ha : (buildCodesInternal frequencyMap).find a = some ca)
    (hb : (buildCodesInternal frequencyMap).find b = some cb) :
    ¬ ca <+: cb ∧ ca ≠ cb := by
  have h := buildCodesInternal_not_pfx frequencyMap a b ca cb hab ha hb
  exact ⟨h, fun heq => h (by rw [heq])⟩

set_option maxRecDepth 1000000 in
/-- Witness of C2 on the frequency table of "AAAB": 'A' has the code "0" and 'B' the
code "1". -/
theorem code_table_free_of_prefixes_witness :
    (65 : Byte) ≠ 66
    ∧ (buildCodesInternal (buildFrequencyMap [65, 65, 65, 66]).1).find 65 = some [chr0]
    ∧ (buildCodesInternal (buildFrequencyMap [65, 65, 65, 66]).1).find 66 = some [chr1]
    ∧ (¬ [chr0] <+: [chr1] ∧ [chr0] ≠ [chr1]) :=
  ⟨by decide, by decide, by decide,
    code_table_free_of_prefixes (buildFrequencyMap [65, 65, 65, 66]).1 65 66 [chr0] [chr1]
      (by decide) (by decide) (by decide)⟩

/-- C3 (split selection): in a call of `shannonFanoRecursive` on a range of `n ≥ 2` symbols,
all of frequency at least 1 and of total frequency below `2 ^ 63`, the two recursive calls
get the first `k` symbols and the rest, where the split index `k = splitIndex syms` has
`1 ≤ k ≤ n - 1`, makes the absolute difference of the two cumulative frequencies minimal
among all split points `1 .. n - 1` (so the `break` of the scan skips no better split),
and is the first split point to reach that minimum. -/
theorem split_is_first_minimum (syms : List SymbolInfo) (hn : 2 ≤ syms.length)
    (hpos : ∀ s ∈ syms, 1 ≤ s.frequency)
    (hT : (syms.map SymbolInfo.frequency).sum < 2 ^ 63) :
    (∀ fuel currentCode codeTable,
      shannonFanoRecursive (fuel + 1) syms currentCode codeTable
        = shannonFanoRecursive fuel (syms.drop (splitIndex syms)) (currentCode ++ [chr1])
            (shannonFanoRecursive fuel (syms.take (splitIndex syms)) (currentCode ++ [chr0])
              codeTable))
    ∧ 1 ≤ splitIndex syms ∧ splitIndex syms ≤ syms.length - 1
    ∧ (∀ j, 1 ≤ j → j ≤ syms.length - 1 →
        splitDiff syms (splitIndex syms) ≤ splitDiff syms j)
    ∧ (∀ j, 1 ≤ j → j < splitIndex syms →
        splitDiff syms (splitIndex syms) < splitDiff syms j) := by
  obtain ⟨h1, h2, h3, h4, _⟩ := splitIndex_spec syms hpos hT hn
  refine ⟨?_, h1, h2, h3, h4⟩
  intro fuel currentCode codeTable
  match syms, hn with
  | s1 :: s2 :: rest, _ => rfl

/-- Witness of C3 on the frequencies 5, 5, 5, 4, 4, 4, where the split index is 3. -/
theorem split_is_first_minimum_witness :
    2 ≤ skewRange.length
    ∧ (∀ s ∈ skewRange, 1 ≤ s.frequency)
    ∧ (skewRange.map SymbolInfo.frequency).sum < 2 ^ 63
    ∧ splitIndex skewRange = 3
    ∧ (∀ j, 1 ≤ j → j ≤ skewRange.length - 1 →
        splitDiff skewRange (splitIndex skewRange) ≤ splitDiff skewRange j)
    ∧ (∀ j, 1 ≤ j → j < splitIndex skewRange →
        splitDiff skewRange (splitIndex skewRange) < splitDiff skewRange j) :=
  ⟨by decide, by decide, by decide, by decide,
    (split_is_first_minimum skewRange (by decide) (by decide) (by decide)).2.2.2.1,
    (split_is_first_minimum skewRange (by decide) (by decide) (by decide)).2.2.2.2⟩

/-- Counterexample to C4 as stated: the table with the single entry 0 -> 256 characters '0'
is a map to non-empty strings of '0' and '1', and 1 is a 64-bit Original Length, yet
`readDictionary` rejects what `writeDictionary` wrote for them: the length byte of the
entry is 256 modulo 256, that is 0. -/
theorem dictionary_roundtrip_fails_on_long_code :
    (∀ k c, longCodeTable.find k = some c → c ≠ [] ∧ ∀ x ∈ c, x = chr0 ∨ x = chr1)
    ∧ 1 < 2 ^ 64
    ∧ writeDictionary longCodeTable 1 = [1, 0, 0, 0, 0, 0, 0, 0, 1, 0, 0, 0]
    ∧ readDictionary (writeDictionary longCodeTable 1) = .error .invalidZeroCodeLength := by
  refine ⟨?_, by norm_num, writeDictionary_longCodeTable, ?_⟩
  · intro k c h
    have hk : longCodeTable.find k = if k = 0 then some (List.replicate 256 chr0) else none :=
      rfl
    rw [hk] at h
    split at h
    · cases h
      refine ⟨?_, fun x hx => Or.inl (List.eq_of_mem_replicate hx)⟩
      intro hnil
      have hlen := congrArg List.length hnil
      rw [List.length_replicate] at hlen
      cases hlen
    · cases h
  · rw [writeDictionary_longCodeTable]
    rfl

/-- C4 as amended (dictionary round trip): for every code table whose codes are between 1
and 255 characters long and every 64-bit Original Length `L`, `readDictionary` applied to
the bytes `writeDictionary` writes for them succeeds and returns exactly that table and
`L`. -/
theorem dictionary_roundtrip (codeTable : ByteMap Str) (originalFileSize : Nat)
    (hL : originalFileSize < 2 ^ 64)
    (hT : ∀ k c, codeTable.find k = some c → 1 ≤ c.length ∧ c.length ≤ 255) :
    readDictionary (writeDictionary codeTable originalFileSize)
      = .ok (codeTable, originalFileSize) :=
  readDictionary_writeDictionary codeTable originalFileSize hL
    (fun k c h => ⟨by have := (hT k c h).1; omega, by have := (hT k c h).2; omega⟩)

/-- Witness of the amended C4 on the code table of "AAAB" with Original Length 4. -/
theorem dictionary_roundtrip_witness :
    4 < 2 ^ 64
    ∧ (∀ k c, sampleTable.find k = some c → 1 ≤ c.length ∧ c.length ≤ 255)
    ∧ readDictionary (writeDictionary sampleTable 4) = .ok (sampleTable, 4) :=
  ⟨by norm_num, sampleTable_lengths,
    dictionary_roundtrip sampleTable 4 (by norm_num) sampleTable_lengths⟩

/-- C5 (single distinct byte): for `N ≥ 1` repetitions of one byte value `s`, with `N`
below `2 ^ 64`, `encode` succeeds, its code table has the one entry `s -> "0"`, and the
dictionary it writes is the 8-byte Original Length `N`, the Entry Count 1 and the record
`s, 1, '0'`. -/
theorem single_symbol_code (self : ShannonFano) (s : Byte) (N : Nat) (h1 : 1 ≤ N)
    (h2 : N < 2 ^ 64) :
    (∃ st, (self.encode (List.replicate N s)).status = .ok st
      ∧ st.codeTable.entries = [(s, [chr0])])
    ∧ (self.encode (List.replicate N s)).dictFile = toBytes 8 N ++ toBytes 2 1 ++ [s, 1, chr0]
    ∧ ofBytes ((self.encode (List.replicate N s)).dictFile.take 8) = N
    ∧ ofBytes (((self.encode (List.replicate N s)).dictFile.drop 8).take 2) = 1 := by
  obtain ⟨out, he⟩ := encode_replicate self s N h1
  have hentries : (ByteMap.empty.insert s [chr0] : ByteMap Str).entries = [(s, [chr0])] := by
    apply ByteMap.entries_single
    intro k
    rfl
  have h8 : (toBytes 8 N).length = 8 := toBytes_length 8 N
  rw [he, Nat.mod_eq_of_lt h2]
  refine ⟨⟨_, rfl, hentries⟩, rfl, ?_, ?_⟩
  · dsimp only
    rw [List.append_assoc, List.take_left' h8, ofBytes_toBytes]
    exact Nat.mod_eq_of_lt (by norm_num at h2 ⊢; exact h2)
  · dsimp only
    rw [List.append_assoc, List.drop_left' h8]
    rfl

/-- Witness of C5 at three repetitions of the byte 'C'. -/
theorem single_symbol_code_witness :
    (1 ≤ 3 ∧ 3 < 2 ^ 64)
    ∧ (ShannonFano.new.encode (List.replicate 3 67)).dictFile
        = toBytes 8 3 ++ toBytes 2 1 ++ [67, 1, chr0] :=
  ⟨by decide, (single_symbol_code ShannonFano.new 67 3 (by decide) (by decide)).2.1⟩

/-- C6 (empty input): encoding the empty input succeeds, writes no payload byte and writes
the dictionary of ten zero bytes (Original Length 0, Entry Count 0, no entry); `decode` of
that dictionary with any payload succeeds and writes nothing. -/
theorem empty_input (self self2 : ShannonFano) (payload : List Byte) :
    (self.encode []).outputFile = []
    ∧ (self.encode []).dictFile = List.replicate 10 0
    ∧ (∃ st, (self.encode []).status = .ok st)
    ∧ (self2.decode payload (self.encode []).dictFile).outputFile = []
    ∧ (∃ st2, (self2.decode payload (self.encode []).dictFile).status = .ok st2) := by
  rw [encode_nil, decode_zero self2 payload _ _ readDictionary_empty]
  exact ⟨rfl, rfl, ⟨_, rfl⟩, rfl, ⟨_, rfl⟩⟩

/-- Counterexample to C7 as stated: in the code table built for an input with the byte counts
5, 5, 5, 4, 4, 4 the byte 2 (count 5) gets the 3-bit code "011" and the less frequent byte 3
(count 4) the 2-bit code "10". -/
theorem code_length_not_monotone :
    (buildFrequencyMap skewInput).1.find 2 = some 5
    ∧ (buildFrequencyMap skewInput).1.find 3 = some 4
    ∧ (buildCodesInternal (buildFrequencyMap skewInput).1).find 2 = some [chr0, chr1, chr1]
    ∧ (buildCodesInternal (buildFrequencyMap skewInput).1).find 3 = some [chr1, chr0]
    ∧ ¬ ([chr0, chr1, chr1].length ≤ [chr1, chr0].length) :=
  ⟨skewInput_counts.1, skewInput_counts.2, skewInput_codes.1, skewInput_codes.2, by decide⟩

/-- C7 as amended: in every code table the Code Builder produces for a frequency table of
at most five symbols (each count at least 1, the counts adding up to less than `2 ^ 63`,
as for every table the frequency analyzer builds), more frequent symbols get codes that
are no longer than those of less frequent symbols: for all symbols `a`, `b` of the table,
`frequency a > frequency b` implies `length (code a) ≤ length (code b)`. -/
theorem frequent_symbol_code_not_longer (frequencyMap : ByteMap Nat) (a b : Byte)
    (fa fb : Nat) (ca cb : Str) (hn : frequencyMap.size ≤ 5)
    (hpos : ∀ k f, frequencyMap.find k = some f → 1 ≤ f)
    (hT : (frequencyMap.entries.map Prod.snd).sum < 2 ^ 63)
    (ha : frequencyMap.find a = some fa) (hb : frequencyMap.find b = some fb)
    (hab : fa > fb)
    (hca : (buildCodesInternal frequencyMap).find a = some ca)
    (hcb : (buildCodesInternal frequencyMap).find b = some cb) :
    ca.length ≤ cb.length := by
  have hne : (a, ca) ≠ (b, cb) := by
    intro h
    have h1 : a = b := congrArg Prod.fst h
    rw [h1, hb] at ha
    have := Option.some.inj ha
    omega
  have hord := (builderCodes_ordered frequencyMap).and
    (builderCodes_lengths_small frequencyMap hn hpos hT)
  have hsym : (builderCodes frequencyMap).Pairwise (fun p q =>
      (SymbolInfo.lt (infoOf frequencyMap q.1) (infoOf frequencyMap p.1) = false
          ∧ p.2.length ≤ q.2.length)
        ∨ (SymbolInfo.lt (infoOf frequencyMap p.1) (infoOf frequencyMap q.1) = false
          ∧ q.2.length ≤ p.2.length)) :=
    hord.imp (fun hpq => Or.inl ⟨hpq.1.1, hpq.2⟩)
  have hS : Symmetric (fun p q : Byte × Str =>
      (SymbolInfo.lt (infoOf frequencyMap q.1) (infoOf frequencyMap p.1) = false
          ∧ p.2.length ≤ q.2.length)
        ∨ (SymbolInfo.lt (infoOf frequencyMap p.1) (infoOf frequencyMap q.1) = false
          ∧ q.2.length ≤ p.2.length)) := by
    intro p q hpq
    exact hpq.symm
  rcases hsym.forall hS ((find_buildCodesInternal frequencyMap a ca).1 hca)
      ((find_buildCodesInternal frequencyMap b cb).1 hcb) hne with h | h
  · exact h.2
  · exfalso
    have hlt := (SymbolInfo.lt_eq_false_iff (infoOf frequencyMap a) (infoOf frequencyMap b)).1 h.1
    simp only [infoOf, ha, hb, Option.getD_some] at hlt
    omega

/-- Witness of the amended C7 on the frequency table of the input "AAABBC": 'A' (count
3) has the code "0" and 'C' (count 1) the code "11". -/
theorem frequent_symbol_code_not_longer_witness :
    (buildFrequencyMap [65, 65, 65, 66, 66, 67]).1.size ≤ 5
    ∧ (∀ k f, (buildFrequencyMap [65, 65, 65, 66, 66, 67]).1.find k = some f → 1 ≤ f)
    ∧ ((buildFrequencyMap [65, 65, 65, 66, 66, 67]).1.entries.map Prod.snd).sum < 2 ^ 63
    ∧ (buildFrequencyMap [65, 65, 65, 66, 66, 67]).1.find 65 = some 3
    ∧ (buildFrequencyMap [65, 65, 65, 66, 66, 67]).1.find 67 = some 1
    ∧ 3 > 1
    ∧ (buildCodesInternal (buildFrequencyMap [65, 65, 65, 66, 66, 67]).1).find 65
        = some [chr0]
    ∧ (buildCodesInternal (buildFrequencyMap [65, 65, 65, 66, 66, 67]).1).find 67
        = some [chr1, chr1]
    ∧ [chr0].length ≤ [chr1, chr1].length :=
  ⟨threeInput_facts.1, (frequencyMap_domain _ (by decide)).1,
    (frequencyMap_domain _ (by decide)).2, threeInput_facts.2.1, threeInput_facts.2.2.1,
    by decide, threeInput_facts.2.2.2.1, threeInput_facts.2.2.2.2,
    frequent_symbol_code_not_longer (buildFrequencyMap [65, 65, 65, 66, 66, 67]).1 65 67 3 1
      [chr0] [chr1, chr1] threeInput_facts.1 (frequencyMap_domain _ (by decide)).1
      (frequencyMap_domain _ (by decide)).2 threeInput_facts.2.1 threeInput_facts.2.2.1
      (by decide) threeInput_facts.2.2.2.1 threeInput_facts.2.2.2.2⟩

/-- C8 (symbols of the table): for every input `S`, `encode` succeeds, the symbols with an
entry in its code table are exactly the byte values occurring in `S`, and the Entry Count
in bytes 8 and 9 of the dictionary is the number of distinct byte values of `S`, which is
at most 256. -/
theorem code_table_symbols (self : ShannonFano) (S : List Byte) :
    (∃ st, (self.encode S).status = .ok st
      ∧ (∀ k, (st.codeTable.find k).isSome = true ↔ k ∈ S)
      ∧ st.codeTable.size = S.toFinset.card)
    ∧ ofBytes (((self.encode S).dictFile.drop 8).take 2) = S.toFinset.card
    ∧ S.toFinset.card ≤ 256 := by
  have key : ∀ ct : ByteMap Str, (∀ k, (ct.find k).isSome = true ↔ k ∈ S) → ∀ L,
      ct.size = S.toFinset.card
      ∧ ofBytes (((writeDictionary ct L).drop 8).take 2) = S.toFinset.card
      ∧ S.toFinset.card ≤ 256 := by
    intro ct hct L
    have hsz := ByteMap.size_eq_card ct S hct
    have hle := ct.size_le
    have h8 : (toBytes 8 L).length = 8 := toBytes_length 8 L
    have h2 : (toBytes 2 (ct.size % 2 ^ 16)).length = 2 := toBytes_length 2 _
    refine ⟨hsz, ?_, by omega⟩
    unfold writeDictionary
    rw [List.append_assoc, List.drop_left' h8, List.take_left' h2, ofBytes_toBytes, ← hsz]
    omega
  by_cases hS : S = []
  · subst hS
    have hct : ∀ k, ((ByteMap.empty : ByteMap Str).find k).isSome = true
        ↔ k ∈ ([] : List Byte) := by
      intro k
      simp [ByteMap.find_empty]
    obtain ⟨k1, k2, k3⟩ := key ByteMap.empty hct 0
    rw [encode_nil, ← writeDictionary_empty]
    exact ⟨⟨_, rfl, hct, k1⟩, k2, k3⟩
  · obtain ⟨out, pad, he, _⟩ := encode_cons self S hS
    have hct : ∀ k, ((buildCodesInternal (buildFrequencyMap S).1).find k).isSome = true
        ↔ k ∈ S := by
      intro k
      rw [isSome_find_buildCodesInternal, buildFrequencyMap_isSome]
    obtain ⟨k1, k2, k3⟩ := key _ hct (S.length % 2 ^ 64)
    rw [he]
    dsimp only
    refine ⟨⟨_, rfl, ?_, ?_⟩, k2, k3⟩
    · dsimp only
      exact hct
    · dsimp only
      exact k1

/-- C9 (shape of the codes): for every frequency table, every symbol of the table is assigned
a code, and every code the Code Builder assigns is a non-empty string of the characters
'0' and '1'. -/
theorem codes_are_nonempty_binary (frequencyMap : ByteMap Nat) :
    (∀ k, (frequencyMap.find k).isSome = true →
      ((buildCodesInternal frequencyMap).find k).isSome = true)
    ∧ (∀ k c, (buildCodesInternal frequencyMap).find k = some c →
      c ≠ [] ∧ ∀ x ∈ c, x = chr0 ∨ x = chr1) := by
  refine ⟨fun k hk => (isSome_find_buildCodesInternal frequencyMap k).2 hk, ?_⟩
  intro k c hc
  obtain ⟨h1, h2, _⟩ := buildCodesInternal_shape frequencyMap k c hc
  exact ⟨h1, h2⟩

/-- Counterexample to C10 as stated: for the table with the single entry 0 -> 256 characters
'0' and Original Length 1, `writeDictionary` writes 12 bytes, the record being the symbol 0
and the length byte 0 with no code character after it: the length byte is not the length of
the code, which is 256, and the 256 characters of the code are not written. -/
theorem dictionary_layout_fails_on_long_code :
    longCodeTable.entries = [(0, List.replicate 256 chr0)]
    ∧ writeDictionary longCodeTable 1 = toBytes 8 1 ++ toBytes 2 1 ++ [0, 0]
    ∧ ((writeDictionary longCodeTable 1).getD 11 0).val
        ≠ (List.replicate 256 chr0 : Str).length
    ∧ (writeDictionary longCodeTable 1).length = 12
    ∧ (writeDictionary longCodeTable 1).length
        ≠ 10 + (2 + (List.replicate 256 chr0 : Str).length) := by
  refine ⟨longCodeTable_entries, ?_, ?_, ?_, ?_⟩
  · rw [writeDictionary_longCodeTable]
    decide
  · rw [writeDictionary_longCodeTable, List.length_replicate]
    decide
  · rw [writeDictionary_longCodeTable]
    rfl
  · rw [writeDictionary_longCodeTable, List.length_replicate]
    decide

/-- C10 as amended (dictionary layout): for a 64-bit Original Length and any code table,
`writeDictionary` writes the 8 bytes of the Original Length, the 2 bytes of the Entry
Count, which is the number of entries, and then one record for each entry of the table in
strictly ascending symbol order, a record being the symbol byte, a length byte equal to the
length of the code modulo 256, and that many characters from the beginning of the code.
For a table whose codes are at most 255 characters long the length byte is the length of
the code, the record holds the whole code, and the output is
`10 + sum (2 + code length)` bytes long. -/
theorem dictionary_layout (codeTable : ByteMap Str) (originalFileSize : Nat)
    (hL : originalFileSize < 2 ^ 64) :
    ∃ es : List (Byte × Str),
      (∀ k c, (k, c) ∈ es ↔ codeTable.find k = some c)
      ∧ (es.map Prod.fst).Pairwise (fun a b => a < b)
      ∧ writeDictionary codeTable originalFileSize
          = toBytes 8 originalFileSize ++ toBytes 2 es.length
            ++ es.flatMap (fun e =>
                [e.1, toByte (e.2.length % 256)] ++ e.2.take (e.2.length % 256))
      ∧ (toBytes 8 originalFileSize).length = 8
      ∧ ofBytes (toBytes 8 originalFileSize) = originalFileSize
      ∧ (toBytes 2 es.length).length = 2
      ∧ ofBytes (toBytes 2 es.length) = es.length
      ∧ (∀ e ∈ es, (toByte (e.2.length % 256)).val = e.2.length % 256)
      ∧ ((∀ k c, codeTable.find k = some c → c.length ≤ 255) →
          writeDictionary codeTable originalFileSize
            = toBytes 8 originalFileSize ++ toBytes 2 es.length
              ++ es.flatMap (fun e => [e.1, toByte e.2.length] ++ e.2)
          ∧ (∀ e ∈ es, (toByte e.2.length).val = e.2.length)
          ∧ (writeDictionary codeTable originalFileSize).length
              = 10 + (es.map (fun e => 2 + e.2.length)).sum) := by
  have hle := codeTable.size_le
  have hsz : codeTable.size % 2 ^ 16 = codeTable.entries.length :=
    Nat.mod_eq_of_lt (by omega)
  have hw : writeDictionary codeTable originalFileSize
      = toBytes 8 originalFileSize ++ toBytes 2 codeTable.entries.length
        ++ codeTable.entries.flatMap writeEntry := by
    unfold writeDictionary
    rw [hsz]
  refine ⟨codeTable.entries, ByteMap.mem_entries codeTable, ByteMap.entries_keys_sorted codeTable,
    hw, toBytes_length 8 _, ?_, toBytes_length 2 _, ?_, ?_, ?_⟩
  · rw [ofBytes_toBytes]
    exact Nat.mod_eq_of_lt (by norm_num at hL ⊢; exact hL)
  · rw [ofBytes_toBytes]
    exact Nat.mod_eq_of_lt (by unfold ByteMap.size at hle; omega)
  · intro e _
    exact val_toByte _ (Nat.mod_lt _ (by norm_num))
  · intro hT
    have hes : ∀ e ∈ codeTable.entries, e.2.length ≤ 255 :=
      fun e he => hT e.1 e.2 ((ByteMap.mem_entries codeTable e.1 e.2).1 he)
    obtain ⟨f1, f2⟩ := flatMap_writeEntry codeTable.entries hes
    refine ⟨by rw [hw, f1], ?_, ?_⟩
    · intro e he
      exact val_toByte _ (by have := hes e he; omega)
    · rw [hw, List.length_append, List.length_append, toBytes_length, toBytes_length, f2]

/-- Witness of the amended C10 on the code table of "AAAB" with Original Length 4: the
dictionary holds the 16 bytes 4 0 0 0 0 0 0 0, 2 0, 'A' 1 '0', 'B' 1 '1'. -/
theorem dictionary_layout_witness :
    4 < 2 ^ 64
    ∧ (∀ k c, sampleTable.find k = some c → c.length ≤ 255)
    ∧ ∃ es : List (Byte × Str),
      (∀ k c, (k, c) ∈ es ↔ sampleTable.find k = some c)
      ∧ (es.map Prod.fst).Pairwise (fun a b => a < b)
      ∧ writeDictionary sampleTable 4
          = toBytes 8 4 ++ toBytes 2 es.length
            ++ es.flatMap (fun e => [e.1, toByte e.2.length] ++ e.2)
      ∧ (∀ e ∈ es, (toByte e.2.length).val = e.2.length)
      ∧ (writeDictionary sampleTable 4).length
          = 10 + (es.map (fun e => 2 + e.2.length)).sum :=
  ⟨by norm_num, fun k c h => (sampleTable_lengths k c h).2,
    (dictionary_layout sampleTable 4 (by norm_num)).imp (fun _ h =>
      ⟨h.1, h.2.1,
        (h.2.2.2.2.2.2.2.2 (fun k c hc => (sampleTable_lengths k c hc).2)).1,
        (h.2.2.2.2.2.2.2.2 (fun k c hc => (sampleTable_lengths k c hc).2)).2.1,
        (h.2.2.2.2.2.2.2.2 (fun k c hc => (sampleTable_lengths k c hc).2)).2.2⟩)⟩

/-- C11, counterexample: `readDictionary` accepts the dictionary with Original Length 0,
Entry Count 1 and the one record 'A' with Code Length byte 0, returning the table
'A' -> "" (so a zero Code Length is accepted with an Entry Count that is not zero); and it
accepts the dictionary with Original Length 5 and Entry Count 0, which has no positive
code length and an Original Length that is not zero. -/
theorem zero_code_length_accepted :
    readDictionary [0, 0, 0, 0, 0, 0, 0, 0, 1, 0, 65, 0] = .ok (ByteMap.empty.insert 65 [], 0)
    ∧ readDictionary [5, 0, 0, 0, 0, 0, 0, 0, 0, 0] = .ok (ByteMap.empty, 5) :=
  ⟨rfl, rfl⟩

/-- C11 as amended (zero Code Length): take a dictionary with the 64-bit Original Length
`L`. When its 16-bit Entry Count is `N` and it holds fewer than `N` whole records `es` and
then a record with the symbol `symbol` and the Code Length byte 0, followed by any bytes:
if `N > 1` or `L > 0`, `readDictionary` rejects it with the error for an invalid zero code
length; if `N = 1` and `L = 0` it accepts it and returns the table with the one entry
`symbol -> ""` and Original Length 0. When its Entry Count is 0, `readDictionary` accepts
it, whatever `L` is and whatever bytes follow, and returns the empty table and `L`. -/
theorem zero_code_length_rejected (L : Nat) (rest : List Byte) (hL : L < 2 ^ 64) :
    (∀ (N : Nat) (es : List (Byte × Str)) (symbol : Byte), N < 2 ^ 16 → es.length < N →
      (∀ e ∈ es, e.2.length ≤ 255) →
      ((N > 1 ∨ L > 0) →
        readDictionary
            (toBytes 8 L ++ toBytes 2 N ++ (es.flatMap writeEntry ++ [symbol, 0] ++ rest))
          = .error .invalidZeroCodeLength)
      ∧ (N = 1 → L = 0 →
        readDictionary
            (toBytes 8 L ++ toBytes 2 N ++ (es.flatMap writeEntry ++ [symbol, 0] ++ rest))
          = .ok (ByteMap.empty.insert symbol [], 0)))
    ∧ readDictionary (toBytes 8 L ++ toBytes 2 0 ++ rest) = .ok (ByteMap.empty, L) := by
  constructor
  · intro N es symbol hN hes hlen
    constructor
    · intro hg
      exact readDictionary_zero_length L N es symbol rest hL hN hes
        (fun e he => by have := hlen e he; omega) hg
    · intro h1 h0
      subst h1
      subst h0
      have h2 : es = [] := List.length_eq_zero.1 (by omega)
      subst h2
      exact readDictionary_single_zero_length symbol rest
  · rw [readDictionary_header L 0 hL (by norm_num) rest]
    rfl

/-- Witness of the amended C11: with Original Length 3 and Entry Count 2, the record
'A', 1, '0' followed by the record 'B', 0 is rejected; with Original Length 3 and Entry
Count 0 the dictionary is accepted. -/
theorem zero_code_length_rejected_witness :
    3 < 2 ^ 64 ∧ 2 < 2 ^ 16 ∧ [((65 : Byte), [chr0])].length < 2
    ∧ (∀ e ∈ [((65 : Byte), [chr0])], e.2.length ≤ 255)
    ∧ readDictionary
          (toBytes 8 3 ++ toBytes 2 2
            ++ ([((65 : Byte), [chr0])].flatMap writeEntry ++ [66, 0] ++ []))
        = .error .invalidZeroCodeLength
    ∧ readDictionary (toBytes 8 3 ++ toBytes 2 0 ++ []) = .ok (ByteMap.empty, 3) :=
  ⟨by norm_num, by norm_num, by decide, by decide,
    ((zero_code_length_rejected 3 [] (by norm_num)).1 2 [(65, [chr0])] 66 (by norm_num)
      (by decide) (by decide)).1 (Or.inl (by decide)),
    (zero_code_length_rejected 3 [] (by norm_num)).2⟩

/-- C12 (truncated dictionary): for every code table whose codes are between 1 and 255
characters long and every Original Length `L`, `readDictionary` fails with an error on
every proper prefix of the bytes `writeDictionary` writes for the table and `L`. -/
theorem truncated_dictionary_rejected (codeTable : ByteMap Str) (originalFileSize : Nat)
    (hT : ∀ k c, codeTable.find k = some c → 1 ≤ c.length ∧ c.length ≤ 255)
    (p : List Byte) (hp : p <+: writeDictionary codeTable originalFileSize)
    (hne : p ≠ writeDictionary codeTable originalFileSize) :
    ∃ err, readDictionary p = .error err :=
  readDictionary_truncated codeTable originalFileSize
    (fun k c h => ⟨by have := (hT k c h).1; omega, by have := (hT k c h).2; omega⟩) p hp hne

/-- Witness of C12: the dictionary of the table 'A' -> "0", 'B' -> "1" with Original
Length 4, cut inside its first record. -/
theorem truncated_dictionary_rejected_witness :
    (∀ k c, pairTable.find k = some c → 1 ≤ c.length ∧ c.length ≤ 255)
    ∧ [4, 0, 0, 0, 0, 0, 0, 0, 2, 0, 65, 1] <+: writeDictionary pairTable 4
    ∧ [4, 0, 0, 0, 0, 0, 0, 0, 2, 0, 65, 1] ≠ writeDictionary pairTable 4
    ∧ ∃ err, readDictionary [4, 0, 0, 0, 0, 0, 0, 0, 2, 0, 65, 1] = .error err :=
  ⟨pairTable_lengths,
    ⟨[48, 66, 1, 49], writeDictionary_pairTable.symm⟩,
    (by rw [writeDictionary_pairTable]; decide),
    truncated_dictionary_rejected pairTable 4 pairTable_lengths
      [4, 0, 0, 0, 0, 0, 0, 0, 2, 0, 65, 1]
      ⟨[48, 66, 1, 49], writeDictionary_pairTable.symm⟩
      (by rw [writeDictionary_pairTable]; decide)⟩

/-- C13 (decoded length): for every dictionary that `readDictionary` reads with an
Original Length `L > 0` and every payload, `decode` fails with an error or writes exactly
`L` bytes; it never writes more than `L` bytes; it fails whenever it has written fewer
than `L` bytes, which is the case when the bits of the payload run out before `L` symbols
are emitted, and in particular when the payload has fewer than `L` bits. -/
theorem decode_writes_original_length (self : ShannonFano) (payload dict : List Byte)
    (codeTable : ByteMap Str) (L : Nat) (hd : readDictionary dict = .ok (codeTable, L))
    (hL : 0 < L) :
    ((∃ e, (self.decode payload dict).status = .error e)
      ∨ (self.decode payload dict).outputFile.length = L)
    ∧ (self.decode payload dict).outputFile.length ≤ L
    ∧ ((self.decode payload dict).outputFile.length < L →
        ∃ e, (self.decode payload dict).status = .error e)
    ∧ (8 * payload.length < L → ∃ e, (self.decode payload dict).status = .error e) := by
  obtain ⟨h1, h2⟩ := decode_count self payload dict codeTable L hd hL
  cases hs : (self.decode payload dict).status with
  | error e => exact ⟨Or.inl ⟨e, rfl⟩, h1, fun _ => ⟨e, rfl⟩, fun _ => ⟨e, rfl⟩⟩
  | ok st =>
    obtain ⟨h3, h4⟩ := h2 st hs
    exact ⟨Or.inr h3, h1, fun h => by omega, fun h => by omega⟩

/-- Witness of C13: the dictionary of the table 'A' -> "0", 'B' -> "1" with Original
Length 4 and the one-byte payload 0x10. -/
theorem decode_writes_original_length_witness :
    readDictionary [4, 0, 0, 0, 0, 0, 0, 0, 2, 0, 65, 1, 48, 66, 1, 49] = .ok (pairTable, 4)
    ∧ 0 < 4
    ∧ (ShannonFano.new.decode [16] [4, 0, 0, 0, 0, 0, 0, 0, 2, 0, 65, 1, 48, 66, 1, 49]
        ).outputFile.length ≤ 4 :=
  ⟨rfl, by norm_num,
    (decode_writes_original_length ShannonFano.new [16]
      [4, 0, 0, 0, 0, 0, 0, 0, 2, 0, 65, 1, 48, 66, 1, 49] pairTable 4 rfl (by norm_num)).2.1⟩

/-- C14 (truncated payload): for every input `S`, `decode` run (on any codec object) on a
proper byte-prefix of the payload that `encode` wrote for `S`, with the dictionary that
`encode` wrote for `S`, fails with the error for a decoded size that does not match the
Original Length. (The empty input has an empty payload, which has no proper prefix.) -/
theorem truncated_payload_rejected (self self2 : ShannonFano) (S p : List Byte)
    (hp : p <+: (self.encode S).outputFile) (hne : p ≠ (self.encode S).outputFile) :
    (self2.decode p (self.encode S).dictFile).status = .error .decodedBytesDoNotMatch :=
  decode_truncated self self2 S p hp hne

/-- Witness of C14: the input "AAABAAABAB" has the payload 0x11 0x40; decoding its first
byte alone fails. -/
theorem truncated_payload_rejected_witness :
    [17] <+: (ShannonFano.new.encode [65, 65, 65, 66, 65, 65, 65, 66, 65, 66]).outputFile
    ∧ [17] ≠ (ShannonFano.new.encode [65, 65, 65, 66, 65, 65, 65, 66, 65, 66]).outputFile
    ∧ (ShannonFano.new.decode [17]
        (ShannonFano.new.encode [65, 65, 65, 66, 65, 65, 65, 66, 65, 66]).dictFile).status
      = .error .decodedBytesDoNotMatch :=
  ⟨⟨[64], encode_sample_payload.symm⟩,
    (by rw [encode_sample_payload]; decide),
    truncated_payload_rejected ShannonFano.new ShannonFano.new
      [65, 65, 65, 66, 65, 65, 65, 66, 65, 66] [17]
      ⟨[64], encode_sample_payload.symm⟩ (by rw [encode_sample_payload]; decide)⟩

/-- C15 (padding is not decoded): let `S` be an input whose length fits the 64-bit Original
Length and `B` the total length in bits of the codes of its bytes. Every payload whose
first `B` bits are the first `B` bits of the payload `encode` wrote for `S`, whatever
bits and bytes follow them, is decoded with the dictionary `encode` wrote for `S` to
exactly `S`, and `decode` succeeds. -/
theorem padding_not_decoded (self self2 : ShannonFano) (S payload : List Byte)
    (h : S.length < 2 ^ 64)
    (hB : (bytesBits payload).take (totalCodeLength S)
      = (bytesBits (self.encode S).outputFile).take (totalCodeLength S)) :
    (self2.decode payload (self.encode S).dictFile).outputFile = S
    ∧ ∃ st, (self2.decode payload (self.encode S).dictFile).status = .ok st := by
  by_cases hS : S = []
  · subst hS
    rw [encode_nil]
    dsimp only
    rw [decode_zero self2 payload (List.replicate 10 0) ByteMap.empty rfl]
    exact ⟨rfl, _, rfl⟩
  · obtain ⟨out, pad, he, hbits⟩ := encode_cons self S hS
    have hL : S.length % 2 ^ 64 = S.length := Nat.mod_eq_of_lt h
    rw [he] at hB ⊢
    dsimp only at hB ⊢
    rw [hL] at hbits ⊢
    rw [List.take_length] at hbits
    have hlen : totalCodeLength S
        = (streamBits (buildCodesInternal (buildFrequencyMap S).1) S).length := by
      rw [streamBits_length]
      rfl
    rw [hbits, hlen, List.take_left] at hB
    have hsplit := List.take_append_drop
      (streamBits (buildCodesInternal (buildFrequencyMap S).1) S).length (bytesBits payload)
    rw [hB] at hsplit
    obtain ⟨st, rest, hdec⟩ := decode_stream self2 S payload _ hS h hsplit.symm
    rw [hdec]
    exact ⟨rfl, st, rfl⟩

/-- Witness of C15: the input "AAAB" has the 4 code bits 0001 and the payload 0x10; the
payload 0x1F 0x07 agrees with it on these 4 bits. -/
theorem padding_not_decoded_witness :
    ([65, 65, 65, 66] : List Byte).length < 2 ^ 64
    ∧ (bytesBits [31, 7]).take (totalCodeLength [65, 65, 65, 66])
      = (bytesBits (ShannonFano.new.encode [65, 65, 65, 66]).outputFile).take
          (totalCodeLength [65, 65, 65, 66])
    ∧ (ShannonFano.new.decode [31, 7]
        (ShannonFano.new.encode [65, 65, 65, 66]).dictFile).outputFile = [65, 65, 65, 66] :=
  ⟨by decide, encode_sample_bits,
    (padding_not_decoded ShannonFano.new ShannonFano.new [65, 65, 65, 66] [31, 7]
      (by decide) encode_sample_bits).1⟩

/-- C16 (Original Length zero): for every dictionary that `readDictionary` reads with
Original Length 0, whatever entries it lists, and every payload, `decode` succeeds, writes
no byte and leaves the whole payload unread. -/
theorem decode_of_zero_length (self : ShannonFano) (payload dict : List Byte)
    (codeTable : ByteMap Str) (hd : readDictionary dict = .ok (codeTable, 0)) :
    (self.decode payload dict).outputFile = []
    ∧ (∃ st, (self.decode payload dict).status = .ok st)
    ∧ (self.decode payload dict).inputFile = payload := by
  rw [decode_zero self payload dict codeTable hd]
  exact ⟨rfl, ⟨_, rfl⟩, rfl⟩

/-- Witness of C16: a dictionary with Original Length 0 that lists the two entries
'A' -> "0" and 'B' -> "1", and a payload of three bytes. -/
theorem decode_of_zero_length_witness :
    readDictionary [0, 0, 0, 0, 0, 0, 0, 0, 2, 0, 65, 1, 48, 66, 1, 49] = .ok (pairTable, 0)
    ∧ (ShannonFano.new.decode [1, 2, 3]
        [0, 0, 0, 0, 0, 0, 0, 0, 2, 0, 65, 1, 48, 66, 1, 49]).outputFile = []
    ∧ (ShannonFano.new.decode [1, 2, 3]
        [0, 0, 0, 0, 0, 0, 0, 0, 2, 0, 65, 1, 48, 66, 1, 49]).inputFile = [1, 2, 3] :=
  ⟨rfl,
    (decode_of_zero_length ShannonFano.new [1, 2, 3]
      [0, 0, 0, 0, 0, 0, 0, 0, 2, 0, 65, 1, 48, 66, 1, 49] pairTable rfl).1,
    (decode_of_zero_length ShannonFano.new [1, 2, 3]
      [0, 0, 0, 0, 0, 0, 0, 0, 2, 0, 65, 1, 48, 66, 1, 49] pairTable rfl).2.2⟩

/-- C17 (bit writer): writing the bits `b_0 .. b_(n-1)` to a new `BitWriter` and calling
`flush` puts `ceil(n / 8)` bytes; bit `b_i` is bit `7 - i mod 8` of byte `i / 8`; the bits
of the last byte below the last bit written are 0; and when `n` is a multiple of 8, `flush`
puts no byte beyond the `n / 8` bytes that `writeBit` put. -/
theorem bit_writer_layout (bits : List Bool) :
    (writeBits bits).flush.os.length = (bits.length + 7) / 8
    ∧ (∀ i, i < bits.length →
        ((writeBits bits).flush.os.getD (i / 8) 0).val.testBit (7 - i % 8)
          = bits.getD i false)
    ∧ (∀ i, bits.length ≤ i → i < 8 * ((bits.length + 7) / 8) →
        ((writeBits bits).flush.os.getD (i / 8) 0).val.testBit (7 - i % 8) = false)
    ∧ (bits.length % 8 = 0 →
        (writeBits bits).flush.os = (writeBits bits).os
          ∧ (writeBits bits).os.length = bits.length / 8) := by
  obtain ⟨h1, h2⟩ := writeBits_flush bits
  have hget := bytesBits_getD (writeBits bits).flush.os
  rw [h1, h2] at hget
  refine ⟨h2, ?_, ?_, ?_⟩
  · intro i hi
    rw [← hget i (by omega), List.getD_append _ _ _ _ hi]
  · intro i h3 h4
    rw [← hget i h4, List.getD_append_right _ _ _ _ h3]
    rw [List.getD_eq_getElem _ _ (by rw [List.length_replicate]; omega)]
    exact List.getElem_replicate _ _
  · intro h8
    obtain ⟨h3, _, h5⟩ := writeBits_spec bits
    have h6 : (writeBits bits).bit_count = 0 := by
      have := h3.1
      omega
    refine ⟨?_, by omega⟩
    unfold BitWriter.flush
    rw [if_neg (by omega)]

/-- C18 (bit reader): a new `BitReader` over a source of `k` bytes delivers exactly `8 k`
bits, however many are asked for; bit `i` is bit `7 - i mod 8` of byte `i / 8` of the
source; the call after them reports the end of the input. Reading back the bytes that a
`BitWriter` put for the bits `b_0 .. b_(n-1)`, `flush` included, delivers these bits, then
`8 ceil(n / 8) - n` zero bits, then the end of the input. -/
theorem bit_reader_stream (src : List Byte) (bits : List Bool) :
    (∀ n, 8 * src.length ≤ n → (readBits n ⟨src, 0, 0⟩).1.length = 8 * src.length)
    ∧ (∀ i, i < 8 * src.length →
        (readBits (8 * src.length) ⟨src, 0, 0⟩).1.getD i false
          = (src.getD (i / 8) 0).val.testBit (7 - i % 8))
    ∧ (readBits (8 * src.length) ⟨src, 0, 0⟩).2.readBit = none
    ∧ (readBits (8 * (writeBits bits).flush.os.length) ⟨(writeBits bits).flush.os, 0, 0⟩).1
        = bits ++ List.replicate (8 * ((bits.length + 7) / 8) - bits.length) false
    ∧ (readBits (8 * (writeBits bits).flush.os.length)
        ⟨(writeBits bits).flush.os, 0, 0⟩).2.readBit = none := by
  refine ⟨?_, ?_, (readBits_all src _ (Nat.le_refl _)).2, ?_,
    (readBits_all _ _ (Nat.le_refl _)).2⟩
  · intro n hn
    rw [(readBits_all src n hn).1, bytesBits_length]
  · intro i hi
    rw [(readBits_all src _ (Nat.le_refl _)).1]
    exact bytesBits_getD src i hi
  · rw [(readBits_all _ _ (Nat.le_refl _)).1]
    exact (writeBits_flush bits).1

/-- C19 (frequency analyzer): for every byte sequence `S` whose length fits the 64-bit
counters, the table of `buildFrequencyMap` maps each byte value occurring in `S` to the
number of its occurrences, which is at least 1, has no entry for a byte value that does
not occur in `S`, and the Original Length recorded is the length of `S` and the sum of
all counts of the table. -/
theorem frequency_map_counts (S : List Byte) (h : S.length < 2 ^ 64) :
    (∀ b, b ∈ S → (buildFrequencyMap S).1.find b = some (S.count b) ∧ 1 ≤ S.count b)
    ∧ (∀ b, b ∉ S → (buildFrequencyMap S).1.find b = none)
    ∧ (buildFrequencyMap S).2 = S.length
    ∧ (buildFrequencyMap S).2 = ((buildFrequencyMap S).1.entries.map Prod.snd).sum := by
  have hsize : (buildFrequencyMap S).2 = S.length := by
    rw [buildFrequencyMap_size, Nat.mod_eq_of_lt h]
  refine ⟨?_, ?_, hsize, ?_⟩
  · intro b hb
    rw [buildFrequencyMap_exact S h b, if_pos hb]
    exact ⟨rfl, List.count_pos_iff.2 hb⟩
  · intro b hb
    rw [buildFrequencyMap_exact S h b, if_neg hb]
  · rw [hsize, buildFrequencyMap_sum S h]

/-- Witness of C19 at the input "AAAB". -/
theorem frequency_map_counts_witness :
    ([65, 65, 65, 66] : List Byte).length < 2 ^ 64
    ∧ (buildFrequencyMap [65, 65, 65, 66]).2 = ([65, 65, 65, 66] : List Byte).length
    ∧ (buildFrequencyMap [65, 65, 65, 66]).2
        = ((buildFrequencyMap [65, 65, 65, 66]).1.entries.map Prod.snd).sum :=
  ⟨by decide, (frequency_map_counts [65, 65, 65, 66] (by decide)).2.2.1,
    (frequency_map_counts [65, 65, 65, 66] (by decide)).2.2.2⟩

/-- C20 (no state carried over): the result of `encode` on an input `S`, that is the
payload, the dictionary, and the success and the object left behind (frequency table, code
table, trie and Original Length) or the failure, is the same whatever state the codec
object is in before the call. -/
theorem encode_independent_of_state (self self2 : ShannonFano) (S : List Byte) :
    self.encode S = self2.encode S := by
  rw [encode_eq, encode_eq]

/-- C21 (the input "AAAB"): the frequency table has the two entries 'A' -> 3 and 'B' -> 1;
`encode` succeeds and leaves a code table with exactly the two entries 'A' -> "0" and
'B' -> "1", neither code a prefix of the other; the dictionary is Original Length 4, Entry
Count 2 and the two records; the payload is the one byte 0x10; and `decode` of the payload
and the dictionary succeeds and writes "AAAB". -/
theorem sample_input_scenario (self self2 : ShannonFano) :
    (buildFrequencyMap [65, 65, 65, 66]).1.entries = [(65, 3), (66, 1)]
    ∧ (∃ st, (self.encode [65, 65, 65, 66]).status = .ok st
        ∧ st.frequencyMap.entries = [(65, 3), (66, 1)]
        ∧ st.codeTable.entries = [(65, [chr0]), (66, [chr1])]
        ∧ st.originalFileSize = 4)
    ∧ ¬ [chr0] <+: [chr1] ∧ ¬ [chr1] <+: [chr0]
    ∧ (self.encode [65, 65, 65, 66]).dictFile
        = toBytes 8 4 ++ toBytes 2 2 ++ [65, 1, chr0] ++ [66, 1, chr1]
    ∧ (self.encode [65, 65, 65, 66]).outputFile = [0x10]
    ∧ (self2.decode (self.encode [65, 65, 65, 66]).outputFile
        (self.encode [65, 65, 65, 66]).dictFile).outputFile = [65, 65, 65, 66]
    ∧ (∃ st2, (self2.decode (self.encode [65, 65, 65, 66]).outputFile
        (self.encode [65, 65, 65, 66]).dictFile).status = .ok st2) := by
  have hnew : self.encode [65, 65, 65, 66] = ShannonFano.new.encode [65, 65, 65, 66] := by
    rw [encode_eq, encode_eq]
  obtain ⟨out, pad, he, _⟩ := encode_cons self [65, 65, 65, 66] (by decide)
  obtain ⟨st, st2, rest, h1, h2⟩ := decode_encode self self2 [65, 65, 65, 66] (by decide)
  refine ⟨sample_frequencies, ?_, by decide, by decide, ?_, ?_, by rw [h2], ⟨st2, by rw [h2]⟩⟩
  · rw [he]
    have hct := sampleTable_entries
    unfold sampleTable at hct
    refine ⟨_, rfl, ?_, ?_, ?_⟩
    · exact sample_frequencies
    · dsimp only
      exact hct
    · rfl
  · rw [hnew]
    exact encode_sample_files.2
  · rw [hnew]
    exact encode_sample_files.1

/-- C22, counterexample: given the table 'A' -> "0", 'B' -> "1", the Original Length 1 and
the stream "AA" of two bytes, `writeCompressedData` throws nothing and writes the payload
0x00 of the first byte alone; given the Original Length 0 and the stream "A" it throws
nothing and writes no payload. -/
theorem compression_pass_accepts_longer_stream :
    writeCompressedData pairTable 1 [65, 65] = ([0], none)
    ∧ writeCompressedData pairTable 0 [65] = ([], none) :=
  writeCompressedData_longer

/-- C22 as amended (size mismatch in the compression pass): `writeCompressedData` throws
whenever the stream it is given has fewer bytes than the Original Length. On a stream
with at least as many bytes, it does what it does on the first Original Length bytes of
the stream alone, and throws nothing when these bytes have codes in the table. -/
theorem compression_pass_rejects_shorter_stream (codeTable : ByteMap Str)
    (originalFileSize : Nat) (inputFile : List Byte) :
    (inputFile.length < originalFileSize →
      ∃ e, (writeCompressedData codeTable originalFileSize inputFile).2 = some e)
    ∧ (originalFileSize ≤ inputFile.length →
      writeCompressedData codeTable originalFileSize inputFile
        = writeCompressedData codeTable originalFileSize (inputFile.take originalFileSize))
    ∧ (originalFileSize ≤ inputFile.length →
      (∀ s ∈ inputFile.take originalFileSize, (codeTable.find s).isSome = true) →
      (writeCompressedData codeTable originalFileSize inputFile).2 = none) := by
  refine ⟨writeCompressedData_short codeTable originalFileSize inputFile,
    fun _ => writeCompressedData_take codeTable originalFileSize inputFile, ?_⟩
  intro hle hS
  rw [writeCompressedData_take]
  obtain ⟨out, pad, h1, _⟩ := writeCompressedData_spec codeTable originalFileSize
    (inputFile.take originalFileSize) hS (by rw [List.length_take]; omega)
  rw [h1]

/-- Witness of the amended C22: with the table 'A' -> "0", 'B' -> "1" and the Original
Length 3, the stream "AB" of two bytes makes `writeCompressedData` throw. -/
theorem compression_pass_rejects_shorter_stream_witness :
    ([65, 66] : List Byte).length < 3
    ∧ ∃ e, (writeCompressedData pairTable 3 [65, 66]).2 = some e :=
  ⟨by decide, (compression_pass_rejects_shorter_stream pairTable 3 [65, 66]).1 (by decide)⟩

/-- C23 (order of the symbols): the list of symbols that `buildCodesInternal` partitions
is a permutation of the entries of the frequency table, ordered by frequency descending
and, for equal frequencies, by symbol ascending. `operator<` is irreflexive, transitive and
asymmetric, and it orders any two entries with distinct symbols; so every arrangement of
the entries in which no element is less than one standing before it is this list. -/
theorem symbols_sorted (frequencyMap : ByteMap Nat) :
    (std_sort (symbolsOf frequencyMap)).Perm
        (frequencyMap.entries.map (fun p => SymbolInfo.mk p.1 p.2))
    ∧ (std_sort (symbolsOf frequencyMap)).Pairwise (fun a b =>
        a.frequency > b.frequency ∨ (a.frequency = b.frequency ∧ a.symbol < b.symbol))
    ∧ (∀ a b c : SymbolInfo,
        SymbolInfo.lt a a = false
        ∧ (SymbolInfo.lt a b = true → SymbolInfo.lt b c = true → SymbolInfo.lt a c = true)
        ∧ (SymbolInfo.lt a b = true → SymbolInfo.lt b a = false)
        ∧ (a.symbol ≠ b.symbol → SymbolInfo.lt a b = true ∨ SymbolInfo.lt b a = true))
    ∧ (∀ sorted : List SymbolInfo, sorted.Perm (symbolsOf frequencyMap) →
        sorted.Pairwise (fun a b => SymbolInfo.lt b a = false) →
        sorted = std_sort (symbolsOf frequencyMap)) :=
  ⟨std_sort_perm _, std_sort_strict frequencyMap, SymbolInfo.lt_order,
    fun sorted hp hs => std_sort_unique _ sorted hp hs⟩

/-- C24 (no path in the trie): let `decode` have read a dictionary with the table
`codeTable` and the Original Length `L` and built the trie `trie`. If the bits of the
payload are `pre`, then the bit `b`, then any bits, if the loop stands at the node `cur`
with fewer than `L` symbols emitted after reading `pre`, and if the node `cur` has no child
for `b`, then `decode` fails with the error for a bit sequence without a path. So with the
dictionary of the one entry `s -> "0"` and an Original Length `L` of 1 or more, every
payload with a 1 among its first `L` bits is rejected. -/
theorem missing_edge_rejected (self : ShannonFano) (payload : List Byte) :
    (∀ (dict : List Byte) (codeTable : ByteMap Str) (L : Nat) (trie : Trie)
        (pre post : List Bool) (b : Bool) (cur : Str) (count : Nat),
      readDictionary dict = .ok (codeTable, L) →
      buildDecodingTrie codeTable L = .ok trie →
      bytesBits payload = pre ++ b :: post →
      decodeState trie L pre [] 0 = some (cur, count) → count < L →
      trie.node (cur ++ [if b then chr1 else chr0]) = none →
      (self.decode payload dict).status = .error .noPathInTrie)
    ∧ (∀ (s : Byte) (L i : Nat), 1 ≤ L → L < 2 ^ 64 → i < L →
      (bytesBits payload).getD i false = true →
      (self.decode payload (writeDictionary (ByteMap.empty.insert s [chr0]) L)).status
        = .error .noPathInTrie) :=
  ⟨fun dict codeTable L trie pre post b cur count hd ht hbits hst hlt hnone =>
      decode_noPath self payload dict codeTable L trie pre post b cur count hd ht hbits hst
        hlt hnone,
    fun s L i _ hL hi hbit => decode_single_rejects self s L payload i hL hi hbit⟩

/-- Witness of C24: with the dictionary of the one entry 'A' -> "0" and Original Length 4,
the payload 0x20, whose third bit is 1, is rejected. -/
theorem missing_edge_rejected_witness :
    (bytesBits [0x20]).getD 2 false = true
    ∧ (ShannonFano.new.decode [0x20]
        (writeDictionary (ByteMap.empty.insert 65 [chr0]) 4)).status
      = .error .noPathInTrie :=
  ⟨by decide,
    (missing_edge_rejected ShannonFano.new [0x20]).2 65 4 2 (by decide) (by norm_num)
      (by decide) (by decide)⟩

end shannon_fano

namespace ascii85

/-- C25, the failing input: for the 9 bytes "BCDE", four zero bytes, "B", `encode` returns
"6:4.0z63", and `decode` of that string throws the exception for a 'z' in the wrong
context, in `processBuffer` as well; it does not return the 9 bytes. -/
theorem buffer_roundtrip_fails_at_inner_z :
    encode [66, 67, 68, 69, 0, 0, 0, 0, 66] = [54, 58, 52, 46, 48, 122, 54, 51]
    ∧ decode (encode [66, 67, 68, 69, 0, 0, 0, 0, 66]) = .error .zInWrongContext
    ∧ processBuffer [66, 67, 68, 69, 0, 0, 0, 0, 66] false
        = .ok [54, 58, 52, 46, 48, 122, 54, 51]
    ∧ processBuffer [54, 58, 52, 46, 48, 122, 54, 51] true = .error .zInWrongContext :=
  ⟨by decide, rfl, rfl, rfl⟩

/-- C26 (a chunk of 1 to 4 bytes): for an input of `n` bytes, `1 ≤ n ≤ 4`, that is not four
zero bytes, `encode` returns `n + 1` characters, character `j` being '!' plus digit `j`,
counted from the most significant, of the five base-85 digits of the 32-bit big-endian
value of the input padded on the right with zero bytes. -/
theorem encode_partial_group (input : List Char8) (h1 : 1 ≤ input.length)
    (h4 : input.length ≤ 4) (hz : input ≠ [0, 0, 0, 0]) :
    (encode input).length = input.length + 1
    ∧ encode input = (List.range (input.length + 1)).map
        (fun j => toChar8 (33 + bigEndian input / 85 ^ (4 - j) % 85)) := by
  have h := encode_short input h1 h4 hz
  refine ⟨?_, h⟩
  rw [h, List.length_map, List.length_range]

/-- Witness of C26 at the inputs "B" and "BCDE", encoded as "63" and "6:4.0". -/
theorem encode_partial_group_witness :
    (encode [66] = (List.range 2).map (fun j => toChar8 (33 + bigEndian [66] / 85 ^ (4 - j) % 85))
      ∧ encode [66] = [54, 51])
    ∧ (encode [66, 67, 68, 69] = (List.range 5).map
          (fun j => toChar8 (33 + bigEndian [66, 67, 68, 69] / 85 ^ (4 - j) % 85))
      ∧ encode [66, 67, 68, 69] = [54, 58, 52, 46, 48]) :=
  ⟨⟨(encode_partial_group [66] (by decide) (by decide) (by decide)).2, by decide⟩,
    ⟨(encode_partial_group [66, 67, 68, 69] (by decide) (by decide) (by decide)).2,
      by decide⟩⟩

/-- C27 (runs of zero bytes): for every `k`, `encode` of `4 k` zero bytes is the string of
`k` characters 'z', and `decode` of the string of `k` characters 'z' returns `4 k` zero
bytes. -/
theorem zero_groups (k : Nat) :
    encode (List.replicate (4 * k) 0) = List.replicate k 122
    ∧ decode (List.replicate k 122) = .ok (List.replicate (4 * k) 0) :=
  ⟨encode_zeros k, decode_zs k⟩

/-- C28 (invalid characters): `decode` throws on every input that holds a byte above 127,
or a character above ' ' that is neither in '!' .. 'u' nor 'z'. -/
theorem decode_rejects_invalid_character (input : List Char8) (c : Char8) (hc : c ∈ input)
    (h : c.val > 127 ∨ (c.val > 32 ∧ ¬ (33 ≤ c.val ∧ c.val ≤ 117) ∧ c ≠ 122)) :
    ∃ e, decode input = .error e := by
  rcases h with h | ⟨h1, h2, h3⟩
  · exact ⟨_, decode_nonascii input c hc h⟩
  · obtain ⟨pre, post, rfl⟩ := List.append_of_mem hc
    exact decode_stop pre post c (by omega) (Or.inl h3)

/-- Witness of C28 at the inputs "6:4.0" followed by the byte 0x80, and
"Invalid^ASCII85{Data", which holds the character '{'. -/
theorem decode_rejects_invalid_character_witness :
    (∃ e, decode [54, 58, 52, 46, 48, 128] = .error e)
    ∧ (∃ e, decode [73, 110, 118, 97, 108, 105, 100, 94, 65, 83, 67, 73, 73, 56, 53, 123,
        68, 97, 116, 97] = .error e) :=
  ⟨decode_rejects_invalid_character [54, 58, 52, 46, 48, 128] 128 (by decide)
      (Or.inl (by decide)),
    decode_rejects_invalid_character [73, 110, 118, 97, 108, 105, 100, 94, 65, 83, 67, 73, 73,
      56, 53, 123, 68, 97, 116, 97] 123 (by decide) (Or.inr (by decide))⟩

/-- C29, the failing input: `decode` of "uuuuu", whose base-85 value is `85 ^ 5 - 1`,
above `0xFFFFFFFF`, throws nothing; it returns the four bytes of that value modulo
`2 ^ 32`. -/
theorem decode_accepts_overflowing_group :
    84 * 85 ^ 4 + 84 * 85 ^ 3 + 84 * 85 ^ 2 + 84 * 85 + 84 > 0xFFFFFFFF
    ∧ decode [117, 117, 117, 117, 117] = .ok [8, 120, 14, 196] :=
  ⟨by norm_num, rfl⟩

/-- C30 ('z' inside a group): `decode` throws on every input in which a 'z' stands after
1 to 4 characters of a group that is not complete, that is, when the number of characters
before it that are neither whitespace nor 'z' is not a multiple of 5. -/
theorem z_inside_group_rejected (pre post : List Char8)
    (h : pre.countP isGroupChar % 5 ≠ 0) :
    ∃ e, decode (pre ++ 122 :: post) = .error e :=
  decode_stop pre post 122 (by decide) (Or.inr h)

/-- Witness of C30 at the input "ABCz". -/
theorem z_inside_group_rejected_witness :
    ([65, 66, 67] : List Char8).countP isGroupChar % 5 ≠ 0
    ∧ ∃ e, decode ([65, 66, 67] ++ 122 :: []) = .error e :=
  ⟨by decide, z_inside_group_rejected [65, 66, 67] [] (by decide)⟩

end ascii85

namespace GaussianSolver

/-- C31: with exact rational arithmetic, whenever `solve` returns a vector `x` for an augmented
matrix `[A|b]` with `n ≥ 1` rows, `n + 1` columns and a positive `epsilon`, `x` satisfies every
equation of the system: `A x = b`. -/
theorem solve_returns_solution (M : MatrixXd) (epsilon : ℚ) (x : Nat → ℚ)
    (hc : M.cols = M.rows + 1) (hn : 1 ≤ M.rows) (heps : 0 < epsilon)
    (h : solve M epsilon = .ok x) :
    ∀ i, i < M.rows →
      Finset.sum (Finset.range M.rows) (fun j => M.coeff i j * x j) = M.coeff i M.rows := by
  have _ := hc
  obtain ⟨B, hB, hS, hx⟩ := solve_ok M epsilon heps hn x h
  have h1 := (hS x 1).mp (by rw [hx]; exact backSubstitution_satisfies B M.rows hB)
  intro i hi
  have h2 := h1 i hi
  rw [one_mul] at h2
  exact h2

/-- The system `2x + y = 5`, `x + 3y = 10` is solved by `(1, 3)`, which satisfies both
equations. -/
theorem solve_returns_solution_witness :
    ∃ x, solve (ofRows [[2, 1, 5], [1, 3, 10]]) (1 / 10 ^ 10) = .ok x ∧ x 0 = 1 ∧ x 1 = 3
      ∧ ∀ i, i < (ofRows [[2, 1, 5], [1, 3, 10]]).rows →
        Finset.sum (Finset.range (ofRows [[2, 1, 5], [1, 3, 10]]).rows)
            (fun j => (ofRows [[2, 1, 5], [1, 3, 10]]).coeff i j * x j)
          = (ofRows [[2, 1, 5], [1, 3, 10]]).coeff i (ofRows [[2, 1, 5], [1, 3, 10]]).rows :=
  ⟨_, solve_simple_eval, solve_simple_values.1, solve_simple_values.2,
    solve_returns_solution (ofRows [[2, 1, 5], [1, 3, 10]]) (1 / 10 ^ 10) _ rfl (by decide)
      (by norm_num) solve_simple_eval⟩

/-- C32: with exact rational arithmetic, for every augmented matrix `[A|b]` with `n` rows and
`n + 1` columns whose coefficient part `A` is singular (its determinant is zero) and every
positive `epsilon`, `solve` fails with the singular-matrix error. -/
theorem singular_system_rejected (M : MatrixXd) (epsilon : ℚ) (hc : M.cols = M.rows + 1)
    (heps : 0 < epsilon)
    (hsing : Matrix.det (Matrix.of (fun (i j : Fin M.rows) => M.coeff i j)) = 0) :
    solve M epsilon = .error .singularMatrix := by
  obtain ⟨v, hv, i, hi, hvi⟩ := kernel_vector M hsing
  cases hs : solve M epsilon with
  | error e => rw [solve_error M epsilon hc e hs]
  | ok x =>
    obtain ⟨B, hB, hS, _⟩ := solve_ok M epsilon heps (by omega) x hs
    exact absurd (reduced_kernel B M.rows v hB ((hS v 0).mpr hv) i hi) hvi

/-- The system `x + y = 2`, `x + y = 3` has a singular coefficient matrix and is rejected. -/
theorem singular_system_rejected_witness :
    (ofRows [[1, 1, 2], [1, 1, 3]]).cols = (ofRows [[1, 1, 2], [1, 1, 3]]).rows + 1
    ∧ Matrix.det (Matrix.of (fun (i j : Fin (ofRows [[1, 1, 2], [1, 1, 3]]).rows) =>
        (ofRows [[1, 1, 2], [1, 1, 3]]).coeff i j)) = 0
    ∧ solve (ofRows [[1, 1, 2], [1, 1, 3]]) (1 / 10 ^ 10) = .error .singularMatrix :=
  ⟨rfl, singular_sample_det,
    singular_system_rejected (ofRows [[1, 1, 2], [1, 1, 3]]) (1 / 10 ^ 10) rfl (by norm_num)
      singular_sample_det⟩

end GaussianSolver

namespace shannon_fano

/-- C33 (decoding with any prefix-free table): let `codeTable` be a code table whose codes
are non-empty strings of '0' and '1', none a prefix of the code of another symbol, and `S`
a sequence of `N ≥ 1` symbols of the table. `buildDecodingTrie` builds a trie in which
following the code of a symbol `s` from the root ends on an end-of-code node carrying `s`
and passes no end-of-code node before; and the decoding loop, run with Original Length `N`
on the codes of `S` packed into bytes and padded with zero bits, writes exactly `S` and
throws nothing. -/
theorem trie_decodes_prefix_free_table (codeTable : ByteMap Str) (S : List Byte)
    (hpf : ∀ a b ca cb, a ≠ b → codeTable.find a = some ca → codeTable.find b = some cb →
      ¬ ca <+: cb)
    (hshape : ∀ k c, codeTable.find k = some c → c ≠ [] ∧ IsBinary c)
    (hN : 1 ≤ S.length) (hS : ∀ s ∈ S, (codeTable.find s).isSome = true) :
    ∃ trie, buildDecodingTrie codeTable S.length = .ok trie
      ∧ (∀ s c, codeTable.find s = some c →
          trie.node c = some ⟨true, s⟩
          ∧ ∀ r, r <+: c → r ≠ c → ∃ n, trie.node r = some n ∧ n.isEndOfCode = false)
      ∧ (readCompressedDataAndDecode trie S.length
          (writeBits (streamBits codeTable S)).flush.os).1 = S
      ∧ (readCompressedDataAndDecode trie S.length
          (writeBits (streamBits codeTable S)).flush.os).2.1 = none := by
  have hne : S ≠ [] := fun h0 => by rw [h0] at hN; simp at hN
  have hsz : codeTable.size ≠ 0 := by
    rw [Ne, ByteMap.size_eq_zero_iff]
    intro hnone
    obtain ⟨s, hs⟩ := List.exists_mem_of_ne_nil S hne
    have := hS s hs
    rw [hnone s] at this
    cases this
  have htrie := buildDecodingTrie_eq codeTable S.length hsz
  have htab := trie_of_table codeTable hpf hshape
  obtain ⟨rest, hdec⟩ := readCompressedDataAndDecode_spec codeTable S
    (writeBits (streamBits codeTable S)).flush.os _ (pfxFree_of_table codeTable hpf) hshape hS
    (writeBits_flush (streamBits codeTable S)).1
  generalize insertEntries Trie.root codeTable.entries = trie at htrie htab hdec
  exact ⟨trie, htrie, htab, by rw [hdec], by rw [hdec]⟩

/-- Witness of C33: the table 'A' -> "0", 'B' -> "1" and the sequence "ABA". -/
theorem trie_decodes_prefix_free_table_witness :
    ∃ trie, buildDecodingTrie pairTable ([65, 66, 65] : List Byte).length = .ok trie
      ∧ (∀ s c, pairTable.find s = some c →
          trie.node c = some ⟨true, s⟩
          ∧ ∀ r, r <+: c → r ≠ c → ∃ n, trie.node r = some n ∧ n.isEndOfCode = false)
      ∧ (readCompressedDataAndDecode trie ([65, 66, 65] : List Byte).length
          (writeBits (streamBits pairTable [65, 66, 65])).flush.os).1 = [65, 66, 65]
      ∧ (readCompressedDataAndDecode trie ([65, 66, 65] : List Byte).length
          (writeBits (streamBits pairTable [65, 66, 65])).flush.os).2.1 = none :=
  trie_decodes_prefix_free_table pairTable [65, 66, 65] pairTable_pfxFree pairTable_shape
    (by decide) pairTable_keys

/-- C34 (code lengths fit the length byte): in the code table built from a frequency table
with `n ≥ 2` symbols, every code has a length between 1 and `n - 1`, so at most 255; the
cast of that length to the one-byte Code Length of `writeDictionary` keeps its value, and
the record written holds the whole code. -/
theorem code_length_fits_byte (frequencyMap : ByteMap Nat) (hn : 2 ≤ frequencyMap.size)
    (k : Byte) (c : Str) (h : (buildCodesInternal frequencyMap).find k = some c) :
    1 ≤ c.length ∧ c.length ≤ frequencyMap.size - 1 ∧ c.length ≤ 255
    ∧ c.length % 256 = c.length
    ∧ writeEntry (k, c) = [k, toByte c.length] ++ c := by
  obtain ⟨h1, h2⟩ := buildCodesInternal_length frequencyMap hn k c h
  have h3 := frequencyMap.size_le
  exact ⟨h1, h2, by omega, Nat.mod_eq_of_lt (by omega), writeEntry_eq (k, c) (by simp; omega)⟩

/-- Witness of C34: the code of 'A' in the table built for the input "AAAB". -/
theorem code_length_fits_byte_witness :
    2 ≤ (buildFrequencyMap [65, 65, 65, 66]).1.size
    ∧ (buildCodesInternal (buildFrequencyMap [65, 65, 65, 66]).1).find 65 = some [chr0]
    ∧ ([chr0] : Str).length ≤ (buildFrequencyMap [65, 65, 65, 66]).1.size - 1 :=
  ⟨by rw [sample_size], sample_code,
    (code_length_fits_byte (buildFrequencyMap [65, 65, 65, 66]).1 (by rw [sample_size]) 65
      [chr0] sample_code).2.1⟩

/-- C35 (the code table is complete): for a frequency table with `n ≥ 2` symbols, the
sum over the codes of the table of `2 ^ (- length)` is 1; in the decoding trie built from
the table, every node that is not an end-of-code node has a child for '0' and a child
for '1'; and `decode` with a dictionary that `encode` wrote for an input with two or more
distinct bytes never fails with the error for a bit sequence without a path, whatever
the payload. For a frequency table with one symbol the sum is `1 / 2`. -/
theorem code_table_complete (frequencyMap : ByteMap Nat) :
    (2 ≤ frequencyMap.size →
      ((buildCodesInternal frequencyMap).entries.map
          (fun e => (1 / 2 : ℚ) ^ e.2.length)).sum = 1
      ∧ (∀ r n b,
          (insertEntries Trie.root (buildCodesInternal frequencyMap).entries).node r = some n →
          n.isEndOfCode = false → b = chr0 ∨ b = chr1 →
          ((insertEntries Trie.root (buildCodesInternal frequencyMap).entries).node
            (r ++ [b])).isSome = true)
      ∧ (∀ (self self2 : ShannonFano) (S payload : List Byte),
          (buildFrequencyMap S).1 = frequencyMap →
          (self2.decode payload (self.encode S).dictFile).status ≠ .error .noPathInTrie))
    ∧ (frequencyMap.size = 1 →
      ((buildCodesInternal frequencyMap).entries.map
          (fun e => (1 / 2 : ℚ) ^ e.2.length)).sum = 1 / 2) := by
  refine ⟨fun hn => ⟨kraft_table frequencyMap hn, ?_, ?_⟩, kraft_single frequencyMap⟩
  · intro r n b hnode hend hb
    exact trie_complete frequencyMap hn r n hnode hend b hb
  · intro self self2 S payload hfm
    exact decode_never_noPath self self2 S payload (by rw [hfm]; exact hn)

/-- Witness of C35: the frequency table of the input "AAAB" and the payload 0xFF. -/
theorem code_table_complete_witness :
    2 ≤ (buildFrequencyMap [65, 65, 65, 66]).1.size
    ∧ ((buildCodesInternal (buildFrequencyMap [65, 65, 65, 66]).1).entries.map
          (fun e => (1 / 2 : ℚ) ^ e.2.length)).sum = 1
    ∧ (ShannonFano.new.decode [0xFF]
        (ShannonFano.new.encode [65, 65, 65, 66]).dictFile).status ≠ .error .noPathInTrie :=
  ⟨by rw [sample_size],
    ((code_table_complete (buildFrequencyMap [65, 65, 65, 66]).1).1 (by rw [sample_size])).1,
    ((code_table_complete (buildFrequencyMap [65, 65, 65, 66]).1).1
      (by rw [sample_size])).2.2 ShannonFano.new ShannonFano.new [65, 65, 65, 66] [0xFF] rfl⟩

/-- C36 (size of the payload): for every non-empty input `S` whose length fits the 64-bit
counters, the payload `encode` writes has `ceil (B / 8)` bytes, where `B` is the sum over
the entries of the frequency table of the frequency times the length of the code of the
symbol. -/
theorem payload_size (self : ShannonFano) (S : List Byte) (hS : S ≠ [])
    (h : S.length < 2 ^ 64) :
    (self.encode S).outputFile.length
      = (((buildFrequencyMap S).1.entries.map (fun e =>
          e.2 * (((buildCodesInternal (buildFrequencyMap S).1).find e.1).getD []).length)).sum
          + 7) / 8 := by
  rw [encode_payload_length self S hS h, totalCodeLength_eq S h]

/-- Witness of C36 at the input "AAAB": 3 * 1 + 1 * 1 = 4 bits make one byte. -/
theorem payload_size_witness :
    ([65, 65, 65, 66] : List Byte) ≠ [] ∧ ([65, 65, 65, 66] : List Byte).length < 2 ^ 64
    ∧ (ShannonFano.new.encode [65, 65, 65, 66]).outputFile.length
      = (((buildFrequencyMap [65, 65, 65, 66]).1.entries.map (fun e =>
          e.2 * (((buildCodesInternal (buildFrequencyMap [65, 65, 65, 66]).1).find e.1).getD
            []).length)).sum + 7) / 8 :=
  ⟨by decide, by decide, payload_size ShannonFano.new [65, 65, 65, 66] (by decide) (by decide)⟩

/-- C37 (codes in sorted order): for a frequency table with `n ≥ 2` symbols, the codes of
the symbols, listed in the order in which the builder has sorted the symbols, are in
strictly increasing lexicographic order; the first of them consists of '0' only and the
last of '1' only. -/
theorem codes_increase_in_sorted_order (frequencyMap : ByteMap Nat)
    (hn : 2 ≤ frequencyMap.size) :
    (sortedCodes frequencyMap).length = frequencyMap.size
    ∧ (sortedCodes frequencyMap).Pairwise (List.Lex (fun a b : Byte => a < b))
    ∧ (∀ c, (sortedCodes frequencyMap).head? = some c → ∀ x ∈ c, x = chr0)
    ∧ (∀ c, (sortedCodes frequencyMap).getLast? = some c → ∀ x ∈ c, x = chr1) := by
  obtain ⟨h1, ⟨k0, h2⟩, ⟨k1, h3⟩⟩ := sortedCodes_spec frequencyMap hn
  refine ⟨?_, h1, ?_, ?_⟩
  · unfold sortedCodes
    rw [List.length_map, List.length_map, std_sort_length, symbolsOf_length]
  · intro c hc x hx
    rw [h2] at hc
    rw [← Option.some.inj hc] at hx
    exact List.eq_of_mem_replicate hx
  · intro c hc x hx
    rw [h3] at hc
    rw [← Option.some.inj hc] at hx
    exact List.eq_of_mem_replicate hx

/-- Witness of C37: the frequency table of the input "AAAB". -/
theorem codes_increase_in_sorted_order_witness :
    2 ≤ (buildFrequencyMap [65, 65, 65, 66]).1.size
    ∧ (sortedCodes (buildFrequencyMap [65, 65, 65, 66]).1).Pairwise
        (List.Lex (fun a b : Byte => a < b)) :=
  ⟨by rw [sample_size],
    (codes_increase_in_sorted_order (buildFrequencyMap [65, 65, 65, 66]).1
      (by rw [sample_size])).2.1⟩

/-- C38 (the dictionary depends on the counts only): for two inputs that are permutations
of each other, `encode` builds the same frequency table, Original Length and code table
and writes the same dictionary bytes. -/
theorem dictionary_of_permuted_input (self self2 : ShannonFano) (S S2 : List Byte)
    (h : S.Perm S2) :
    (self.encode S).dictFile = (self2.encode S2).dictFile
    ∧ (buildFrequencyMap S).2 = (buildFrequencyMap S2).2
    ∧ buildCodesInternal (buildFrequencyMap S).1 = buildCodesInternal (buildFrequencyMap S2).1 :=
  ⟨encode_dictFile_perm self self2 S S2 h, by rw [buildFrequencyMap_perm S S2 h],
    by rw [buildFrequencyMap_perm S S2 h]⟩

/-- Witness of C38 at the inputs "AAAB" and "ABAA". -/
theorem dictionary_of_permuted_input_witness :
    ([65, 65, 65, 66] : List Byte).Perm [65, 66, 65, 65]
    ∧ (ShannonFano.new.encode [65, 65, 65, 66]).dictFile
      = (ShannonFano.new.encode [65, 66, 65, 65]).dictFile :=
  ⟨by decide,
    (dictionary_of_permuted_input ShannonFano.new ShannonFano.new [65, 65, 65, 66]
      [65, 66, 65, 65] (by decide)).1⟩

end shannon_fano

namespace ascii85

/-- C39: for every byte string `x` in which no chunk of `encode` (the bytes `4 k .. 4 k + 3`)
is four zero bytes, `decode (encode x)` returns `x`. Moreover, for every final chunk `c` of 1
to 3 bytes, `encode` writes the `c.length + 1` leading characters of the group of `c`, `decode`
reads them back as one group, and padding that group with 'u' gives a value that is computed
without exceeding 32 bits (the machine value equals the exact one, which is below `2 ^ 32`)
and whose leading bytes are exactly `c`. -/
theorem roundtrip_without_zero_chunk (x : List Char8) (h : NoZeroChunk x) :
    decode (encode x) = .ok x
    ∧ ∀ c : List Char8, 1 ≤ c.length → c.length ≤ 3 →
        encode c = digitChars (bigEndian c) (c.length + 1)
        ∧ readGroup (encode c) ((encode c).length + 1) 0 0 0 0
            = .ok (c.length + 1, bigEndian c / 85 ^ (4 - c.length), c.length + 1)
        ∧ padGroup (4 - c.length) (bigEndian c / 85 ^ (4 - c.length))
            = .ok (bigEndian c / 85 ^ (4 - c.length) * 85 ^ (4 - c.length)
                + (85 ^ (4 - c.length) - 1))
        ∧ bigEndian c / 85 ^ (4 - c.length) * 85 ^ (4 - c.length) + (85 ^ (4 - c.length) - 1)
            < 2 ^ 32
        ∧ (List.range c.length).map (fun j => toChar8
            (((bigEndian c / 85 ^ (4 - c.length) * 85 ^ (4 - c.length)
                + (85 ^ (4 - c.length) - 1)) >>> (8 * (3 - j))) &&& 0xFF)) = c :=
  ⟨decode_encode_of_noZeroChunk x h, fun c h1 h3 => final_group_padding c h1 h3⟩

/-- The round trip of the 13 bytes of "Hello, World!", which end in a chunk of one byte. -/
theorem roundtrip_without_zero_chunk_witness :
    NoZeroChunk ([72, 101, 108, 108, 111, 44, 32, 87, 111, 114, 108, 100, 33] : List Char8)
    ∧ decode (encode [72, 101, 108, 108, 111, 44, 32, 87, 111, 114, 108, 100, 33])
        = .ok [72, 101, 108, 108, 111, 44, 32, 87, 111, 114, 108, 100, 33] :=
  ⟨noZeroChunk_hello, (roundtrip_without_zero_chunk _ noZeroChunk_hello).1⟩

end ascii85

namespace shannon_fano

/-- C40 (paths of `encode` that are never taken): for every input `S` held in memory, its
length below `2 ^ 63`, `encode` ends without an exception: every byte of `S` has an entry
in the code table, so `codeTable.at` does not throw in the compression pass, and the pass
does not throw the size mismatch. On every range of two or more symbols that
`shannonFanoRecursive` is called on, the first split candidate has a difference below the
initial `min_diff`, and the scan ends with `split_iter` moved from `begin`, so the
fallback `split_iter = std::next(begin)` is not taken. -/
theorem encode_internal_safety (self : ShannonFano) (S : List Byte) (h : S.length < 2 ^ 63) :
    (∃ st, (self.encode S).status = .ok st)
    ∧ (∀ s ∈ S, ((buildCodesInternal (buildFrequencyMap S).1).find s).isSome = true)
    ∧ (S ≠ [] → (writeCompressedData (buildCodesInternal (buildFrequencyMap S).1)
        (buildFrequencyMap S).2 S).2 = none)
    ∧ (∀ r ∈ visitedRanges (std_sort (symbolsOf (buildFrequencyMap S).1)).length
          (std_sort (symbolsOf (buildFrequencyMap S).1)),
        scanSplit (totalFreq r) r.dropLast 0 0 (totalFreq r) 0 ≠ 0
        ∧ ∃ s0 tail, r = s0 :: tail
          ∧ (toLongLong ((0 + s0.frequency) % 2 ^ 64)
              - toLongLong ((totalFreq r + 2 ^ 64 - (0 + s0.frequency) % 2 ^ 64)
                % 2 ^ 64)).natAbs % 2 ^ 64 < totalFreq r) := by
  have hkeys : ∀ s ∈ S, ((buildCodesInternal (buildFrequencyMap S).1).find s).isSome = true := by
    intro s hs
    rw [isSome_find_buildCodesInternal, buildFrequencyMap_isSome]
    exact hs
  refine ⟨?_, hkeys, ?_, ?_⟩
  · by_cases hS : S = []
    · subst hS
      rw [encode_nil]
      exact ⟨_, rfl⟩
    · obtain ⟨out, pad, he, _⟩ := encode_cons self S hS
      rw [he]
      exact ⟨_, rfl⟩
  · intro _
    obtain ⟨out, pad, h1, _⟩ := writeCompressedData_spec
      (buildCodesInternal (buildFrequencyMap S).1) (S.length % 2 ^ 64) S hkeys (Nat.mod_le _ _)
    rw [buildFrequencyMap_size, h1]
  · intro r hr
    obtain ⟨hpos, hsum, h2⟩ := encode_ranges S h r hr
    exact range_scan r hpos hsum h2

/-- Witness of C40 at the input "AAAB". -/
theorem encode_internal_safety_witness :
    ([65, 65, 65, 66] : List Byte).length < 2 ^ 63
    ∧ ∃ st, (ShannonFano.new.encode [65, 65, 65, 66]).status = .ok st :=
  ⟨by decide, (encode_internal_safety ShannonFano.new [65, 65, 65, 66] (by decide)).1⟩

end shannon_fano
